import Mathlib

/-!
# TSDF integration and surface-vertex extraction (`SpecialOpEWCPU`)

A shallow embedding of `src/cpp/open3d/core/kernel/SpecialOpCPU.cpp`.

Conventions of the embedding:

* `float` values are rationals (`ℚ`). The kernels are embedded twice: with
  exact arithmetic (`IntegrateKernel`, `ExtractSurfaceKernel`), where a float
  expression of the source is read as the same expression over `ℚ`, and with
  every operation rounded to binary32 by `rnd32` (`IntegrateKernel32`,
  `ExtractSurfaceKernel32`); statements that rounding decides are made about
  the second embedding;
* `int64_t` indices and offsets that the code only ever uses with non-negative
  values (workload indices, block indices, in-block offsets, local voxel
  coordinates) are `Nat`; block keys and global voxel coordinates are `Int`,
  and `wrap64` gives the value that an `int64_t` operation stores;
* a raw channel pointer obtained from `GetWorkloadValuePtr (key_idx, channel,
  value_idx)` is a slot of the total map `SparseTensorList.values`; the vertex
  buffers are maps from the vertex index, and the runs `ExtractSurfaceChecked`
  and `ExtractSurface32` give them their allocated size `total_count`: a store
  past their end ends the run with `none`;
* `CPULauncher::LaunchGeneralKernel (n, f)` runs `f` once per workload index;
  `LaunchGeneralKernel` is the run in increasing order, `LaunchInOrder` the run
  in an arbitrary sequential order.
-/

namespace open3d.core.kernel

/-! ## Indexers and projector (declared in headers that are not part of the sources) -/

/-- Shape of one voxel block, `grid_shape = shapes_[0]`. -/
structure SizeVector where
  d0 : Nat
  d1 : Nat
  d2 : Nat
deriving DecidableEq, Repr

/-- Number of voxels of one block, `grid_shape.NumElements()`. -/
def SizeVector.NumElements (s : SizeVector) : Nat := s.d0 * s.d1 * s.d2

/-- Sparse list of voxel blocks: `size` blocks, the integer key of each block
and the per-voxel channel values, addressed as
`values key_idx channel value_idx`. -/
structure SparseTensorList (α : Type) where
  size : Nat
  shape : SizeVector
  keys : Nat → Int × Int × Int
  values : Nat → Nat → Nat → α

/-- Store through the pointer `GetWorkloadValuePtr (key_idx, channel, value_idx)`. -/
def SparseTensorList.store {α : Type} (tl : SparseTensorList α)
    (key_idx channel value_idx : Nat) (x : α) : SparseTensorList α :=
  { tl with
    values := fun k c v =>
      if k = key_idx ∧ c = channel ∧ v = value_idx then x else tl.values k c v }

/-- Modelled from the spec: `NDArrayIndexer::ConvertOffsetTo3D` (Indexer.h is
missing): a flat in-block offset is converted to 3-D coordinates by integer
division and modulo on the strides of `grid_shape`, `x` being the fastest
coordinate. -/
def ConvertOffsetTo3D (shape : SizeVector) (offset : Nat) : Nat × Nat × Nat :=
  (offset % shape.d2, (offset / shape.d2) % shape.d1, offset / (shape.d2 * shape.d1))

/-- Modelled from the spec: `NDArrayIndexer::Convert3DToOffset` (Indexer.h is
missing), the inverse direction of `ConvertOffsetTo3D`. -/
def Convert3DToOffset (shape : SizeVector) (x y z : Nat) : Nat :=
  (z * shape.d1 + y) * shape.d2 + x

/-- Modelled from the spec: `NDArrayIndexer::Convert2DToOffset` (Indexer.h is
missing) for a row-major 2-D buffer with `cols` columns: entry in column `x`
of row `y`. -/
def Convert2DToOffset (cols : Int) (x y : Int) : Int := y * cols + x

/-- Modelled from the spec: `NDArrayIndexer::InBoundary2D` (Indexer.h is
missing), the bounds check of 2-D image addressing: `(0,0)` is inside,
`(-1, v)` and `(u, rows)` are outside. -/
def InBoundary2D (rows cols : Nat) (u v : ℚ) : Bool :=
  decide (0 ≤ v) && decide (0 ≤ u) && decide (v < (rows : ℚ)) && decide (u < (cols : ℚ))

/-- Conversion `static_cast<int64_t>(float)`: truncation toward zero. -/
def truncCast (q : ℚ) : Int := if 0 ≤ q then ⌊q⌋ else ⌈q⌉

/-- Modelled from the spec: `SparseIndexer::GetSparseWorkloadIdx`
(SparseIndexer.h is missing): with `workload_per_key` voxels in every block a
flat workload index resolves to the pair `(key_idx, value_idx)`. -/
def GetSparseWorkloadIdx (workload_per_key workload_idx : Nat) : Nat × Nat :=
  (workload_idx / workload_per_key, workload_idx % workload_per_key)

/-- Modelled from the spec: `SparseIndexer::NumWorkloads` (SparseIndexer.h is
missing): the total number of active voxels. -/
def NumWorkloads {α : Type} (tl : SparseTensorList α) (workload_per_key : Nat) : Nat :=
  tl.size * workload_per_key

/-- Modelled from the spec: `Projector` (its header is missing): pinhole
intrinsics, a rigid extrinsic transform (row-major rotation `r` and translation
`t`) and the voxel size. -/
structure Projector where
  fx : ℚ
  fy : ℚ
  cx : ℚ
  cy : ℚ
  r00 : ℚ
  r01 : ℚ
  r02 : ℚ
  r10 : ℚ
  r11 : ℚ
  r12 : ℚ
  r20 : ℚ
  r21 : ℚ
  r22 : ℚ
  t0 : ℚ
  t1 : ℚ
  t2 : ℚ
  voxel_size : ℚ

/-- Modelled from the spec: `Projector::Transform` (its header is missing):
the extrinsic rotation and translation applied to the voxel coordinate scaled
by `voxel_size`. -/
def Projector.Transform (p : Projector) (x y z : ℚ) : ℚ × ℚ × ℚ :=
  (p.voxel_size * (p.r00 * x + p.r01 * y + p.r02 * z) + p.t0,
   p.voxel_size * (p.r10 * x + p.r11 * y + p.r12 * z) + p.t1,
   p.voxel_size * (p.r20 * x + p.r21 * y + p.r22 * z) + p.t2)

/-- Modelled from the spec: `Projector::Project` (its header is missing): the
pinhole divide `u = fx*xc/zc + cx`, `v = fy*yc/zc + cy`. -/
def Projector.Project (p : Projector) (xc yc zc : ℚ) : ℚ × ℚ :=
  (p.fx * xc / zc + p.cx, p.fy * yc / zc + p.cy)

/-- Sequential run of a kernel over the workload indices `0, .., n-1`. -/
def LaunchGeneralKernel {σ : Type} (n : Nat) (f : σ → Nat → σ) (s : σ) : σ :=
  (List.range n).foldl f s

/-- Sequential run of a kernel over the workload indices in the given order. -/
def LaunchInOrder {σ : Type} (order : List Nat) (f : σ → Nat → σ) (s : σ) : σ :=
  order.foldl f s

/-! ## `case SpecialOpCode::Integrate` -/

/-- Depth image `input_tensors[0]` of shape `(c, rows, cols)` read through its
flat data pointer. -/
structure DepthFrame where
  rows : Nat
  cols : Nat
  data : Int → ℚ

/-- Tensor inputs of the Integrate case. -/
structure IntegrateInput where
  depth : DepthFrame
  projector : Projector
  sdf_trunc : ℚ

/-- Global integer coordinate `(x, y, z)` of the voxel of a workload index:
block key times `resolution` plus the local coordinate (lines 65-80, and
lines 218-221 with 235-241). -/
def voxelCoord (shape : SizeVector) (keys : Nat → Int × Int × Int) (workload_idx : Nat) :
    Int × Int × Int :=
  let key_idx := (GetSparseWorkloadIdx shape.NumElements workload_idx).1
  let value_idx := (GetSparseWorkloadIdx shape.NumElements workload_idx).2
  let l := ConvertOffsetTo3D shape value_idx
  let g := keys key_idx
  let resolution : Int := shape.d0
  (g.1 * resolution + l.1, g.2.1 * resolution + l.2.1, g.2.2 * resolution + l.2.2)

/-- Camera-space point `(xc, yc, zc)` of the voxel (lines 82-85). -/
def cameraPoint (inp : IntegrateInput) (tl : SparseTensorList ℚ) (workload_idx : Nat) :
    ℚ × ℚ × ℚ :=
  let c := voxelCoord tl.shape tl.keys workload_idx
  inp.projector.Transform (c.1 : ℚ) (c.2.1 : ℚ) (c.2.2 : ℚ)

/-- Projected pixel `(u, v)` of the voxel (line 86). -/
def pixel (inp : IntegrateInput) (tl : SparseTensorList ℚ) (workload_idx : Nat) : ℚ × ℚ :=
  let c := cameraPoint inp tl workload_idx
  inp.projector.Project c.1 c.2.1 c.2.2

/-- Depth sampled at the pixel of the voxel (lines 92-96). -/
def sampledDepth (inp : IntegrateInput) (tl : SparseTensorList ℚ) (workload_idx : Nat) : ℚ :=
  let uv := pixel inp tl workload_idx
  inp.depth.data (Convert2DToOffset inp.depth.cols (truncCast uv.1) (truncCast uv.2))

/-- Body of the Integrate kernel (lines 64-115). -/
def IntegrateKernel (inp : IntegrateInput) (tl : SparseTensorList ℚ) (workload_idx : Nat) :
    SparseTensorList ℚ :=
  let key_idx := (GetSparseWorkloadIdx tl.shape.NumElements workload_idx).1
  let value_idx := (GetSparseWorkloadIdx tl.shape.NumElements workload_idx).2
  let zc := (cameraPoint inp tl workload_idx).2.2
  let uv := pixel inp tl workload_idx
  if !InBoundary2D inp.depth.rows inp.depth.cols uv.1 uv.2 then tl
  else
    let depth := sampledDepth inp tl workload_idx
    let sdf := depth - zc
    if depth ≤ 0 ∨ zc ≤ 0 ∨ sdf < -inp.sdf_trunc then tl
    else
      let sdf := if sdf < inp.sdf_trunc then sdf else inp.sdf_trunc
      let sdf := sdf / inp.sdf_trunc
      let tsdf_sum := tl.values key_idx 0 value_idx
      let weight_sum := tl.values key_idx 1 value_idx
      (tl.store key_idx 0 value_idx ((weight_sum * tsdf_sum + sdf) / (weight_sum + 1))).store
        key_idx 1 value_idx (weight_sum + 1)

/-- The Integrate case of `SpecialOpEWCPU`: the kernel launched over all
workloads of the volume. -/
def Integrate (inp : IntegrateInput) (tl : SparseTensorList ℚ) : SparseTensorList ℚ :=
  LaunchGeneralKernel (NumWorkloads tl tl.shape.NumElements) (IntegrateKernel inp) tl

/-! ## Vocabulary of the statements about Integrate -/

/-- The observation of a voxel is not skipped: its projected pixel is inside
the depth image, `depth > 0`, `zc > 0` and `depth - zc >= -sdf_trunc`. -/
def Observed (inp : IntegrateInput) (tl : SparseTensorList ℚ) (workload_idx : Nat) : Prop :=
  InBoundary2D inp.depth.rows inp.depth.cols (pixel inp tl workload_idx).1
      (pixel inp tl workload_idx).2 = true ∧
    0 < sampledDepth inp tl workload_idx ∧
    0 < (cameraPoint inp tl workload_idx).2.2 ∧
    -inp.sdf_trunc ≤ sampledDepth inp tl workload_idx - (cameraPoint inp tl workload_idx).2.2

instance (inp : IntegrateInput) (tl : SparseTensorList ℚ) (workload_idx : Nat) :
    Decidable (Observed inp tl workload_idx) := by
  unfold Observed; infer_instance

/-- The clamped, normalised observation
`s = min (depth - zc, sdf_trunc) / sdf_trunc`. -/
def normalisedSdf (inp : IntegrateInput) (tl : SparseTensorList ℚ) (workload_idx : Nat) : ℚ :=
  min (sampledDepth inp tl workload_idx - (cameraPoint inp tl workload_idx).2.2) inp.sdf_trunc /
    inp.sdf_trunc

/-- Stored value `tsdf` of the voxel of a workload index (channel 0). -/
def tsdfOf (tl : SparseTensorList ℚ) (workload_idx : Nat) : ℚ :=
  tl.values (GetSparseWorkloadIdx tl.shape.NumElements workload_idx).1 0
    (GetSparseWorkloadIdx tl.shape.NumElements workload_idx).2

/-- Stored value `weight` of the voxel of a workload index (channel 1). -/
def weightOf (tl : SparseTensorList ℚ) (workload_idx : Nat) : ℚ :=
  tl.values (GetSparseWorkloadIdx tl.shape.NumElements workload_idx).1 1
    (GetSparseWorkloadIdx tl.shape.NumElements workload_idx).2

/-- Effect of one kernel invocation on the pair `(tsdf, weight)` of its voxel. -/
def voxelStep (inp : IntegrateInput) (tl : SparseTensorList ℚ) (workload_idx : Nat)
    (tw : ℚ × ℚ) : ℚ × ℚ :=
  if Observed inp tl workload_idx then
    ((tw.2 * tw.1 + normalisedSdf inp tl workload_idx) / (tw.2 + 1), tw.2 + 1)
  else tw

/-- Integration of a sequence of frames, one `Integrate` call per frame. -/
def IntegrateAll (frames : List IntegrateInput) (tl : SparseTensorList ℚ) :
    SparseTensorList ℚ :=
  frames.foldl (fun acc inp => Integrate inp acc) tl

/-! ## Concrete data used to exercise the statements -/

/-- Projector with identity extrinsics, unit focal lengths, principal point
`(0, 0)` and unit voxel size. -/
def unitProjector : Projector :=
  { fx := 1, fy := 1, cx := 0, cy := 0,
    r00 := 1, r01 := 0, r02 := 0, r10 := 0, r11 := 1, r12 := 0, r20 := 0, r21 := 0, r22 := 1,
    t0 := 0, t1 := 0, t2 := 0, voxel_size := 1 }

/-- Frame of a `1 x 1` depth image of constant depth `d`, truncation
distance `1`. -/
def constFrame (d : ℚ) : IntegrateInput :=
  { depth := { rows := 1, cols := 1, data := fun _ => d },
    projector := unitProjector, sdf_trunc := 1 }

/-- Frame whose principal point is shifted to `(-1, 0)`: every voxel on the
optical axis projects to the pixel `(-1, 0)`. -/
def shiftedFrame (d : ℚ) : IntegrateInput :=
  { depth := { rows := 1, cols := 1, data := fun _ => d },
    projector := { unitProjector with cx := -1 }, sdf_trunc := 1 }

/-- Volume of one block of one voxel with key `(0, 0, 1)`, stored
`tsdf = t` and `weight = wt`. -/
def oneVoxel (t wt : ℚ) : SparseTensorList ℚ :=
  { size := 1, shape := { d0 := 1, d1 := 1, d2 := 1 }, keys := fun _ => (0, 0, 1),
    values := fun _ c _ => if c = 0 then t else wt }

/-! ## `case SpecialOpCode::ExtractSurface` -/

/-- Inputs of the ExtractSurface case: `voxel_size` (`input_tensors[0]`), the
`27 x m` neighbour validity mask (`input_tensors[1]`, read through its flat
data pointer), the fused volume (`input_sparse_tls[0]`), its 27-neighbour
view (`input_sparse_tls[1]`) and `grid_shape = output_sparse_tl.shapes_[0]`. -/
structure ExtractInput where
  voxel_size : ℚ
  m : Nat
  nb_mask : Int → Bool
  tsdf : SparseTensorList ℚ
  tsdf_nb : SparseTensorList ℚ
  grid_shape : SizeVector

/-- Memory written by the ExtractSurface kernel: the counter `*count_ptr`, the
integer channels of `output_sparse_tl` (addressed as
`surf key_idx i value_idx`) and the three vertex buffers. -/
structure SurfaceState where
  count : Nat
  surf : Nat → Nat → Nat → Int
  vertices_x : Nat → ℚ
  vertices_y : Nat → ℚ
  vertices_z : Nat → ℚ

/-- Allocation size of the vertex buffers (line 154). -/
def total_count : Nat := 1700000

/-- Block index of a workload, `key_idx`. -/
def keyIdx (inp : ExtractInput) (workload_idx : Nat) : Nat :=
  (GetSparseWorkloadIdx inp.grid_shape.NumElements workload_idx).1

/-- In-block offset of a workload, `value_idx`. -/
def valueIdx (inp : ExtractInput) (workload_idx : Nat) : Nat :=
  (GetSparseWorkloadIdx inp.grid_shape.NumElements workload_idx).2

/-- Local coordinate stepped in direction `i`: `(xl_i, yl_i, zl_i)`
(lines 180-185). -/
def steppedCoord (inp : ExtractInput) (workload_idx i : Nat) : Nat × Nat × Nat :=
  let l := ConvertOffsetTo3D inp.grid_shape (valueIdx inp workload_idx)
  (l.1 + (if i = 0 then 1 else 0), l.2.1 + (if i = 1 then 1 else 0),
   l.2.2 + (if i = 2 then 1 else 0))

/-- Block offsets `(dx, dy, dz)` of the stepped coordinate (lines 187-189). -/
def blockOffset (inp : ExtractInput) (workload_idx i : Nat) : Nat × Nat × Nat :=
  let s := steppedCoord inp workload_idx i
  let resolution := inp.grid_shape.d0
  (s.1 / resolution, s.2.1 / resolution, s.2.2 / resolution)

/-- Index of the neighbour block among the 27 adjacent ones, `nb_idx`
(line 191). -/
def nbIdx (inp : ExtractInput) (workload_idx i : Nat) : Nat :=
  let d := blockOffset inp workload_idx i
  (d.1 + 1) + (d.2.1 + 1) * 3 + (d.2.2 + 1) * 9

/-- Validity bit of the neighbour block, `nb_valid` (lines 193-197). -/
def nbValid (inp : ExtractInput) (workload_idx i : Nat) : Bool :=
  inp.nb_mask (Convert2DToOffset inp.m (keyIdx inp workload_idx) (nbIdx inp workload_idx i))

/-- Offset of the neighbour voxel inside its own block, `nb_value_idx`
(lines 200-203). -/
def nbValueIdx (inp : ExtractInput) (workload_idx i : Nat) : Nat :=
  let s := steppedCoord inp workload_idx i
  let d := blockOffset inp workload_idx i
  let resolution := inp.grid_shape.d0
  Convert3DToOffset inp.grid_shape (s.1 - d.1 * resolution) (s.2.1 - d.2.1 * resolution)
    (s.2.2 - d.2.2 * resolution)

/-- Value `tsdf_o` of the base voxel (lines 172-174). -/
def tsdfO (inp : ExtractInput) (workload_idx : Nat) : ℚ :=
  inp.tsdf.values (keyIdx inp workload_idx) 0 (valueIdx inp workload_idx)

/-- Weight `weight_o` of the base voxel (lines 175-177). -/
def weightO (inp : ExtractInput) (workload_idx : Nat) : ℚ :=
  inp.tsdf.values (keyIdx inp workload_idx) 1 (valueIdx inp workload_idx)

/-- Value `tsdf_i` of the neighbour voxel (lines 204-206). -/
def tsdfI (inp : ExtractInput) (workload_idx i : Nat) : ℚ :=
  inp.tsdf_nb.values (nbIdx inp workload_idx i * inp.m + keyIdx inp workload_idx) 0
    (nbValueIdx inp workload_idx i)

/-- Weight `weight_i` of the neighbour voxel (lines 207-209). -/
def weightI (inp : ExtractInput) (workload_idx i : Nat) : ℚ :=
  inp.tsdf_nb.values (nbIdx inp workload_idx i * inp.m + keyIdx inp workload_idx) 1
    (nbValueIdx inp workload_idx i)

/-- Interpolation fraction of line 212. -/
def ratio (tsdf_i tsdf_o : ℚ) : ℚ := tsdf_i / (tsdf_i - tsdf_o)

/-- Coordinates written for the vertex of the edge in direction `i`
(lines 212, 218-221 and 233-241). -/
def edgeVertex (inp : ExtractInput) (workload_idx i : Nat) : ℚ × ℚ × ℚ :=
  let r := ratio (tsdfI inp workload_idx i) (tsdfO inp workload_idx)
  let g := voxelCoord inp.grid_shape inp.tsdf.keys workload_idx
  (inp.voxel_size * ((g.1 : ℚ) + r * (if i = 0 then 1 else 0)),
   inp.voxel_size * ((g.2.1 : ℚ) + r * (if i = 1 then 1 else 0)),
   inp.voxel_size * ((g.2.2 : ℚ) + r * (if i = 2 then 1 else 0)))

/-- Fetch-and-increment of the counter followed by the three stores
(lines 214-241). -/
def emitVertex (inp : ExtractInput) (workload_idx i : Nat) (st : SurfaceState) :
    SurfaceState :=
  let idx := st.count
  let p := edgeVertex inp workload_idx i
  { count := st.count + 1
    surf := fun k c v =>
      if k = keyIdx inp workload_idx ∧ c = i ∧ v = valueIdx inp workload_idx then (idx : Int)
      else st.surf k c v
    vertices_x := fun j => if j = idx then p.1 else st.vertices_x j
    vertices_y := fun j => if j = idx then p.2.1 else st.vertices_y j
    vertices_z := fun j => if j = idx then p.2.2 else st.vertices_z j }

/-- One iteration of the loop over the directions (lines 182-243). -/
def ExtractEdge (inp : ExtractInput) (workload_idx : Nat) (st : SurfaceState) (i : Nat) :
    SurfaceState :=
  if !nbValid inp workload_idx i then st
  else if 0 < weightI inp workload_idx i ∧
      tsdfI inp workload_idx i * tsdfO inp workload_idx < 0 then
    emitVertex inp workload_idx i st
  else st

/-- Body of the ExtractSurface kernel (lines 165-244). -/
def ExtractSurfaceKernel (inp : ExtractInput) (st : SurfaceState) (workload_idx : Nat) :
    SurfaceState :=
  if weightO inp workload_idx = 0 then st
  else [0, 1, 2].foldl (ExtractEdge inp workload_idx) st

/-- Number of workloads of the extraction, `tsdf_indexer.NumWorkloads()`. -/
def extractWorkloads (inp : ExtractInput) : Nat :=
  NumWorkloads inp.tsdf inp.grid_shape.NumElements

/-- The kernel run over the workloads in a given sequential order, from the
memory `mem` with the counter set to `0` (lines 150 and 165-244). -/
def ExtractSurfaceInOrder (order : List Nat) (inp : ExtractInput) (mem : SurfaceState) :
    SurfaceState :=
  LaunchInOrder order (ExtractSurfaceKernel inp) { mem with count := 0 }

/-- The ExtractSurface case of `SpecialOpEWCPU` up to the final counter read. -/
def ExtractSurface (inp : ExtractInput) (mem : SurfaceState) : SurfaceState :=
  LaunchGeneralKernel (extractWorkloads inp) (ExtractSurfaceKernel inp) { mem with count := 0 }

/-- Final counter value, `actual_count` (line 245). -/
def actual_count (st : SurfaceState) : Nat := st.count

/-- Columns of `output_tensor`: the first `actual_count` entries of the three
vertex buffers (lines 248-254). -/
def outputColumns (st : SurfaceState) : List (ℚ × ℚ × ℚ) :=
  (List.range (actual_count st)).map
    (fun j => (st.vertices_x j, st.vertices_y j, st.vertices_z j))

/-- Two one-voxel blocks with keys `(0,0,0)` and `(1,0,0)`, both of weight
`wo`. Block 0 stores `tsdf = 1/4` and has a valid `+x` neighbour storing
`-3/4`; block 1 stores `-3/4` and has a valid `+y` neighbour storing `1/2`; all
other neighbour blocks are invalid. The voxel size is `2`. -/
def edgeVolume (wo : ℚ) : ExtractInput :=
  { voxel_size := 2, m := 2,
    nb_mask := fun o => decide (o = 28 ∨ o = 33),
    tsdf :=
      { size := 2, shape := { d0 := 1, d1 := 1, d2 := 1 },
        keys := fun k => if k = 0 then (0, 0, 0) else (1, 0, 0),
        values := fun k c _ => if c = 1 then wo else if k = 0 then 1 / 4 else -3 / 4 },
    tsdf_nb :=
      { size := 54, shape := { d0 := 1, d1 := 1, d2 := 1 },
        keys := fun _ => (0, 0, 0),
        values := fun k c _ => if c = 1 then 1 else if k = 28 then -3 / 4 else 1 / 2 },
    grid_shape := { d0 := 1, d1 := 1, d2 := 1 } }

/-- Output memory before a call: all channels and buffers hold `0`. -/
def blankMemory : SurfaceState :=
  { count := 0, surf := fun _ _ _ => 0, vertices_x := fun _ => 0, vertices_y := fun _ => 0,
    vertices_z := fun _ => 0 }

/-! ## Vocabulary of the statements about ExtractSurface -/

/-- The kernel creates a vertex on the edge of workload `w` in direction `i`:
the voxel passes the `weight_o == 0` test, `i` is one of the three directions,
the neighbour block is valid and the test of line 211 succeeds. -/
def Emitted (inp : ExtractInput) (w i : Nat) : Prop :=
  weightO inp w ≠ 0 ∧ i < 3 ∧ nbValid inp w i = true ∧ 0 < weightI inp w i ∧
    tsdfI inp w i * tsdfO inp w < 0

instance (inp : ExtractInput) (w i : Nat) : Decidable (Emitted inp w i) := by
  unfold Emitted; infer_instance

/-- A sign-changing edge in the words of the specification: the weight of the
voxel is `> 0`, the block of the neighbour is marked valid, the weight of the
neighbour is `> 0` and the two values have opposite sign. -/
def SignChange (inp : ExtractInput) (w i : Nat) : Prop :=
  0 < weightO inp w ∧ nbValid inp w i = true ∧ 0 < weightI inp w i ∧
    tsdfI inp w i * tsdfO inp w < 0

instance (inp : ExtractInput) (w i : Nat) : Decidable (SignChange inp w i) := by
  unfold SignChange; infer_instance

/-- The (voxel, direction) pairs of the volume that are sign-changing edges in
the words of the specification. -/
def signChangePairs (inp : ExtractInput) : Finset (Nat × Nat) :=
  (Finset.range (extractWorkloads inp) ×ˢ Finset.range 3).filter
    (fun p => SignChange inp p.1 p.2)

/-- The (voxel, direction) pairs of the volume on which the kernel creates a
vertex. -/
def emittedPairs (inp : ExtractInput) : Finset (Nat × Nat) :=
  (Finset.range (extractWorkloads inp) ×ˢ Finset.range 3).filter
    (fun p => Emitted inp p.1 p.2)

/-- Test deciding whether one loop iteration creates a vertex. -/
def edgeTest (inp : ExtractInput) (w i : Nat) : Bool :=
  nbValid inp w i && decide (0 < weightI inp w i ∧ tsdfI inp w i * tsdfO inp w < 0)

/-- Directions in which the kernel creates a vertex for workload `w`, in loop
order. -/
def emittedDirs (inp : ExtractInput) (w : Nat) : List Nat :=
  if weightO inp w = 0 then [] else [0, 1, 2].filter (edgeTest inp w)

/-- Edges on which vertices are created when the workloads run in the given
order, in order of creation. -/
def emissions (inp : ExtractInput) (order : List Nat) : List (Nat × Nat) :=
  order.flatMap (fun w => (emittedDirs inp w).map (fun i => (w, i)))

/-- Creation of the vertices of a list of edges, one after the other. -/
def pushAll (inp : ExtractInput) (st : SurfaceState) (es : List (Nat × Nat)) : SurfaceState :=
  es.foldl (fun s e => emitVertex inp e.1 e.2 s) st

/-- Vertex index stored in the output channel of the edge `(w, i)`. -/
def vertexInd (inp : ExtractInput) (st : SurfaceState) (w i : Nat) : Int :=
  st.surf (keyIdx inp w) i (valueIdx inp w)

/-! ## The dispatch of `SpecialOpEWCPU` -/

/-- Rows of `output_tensor`, of shape `3 x actual_count`: row 0, 1 and 2 are
assigned the slices `[0, actual_count)` of `vertices_x`, `vertices_y` and
`vertices_z` (lines 248-254). -/
def output_tensor (st : SurfaceState) : List (List ℚ) :=
  [(List.range (actual_count st)).map st.vertices_x,
   (List.range (actual_count st)).map st.vertices_y,
   (List.range (actual_count st)).map st.vertices_z]

/-- Modelled from the spec: `SpecialOpCode` (SpecialOp.h is missing): the
enumerated operator code; `other` stands for every value besides the two that
the switch handles. -/
inductive SpecialOpCode where
  | Integrate : SpecialOpCode
  | ExtractSurface : SpecialOpCode
  | other (code : Nat) : SpecialOpCode
deriving DecidableEq

/-- Arguments of `SpecialOpEWCPU` as the two cases read them: the tensors and
the volume of the Integrate case, the tensors, volumes and output memory of the
ExtractSurface case. -/
structure SpecialOpArgs where
  integrate_input : IntegrateInput
  tsdf_volume : SparseTensorList ℚ
  extract_input : ExtractInput
  memory : SurfaceState

/-- What a call leaves behind: the volume mutated by Integrate, or the memory
written by ExtractSurface together with `output_tensor`. -/
inductive SpecialOpResult where
  | integrated (output_sparse_tl : SparseTensorList ℚ) : SpecialOpResult
  | extracted (st : SurfaceState) (rows : List (List ℚ)) : SpecialOpResult

/-- The switch of `SpecialOpEWCPU` (lines 39-487); `utility::LogError` of the
default case raises (modelled from the spec: a fatal unsupported-operation
error), no other statement of the function raises. -/
def SpecialOpEWCPU (args : SpecialOpArgs) (op_code : SpecialOpCode) :
    Except String SpecialOpResult :=
  match op_code with
  | SpecialOpCode.Integrate =>
    Except.ok (SpecialOpResult.integrated (Integrate args.integrate_input args.tsdf_volume))
  | SpecialOpCode.ExtractSurface =>
    Except.ok (SpecialOpResult.extracted (ExtractSurface args.extract_input args.memory)
      (output_tensor (ExtractSurface args.extract_input args.memory)))
  | SpecialOpCode.other _ => Except.error "Unsupported special op"

/-- Frame of a `1 x 1` depth image of constant depth `d` with truncation
distance `t`. -/
def truncFrame (d t : ℚ) : IntegrateInput :=
  { depth := { rows := 1, cols := 1, data := fun _ => d },
    projector := unitProjector, sdf_trunc := t }

/-- Volume of `n` one-voxel blocks of weight 1 storing `tsdf = 1/4`, every
neighbour block being valid, of weight 1 and storing `-3/4`: each of the `3 n`
edges changes sign. -/
def denseVolume (n : Nat) : ExtractInput :=
  { voxel_size := 1, m := n,
    nb_mask := fun _ => true,
    tsdf :=
      { size := n, shape := { d0 := 1, d1 := 1, d2 := 1 },
        keys := fun k => ((k : Int), 0, 0),
        values := fun _ c _ => if c = 1 then 1 else 1 / 4 },
    tsdf_nb :=
      { size := 27 * n, shape := { d0 := 1, d1 := 1, d2 := 1 },
        keys := fun _ => (0, 0, 0),
        values := fun _ c _ => if c = 1 then 1 else -3 / 4 },
    grid_shape := { d0 := 1, d1 := 1, d2 := 1 } }

/-- Arguments whose Integrate part is the one-voxel volume seen by a frame of
depth `d` and truncation `t`, and whose ExtractSurface part is `inp`. -/
def sampleArgs (d t : ℚ) (inp : ExtractInput) : SpecialOpArgs :=
  { integrate_input := truncFrame d t, tsdf_volume := oneVoxel 0 0,
    extract_input := inp, memory := blankMemory }

/-! ## Block addressing arithmetic as functions of the local coordinate -/

/-- Local coordinate stepped in direction `i`, `(xl_i, yl_i, zl_i)`
(lines 183-185), as a function of the local coordinate `(xl, yl, zl)`. -/
def stepLocal (l : Nat × Nat × Nat) (i : Nat) : Nat × Nat × Nat :=
  (l.1 + (if i = 0 then 1 else 0), l.2.1 + (if i = 1 then 1 else 0),
   l.2.2 + (if i = 2 then 1 else 0))

/-- Block offsets `(dx, dy, dz)` of a stepped coordinate (lines 187-189). -/
def blockOffsetOf (resolution : Nat) (s : Nat × Nat × Nat) : Nat × Nat × Nat :=
  (s.1 / resolution, s.2.1 / resolution, s.2.2 / resolution)

/-- Index `nb_idx` of the neighbour block with offsets `(dx, dy, dz)`
(line 191). -/
def nbIdxOf (d : Nat × Nat × Nat) : Nat :=
  (d.1 + 1) + (d.2.1 + 1) * 3 + (d.2.2 + 1) * 9

/-- Stepped coordinate wrapped into the block of the neighbour, the arguments
of `Convert3DToOffset` on lines 201-203. -/
def wrapLocal (resolution : Nat) (s : Nat × Nat × Nat) : Nat × Nat × Nat :=
  let d := blockOffsetOf resolution s
  (s.1 - d.1 * resolution, s.2.1 - d.2.1 * resolution, s.2.2 - d.2.2 * resolution)

/-- Global voxel coordinate of the voxel with local coordinate `l` in the
block with key `g`: `(xg * resolution + xl, yg * resolution + yl,
zg * resolution + zl)` (lines 78-80 and 235-241). -/
def globalCoord (resolution : Nat) (g : Int × Int × Int) (l : Nat × Nat × Nat) :
    Int × Int × Int :=
  (g.1 * (resolution : Int) + l.1, g.2.1 * (resolution : Int) + l.2.1,
   g.2.2 * (resolution : Int) + l.2.2)

/-- Cubic block shape of a given resolution. -/
def cubicShape (resolution : Nat) : SizeVector :=
  { d0 := resolution, d1 := resolution, d2 := resolution }

/-- Extraction input over blocks of `2 x 2 x 2` voxels whose other fields are
those of the two-block volume. -/
def cubicVolume : ExtractInput :=
  { edgeVolume 1 with grid_shape := cubicShape 2 }

/-! ## ExtractSurface with the vertex buffers of their allocated size -/

/-- The fetch-and-increment and the stores of lines 214-241 with the three
vertex buffers of their allocated size `total_count` (lines 154-157): the
stores at `idx` are inside the buffers when `idx < total_count`; `none` stands
for the store past the end of the buffers, after which the program has no
defined behaviour. -/
def emitVertexChecked (inp : ExtractInput) (workload_idx i : Nat) (st : SurfaceState) :
    Option SurfaceState :=
  if st.count < total_count then some (emitVertex inp workload_idx i st) else none

/-- One iteration of the loop over the directions (lines 182-243), buffers of
size `total_count`. -/
def ExtractEdgeChecked (inp : ExtractInput) (workload_idx : Nat) (st : SurfaceState) (i : Nat) :
    Option SurfaceState :=
  if !nbValid inp workload_idx i then some st
  else if 0 < weightI inp workload_idx i ∧
      tsdfI inp workload_idx i * tsdfO inp workload_idx < 0 then
    emitVertexChecked inp workload_idx i st
  else some st

/-- Body of the ExtractSurface kernel (lines 165-244), buffers of size
`total_count`. -/
def ExtractSurfaceKernelChecked (inp : ExtractInput) (st : SurfaceState) (workload_idx : Nat) :
    Option SurfaceState :=
  if weightO inp workload_idx = 0 then some st
  else [0, 1, 2].foldlM (ExtractEdgeChecked inp workload_idx) st

/-- The kernel run over the workloads in a given sequential order from a
counter at `0`, buffers of size `total_count`: `some` final memory when every
store was inside the buffers, `none` when a store ran past their end. -/
def ExtractSurfaceChecked (order : List Nat) (inp : ExtractInput) (mem : SurfaceState) :
    Option SurfaceState :=
  order.foldlM (ExtractSurfaceKernelChecked inp) { mem with count := 0 }

/-- Creation of the vertices of a list of edges, buffers of size
`total_count`. -/
def pushAllChecked (inp : ExtractInput) (st : SurfaceState) (es : List (Nat × Nat)) :
    Option SurfaceState :=
  es.foldlM (fun s e => emitVertexChecked inp e.1 e.2 s) st

/-! ## Global voxel coordinates in `int64_t` -/

/-- Value held by an `int64_t` after an operation whose mathematical result
is `z`: two's-complement wrap-around into `[-2^63, 2^63)`. -/
def wrap64 (z : Int) : Int := (z + 2 ^ 63) % 2 ^ 64 - 2 ^ 63

/-- The integer `z` is a value of `int64_t`. -/
def InInt64 (z : Int) : Prop := -2 ^ 63 ≤ z ∧ z < 2 ^ 63

instance (z : Int) : Decidable (InInt64 z) := by
  unfold InInt64; infer_instance

/-- Global voxel coordinate as computed in `int64_t` by lines 78-80 (and by
lines 235-241 before the conversion to `float`): the product
`key * resolution`, then the sum with the local coordinate. -/
def globalCoord64 (resolution : Nat) (g : Int × Int × Int) (l : Nat × Nat × Nat) :
    Int × Int × Int :=
  (wrap64 (wrap64 (g.1 * (resolution : Int)) + l.1),
   wrap64 (wrap64 (g.2.1 * (resolution : Int)) + l.2.1),
   wrap64 (wrap64 (g.2.2 * (resolution : Int)) + l.2.2))

/-- No operation of `globalCoord64` overflows. -/
def NoOverflow64 (resolution : Nat) (g : Int × Int × Int) (l : Nat × Nat × Nat) : Prop :=
  (InInt64 (g.1 * (resolution : Int)) ∧ InInt64 (g.1 * (resolution : Int) + l.1)) ∧
    (InInt64 (g.2.1 * (resolution : Int)) ∧ InInt64 (g.2.1 * (resolution : Int) + l.2.1)) ∧
    (InInt64 (g.2.2 * (resolution : Int)) ∧ InInt64 (g.2.2 * (resolution : Int) + l.2.2))

instance (resolution : Nat) (g : Int × Int × Int) (l : Nat × Nat × Nat) :
    Decidable (NoOverflow64 resolution g l) := by
  unfold NoOverflow64; infer_instance

/-- Global coordinate `(x, y, z)` of the voxel of a workload index as computed
in `int64_t` (lines 65-80). -/
def voxelCoord64 (shape : SizeVector) (keys : Nat → Int × Int × Int) (workload_idx : Nat) :
    Int × Int × Int :=
  globalCoord64 shape.d0 (keys (GetSparseWorkloadIdx shape.NumElements workload_idx).1)
    (ConvertOffsetTo3D shape (GetSparseWorkloadIdx shape.NumElements workload_idx).2)

/-! ## Binary32 arithmetic

The type `float` of the source is IEEE 754 binary32. A finite binary32 number is
a rational, and every operation of the kernels returns the exact result rounded
to the nearest binary32 number, ties to even. `rnd32` is that rounding on `ℚ`,
with gradual underflow; overflow to infinity and NaN are not represented, so the
statements below are about finite values far from the overflow threshold. -/

/-- Nearest integer, ties to the even one. -/
def roundHalfEven (x : ℚ) : Int :=
  if 2 * (x - ⌊x⌋) < 1 then ⌊x⌋
  else if 1 < 2 * (x - ⌊x⌋) then ⌊x⌋ + 1
  else if ⌊x⌋ % 2 = 0 then ⌊x⌋
  else ⌊x⌋ + 1

/-- Exponent `e` of the binary32 binade `2^e <= |x| < 2^(e+1)` of `x`, and the
least normal exponent `-126` for zero and the subnormal range. -/
def binade (x : ℚ) : Int := if x = 0 then -126 else max (Int.log 2 |x|) (-126)

/-- Spacing of the binary32 numbers around `x` (24 significant bits). -/
def ulp32 (x : ℚ) : ℚ := 2 ^ (binade x - 23)

/-- The binary32 number nearest to `x`, ties to even. -/
def rnd32 (x : ℚ) : ℚ := (roundHalfEven (x / ulp32 x) : ℚ) * ulp32 x

/-- The expression `a * b + c` in binary32. The compiler may round the product
and the sum separately or contract them into one fused multiply-add with a
single rounding; `fused` selects the second. -/
def mulAdd32 (fused : Bool) (a b c : ℚ) : ℚ :=
  if fused then rnd32 (a * b + c) else rnd32 (rnd32 (a * b) + c)

/-! ## `case SpecialOpCode::Integrate` in binary32 -/

/-- Body of the Integrate kernel (lines 64-115) with the arithmetic of lines
98-114 in binary32. The outputs `zc`, `u`, `v` of the projector and the sampled
depth are taken as they are. -/
def IntegrateKernel32 (fused : Bool) (inp : IntegrateInput) (tl : SparseTensorList ℚ)
    (workload_idx : Nat) : SparseTensorList ℚ :=
  let key_idx := (GetSparseWorkloadIdx tl.shape.NumElements workload_idx).1
  let value_idx := (GetSparseWorkloadIdx tl.shape.NumElements workload_idx).2
  let zc := (cameraPoint inp tl workload_idx).2.2
  let uv := pixel inp tl workload_idx
  if !InBoundary2D inp.depth.rows inp.depth.cols uv.1 uv.2 then tl
  else
    let depth := sampledDepth inp tl workload_idx
    let sdf := rnd32 (depth - zc)
    if depth ≤ 0 ∨ zc ≤ 0 ∨ sdf < -inp.sdf_trunc then tl
    else
      let sdf := if sdf < inp.sdf_trunc then sdf else inp.sdf_trunc
      let sdf := rnd32 (sdf / inp.sdf_trunc)
      let tsdf_sum := tl.values key_idx 0 value_idx
      let weight_sum := tl.values key_idx 1 value_idx
      (tl.store key_idx 0 value_idx
          (rnd32 (mulAdd32 fused weight_sum tsdf_sum sdf / rnd32 (weight_sum + 1)))).store
        key_idx 1 value_idx (rnd32 (weight_sum + 1))

/-- The Integrate case of `SpecialOpEWCPU` in binary32: the kernel launched over
all workloads of the volume. -/
def Integrate32 (fused : Bool) (inp : IntegrateInput) (tl : SparseTensorList ℚ) :
    SparseTensorList ℚ :=
  LaunchGeneralKernel (NumWorkloads tl tl.shape.NumElements) (IntegrateKernel32 fused inp) tl

/-- Integration of a sequence of frames in binary32, one `Integrate32` call per
frame. -/
def IntegrateAll32 (fused : Bool) (frames : List IntegrateInput) (tl : SparseTensorList ℚ) :
    SparseTensorList ℚ :=
  frames.foldl (fun acc inp => Integrate32 fused inp acc) tl

/-- The observation of a voxel is not skipped by the binary32 kernel: its pixel
is inside the depth image, `depth > 0`, `zc > 0` and the rounded difference
`depth - zc` is at least `-sdf_trunc`. -/
def Observed32 (inp : IntegrateInput) (tl : SparseTensorList ℚ) (workload_idx : Nat) : Prop :=
  InBoundary2D inp.depth.rows inp.depth.cols (pixel inp tl workload_idx).1
      (pixel inp tl workload_idx).2 = true ∧
    0 < sampledDepth inp tl workload_idx ∧
    0 < (cameraPoint inp tl workload_idx).2.2 ∧
    -inp.sdf_trunc ≤
      rnd32 (sampledDepth inp tl workload_idx - (cameraPoint inp tl workload_idx).2.2)

instance (inp : IntegrateInput) (tl : SparseTensorList ℚ) (workload_idx : Nat) :
    Decidable (Observed32 inp tl workload_idx) := by
  unfold Observed32; infer_instance

/-- The clamped, normalised observation as the binary32 kernel computes it:
`sdf = depth - zc`, clamped from above by `sdf_trunc`, divided by `sdf_trunc`. -/
def normalisedSdf32 (inp : IntegrateInput) (tl : SparseTensorList ℚ) (workload_idx : Nat) : ℚ :=
  rnd32 (min (rnd32 (sampledDepth inp tl workload_idx - (cameraPoint inp tl workload_idx).2.2))
    inp.sdf_trunc / inp.sdf_trunc)

/-- The binary32 update of lines 110-114 of the pair `(tsdf, weight)` by a
normalised observation `s`. -/
def stepPair32 (fused : Bool) (tw : ℚ × ℚ) (s : ℚ) : ℚ × ℚ :=
  (rnd32 (mulAdd32 fused tw.2 tw.1 s / rnd32 (tw.2 + 1)), rnd32 (tw.2 + 1))

/-- Effect of one binary32 kernel invocation on the pair `(tsdf, weight)` of its
voxel. -/
def voxelStep32 (fused : Bool) (inp : IntegrateInput) (tl : SparseTensorList ℚ)
    (workload_idx : Nat) (tw : ℚ × ℚ) : ℚ × ℚ :=
  if Observed32 inp tl workload_idx then stepPair32 fused tw (normalisedSdf32 inp tl workload_idx)
  else tw

/-! ## `case SpecialOpCode::ExtractSurface` in binary32

The kernel of lines 165-244 with its arithmetic as the machine performs it: the
test of line 211 and the stores of lines 232-241 in binary32, the global
coordinate `xg * resolution + xl` in `int64_t`, and the three vertex buffers of
their allocated size `total_count`. -/

/-- Interpolation fraction of line 212 in binary32: the difference is rounded,
then the quotient. -/
def ratio32 (tsdf_i tsdf_o : ℚ) : ℚ := rnd32 (tsdf_i / rnd32 (tsdf_i - tsdf_o))

/-- One coordinate as stored by lines 232-241,
`voxel_size * (xg * resolution + xl + ratio * int(i == c))`: the `int64_t`
coordinate `g` and the integer `int(i == c)` (given as `e`) are converted to
binary32, then the product, the sum and the outer product are rounded. The
inner product is `ratio` or `0` and is exact, so that a contraction of the
product and the sum into one fused multiply-add stores the same value. -/
def coord32 (voxel_size : ℚ) (g : Int) (r e : ℚ) : ℚ :=
  rnd32 (voxel_size * rnd32 (rnd32 (g : ℚ) + rnd32 (r * e)))

/-- Coordinates written for the vertex of the edge in direction `i`
(lines 212, 218-221 and 233-241) in binary32. -/
def edgeVertex32 (inp : ExtractInput) (workload_idx i : Nat) : ℚ × ℚ × ℚ :=
  let r := ratio32 (tsdfI inp workload_idx i) (tsdfO inp workload_idx)
  let g := voxelCoord64 inp.grid_shape inp.tsdf.keys workload_idx
  (coord32 inp.voxel_size g.1 r (if i = 0 then 1 else 0),
   coord32 inp.voxel_size g.2.1 r (if i = 1 then 1 else 0),
   coord32 inp.voxel_size g.2.2 r (if i = 2 then 1 else 0))

/-- Fetch-and-increment of the counter followed by the three binary32 stores
(lines 214-241). -/
def emitVertex32 (inp : ExtractInput) (workload_idx i : Nat) (st : SurfaceState) :
    SurfaceState :=
  let idx := st.count
  let p := edgeVertex32 inp workload_idx i
  { count := st.count + 1
    surf := fun k c v =>
      if k = keyIdx inp workload_idx ∧ c = i ∧ v = valueIdx inp workload_idx then (idx : Int)
      else st.surf k c v
    vertices_x := fun j => if j = idx then p.1 else st.vertices_x j
    vertices_y := fun j => if j = idx then p.2.1 else st.vertices_y j
    vertices_z := fun j => if j = idx then p.2.2 else st.vertices_z j }

/-- The stores of lines 214-241 into buffers of size `total_count`: `none`
stands for the store past the end of the buffers. -/
def emitVertexChecked32 (inp : ExtractInput) (workload_idx i : Nat) (st : SurfaceState) :
    Option SurfaceState :=
  if st.count < total_count then some (emitVertex32 inp workload_idx i st) else none

/-- One iteration of the loop over the directions (lines 182-243) in binary32:
the product of the test of line 211 is rounded before it is compared with 0. -/
def ExtractEdge32 (inp : ExtractInput) (workload_idx : Nat) (st : SurfaceState) (i : Nat) :
    Option SurfaceState :=
  if !nbValid inp workload_idx i then some st
  else if 0 < weightI inp workload_idx i ∧
      rnd32 (tsdfI inp workload_idx i * tsdfO inp workload_idx) < 0 then
    emitVertexChecked32 inp workload_idx i st
  else some st

/-- Body of the ExtractSurface kernel (lines 165-244) in binary32. -/
def ExtractSurfaceKernel32 (inp : ExtractInput) (st : SurfaceState) (workload_idx : Nat) :
    Option SurfaceState :=
  if weightO inp workload_idx = 0 then some st
  else [0, 1, 2].foldlM (ExtractEdge32 inp workload_idx) st

/-- The binary32 kernel run over the workloads in a given sequential order from
a counter at `0`: `some` final memory when every store was inside the buffers,
`none` when a store ran past their end. -/
def ExtractSurface32 (order : List Nat) (inp : ExtractInput) (mem : SurfaceState) :
    Option SurfaceState :=
  order.foldlM (ExtractSurfaceKernel32 inp) { mem with count := 0 }

/-- The binary32 kernel creates a vertex on the edge of workload `w` in
direction `i`. -/
def Emitted32 (inp : ExtractInput) (w i : Nat) : Prop :=
  weightO inp w ≠ 0 ∧ i < 3 ∧ nbValid inp w i = true ∧ 0 < weightI inp w i ∧
    rnd32 (tsdfI inp w i * tsdfO inp w) < 0

instance (inp : ExtractInput) (w i : Nat) : Decidable (Emitted32 inp w i) := by
  unfold Emitted32; infer_instance

/-- The (voxel, direction) pairs of the volume on which the binary32 kernel
creates a vertex. -/
def emittedPairs32 (inp : ExtractInput) : Finset (Nat × Nat) :=
  (Finset.range (extractWorkloads inp) ×ˢ Finset.range 3).filter
    (fun p => Emitted32 inp p.1 p.2)

/-- Test deciding whether one binary32 loop iteration creates a vertex. -/
def edgeTest32 (inp : ExtractInput) (w i : Nat) : Bool :=
  nbValid inp w i && decide (0 < weightI inp w i ∧ rnd32 (tsdfI inp w i * tsdfO inp w) < 0)

/-- Directions in which the binary32 kernel creates a vertex for workload `w`,
in loop order. -/
def emittedDirs32 (inp : ExtractInput) (w : Nat) : List Nat :=
  if weightO inp w = 0 then [] else [0, 1, 2].filter (edgeTest32 inp w)

/-- Edges on which the binary32 kernel creates vertices when the workloads run
in the given order, in order of creation. -/
def emissions32 (inp : ExtractInput) (order : List Nat) : List (Nat × Nat) :=
  order.flatMap (fun w => (emittedDirs32 inp w).map (fun i => (w, i)))

/-- Creation of the binary32 vertices of a list of edges, one after the other. -/
def pushAll32 (inp : ExtractInput) (st : SurfaceState) (es : List (Nat × Nat)) : SurfaceState :=
  es.foldl (fun s e => emitVertex32 inp e.1 e.2 s) st

/-- Creation of the binary32 vertices of a list of edges, buffers of size
`total_count`. -/
def pushAllChecked32 (inp : ExtractInput) (st : SurfaceState) (es : List (Nat × Nat)) :
    Option SurfaceState :=
  es.foldlM (fun s e => emitVertexChecked32 inp e.1 e.2 s) st

/-- One block of one voxel with key `(0, 0, 0)`, weight `1` and `tsdf = 2^-30`,
whose `+x` neighbour block is valid and stores `tsdf = -1`, weight `1`; all
other neighbour blocks are invalid. The voxel size is `2`. -/
def grazingVolume : ExtractInput :=
  { voxel_size := 2, m := 1,
    nb_mask := fun o => decide (o = 14),
    tsdf :=
      { size := 1, shape := { d0 := 1, d1 := 1, d2 := 1 },
        keys := fun _ => (0, 0, 0),
        values := fun _ c _ => if c = 1 then 1 else 1 / 2 ^ 30 },
    tsdf_nb :=
      { size := 27, shape := { d0 := 1, d1 := 1, d2 := 1 },
        keys := fun _ => (0, 0, 0),
        values := fun _ c _ => if c = 1 then 1 else -1 },
    grid_shape := { d0 := 1, d1 := 1, d2 := 1 } }

/-- One block of one voxel with key `(0, 0, 0)`, weight `1` and `tsdf = 1/2`,
whose `+x` neighbour block is valid and stores `tsdf = -1/2`, weight `1`; all
other neighbour blocks are invalid. The voxel size is `2`. -/
def halfVolume : ExtractInput :=
  { voxel_size := 2, m := 1,
    nb_mask := fun o => decide (o = 14),
    tsdf :=
      { size := 1, shape := { d0 := 1, d1 := 1, d2 := 1 },
        keys := fun _ => (0, 0, 0),
        values := fun _ c _ => if c = 1 then 1 else 1 / 2 },
    tsdf_nb :=
      { size := 27, shape := { d0 := 1, d1 := 1, d2 := 1 },
        keys := fun _ => (0, 0, 0),
        values := fun _ c _ => if c = 1 then 1 else -1 / 2 },
    grid_shape := { d0 := 1, d1 := 1, d2 := 1 } }

/-! ## Lemmas on the Integrate kernel -/

theorem workloadIdx_injective (e a b : Nat)
    (h : GetSparseWorkloadIdx e a = GetSparseWorkloadIdx e b) : a = b := by
  unfold GetSparseWorkloadIdx at h
  have h1 : a / e = b / e := congrArg Prod.fst h
  have h2 : a % e = b % e := congrArg Prod.snd h
  rw [← Nat.div_add_mod a e, ← Nat.div_add_mod b e, h1, h2]

theorem IntegrateKernel_skip (inp : IntegrateInput) (tl : SparseTensorList ℚ) (w : Nat)
    (h : ¬ Observed inp tl w) : IntegrateKernel inp tl w = tl := by
  unfold IntegrateKernel
  by_cases hb : InBoundary2D inp.depth.rows inp.depth.cols (pixel inp tl w).1
      (pixel inp tl w).2 = true
  · have hs : sampledDepth inp tl w ≤ 0 ∨ (cameraPoint inp tl w).2.2 ≤ 0 ∨
        sampledDepth inp tl w - (cameraPoint inp tl w).2.2 < -inp.sdf_trunc := by
      by_contra hc
      push_neg at hc
      exact h ⟨hb, hc.1, hc.2.1, hc.2.2⟩
    simp [hb, hs]
  · simp [hb]

theorem IntegrateKernel_observed (inp : IntegrateInput) (tl : SparseTensorList ℚ) (w : Nat)
    (h : Observed inp tl w) :
    IntegrateKernel inp tl w =
      (tl.store (GetSparseWorkloadIdx tl.shape.NumElements w).1 0
          (GetSparseWorkloadIdx tl.shape.NumElements w).2
          ((weightOf tl w * tsdfOf tl w + normalisedSdf inp tl w) / (weightOf tl w + 1))).store
        (GetSparseWorkloadIdx tl.shape.NumElements w).1 1
        (GetSparseWorkloadIdx tl.shape.NumElements w).2 (weightOf tl w + 1) := by
  obtain ⟨hb, hd, hz, hs⟩ := h
  have hn : ¬ (sampledDepth inp tl w ≤ 0 ∨ (cameraPoint inp tl w).2.2 ≤ 0 ∨
      sampledDepth inp tl w - (cameraPoint inp tl w).2.2 < -inp.sdf_trunc) := by
    push_neg
    exact ⟨hd, hz, hs⟩
  have hmin : (if sampledDepth inp tl w - (cameraPoint inp tl w).2.2 < inp.sdf_trunc then
      sampledDepth inp tl w - (cameraPoint inp tl w).2.2 else inp.sdf_trunc) =
      min (sampledDepth inp tl w - (cameraPoint inp tl w).2.2) inp.sdf_trunc := by
    split_ifs with hlt
    · exact (min_eq_left hlt.le).symm
    · exact (min_eq_right (not_lt.mp hlt)).symm
  unfold IntegrateKernel
  simp only [hb, Bool.not_true, Bool.false_eq_true, if_false, hn, hmin]
  rfl

theorem store_shape {α : Type} (tl : SparseTensorList α) (k c v : Nat) (x : α) :
    (tl.store k c v x).shape = tl.shape := rfl

theorem store_keys {α : Type} (tl : SparseTensorList α) (k c v : Nat) (x : α) :
    (tl.store k c v x).keys = tl.keys := rfl

theorem store_size {α : Type} (tl : SparseTensorList α) (k c v : Nat) (x : α) :
    (tl.store k c v x).size = tl.size := rfl

theorem store_values_of_ne {α : Type} (tl : SparseTensorList α) (k c v k' c' v' : Nat) (x : α)
    (h : ¬ (k = k' ∧ v = v')) : (tl.store k' c' v' x).values k c v = tl.values k c v := by
  simp only [SparseTensorList.store]
  rw [if_neg]
  rintro ⟨h1, _, h3⟩
  exact h ⟨h1, h3⟩

theorem IntegrateKernel_frame (inp : IntegrateInput) (tl : SparseTensorList ℚ) (a : Nat) :
    (IntegrateKernel inp tl a).shape = tl.shape ∧ (IntegrateKernel inp tl a).keys = tl.keys ∧
      (IntegrateKernel inp tl a).size = tl.size := by
  by_cases h : Observed inp tl a
  · rw [IntegrateKernel_observed inp tl a h]
    exact ⟨rfl, rfl, rfl⟩
  · rw [IntegrateKernel_skip inp tl a h]
    exact ⟨rfl, rfl, rfl⟩

theorem cameraPoint_congr (inp : IntegrateInput) (tl tl' : SparseTensorList ℚ) (w : Nat)
    (hs : tl'.shape = tl.shape) (hk : tl'.keys = tl.keys) :
    cameraPoint inp tl' w = cameraPoint inp tl w := by
  unfold cameraPoint
  rw [hs, hk]

theorem pixel_congr (inp : IntegrateInput) (tl tl' : SparseTensorList ℚ) (w : Nat)
    (hs : tl'.shape = tl.shape) (hk : tl'.keys = tl.keys) :
    pixel inp tl' w = pixel inp tl w := by
  unfold pixel
  rw [cameraPoint_congr inp tl tl' w hs hk]

theorem sampledDepth_congr (inp : IntegrateInput) (tl tl' : SparseTensorList ℚ) (w : Nat)
    (hs : tl'.shape = tl.shape) (hk : tl'.keys = tl.keys) :
    sampledDepth inp tl' w = sampledDepth inp tl w := by
  unfold sampledDepth
  rw [pixel_congr inp tl tl' w hs hk]

theorem Observed_congr (inp : IntegrateInput) (tl tl' : SparseTensorList ℚ) (w : Nat)
    (hs : tl'.shape = tl.shape) (hk : tl'.keys = tl.keys) :
    Observed inp tl' w ↔ Observed inp tl w := by
  unfold Observed
  rw [pixel_congr inp tl tl' w hs hk, sampledDepth_congr inp tl tl' w hs hk,
    cameraPoint_congr inp tl tl' w hs hk]

theorem normalisedSdf_congr (inp : IntegrateInput) (tl tl' : SparseTensorList ℚ) (w : Nat)
    (hs : tl'.shape = tl.shape) (hk : tl'.keys = tl.keys) :
    normalisedSdf inp tl' w = normalisedSdf inp tl w := by
  unfold normalisedSdf
  rw [sampledDepth_congr inp tl tl' w hs hk, cameraPoint_congr inp tl tl' w hs hk]

theorem voxelStep_congr (inp : IntegrateInput) (tl tl' : SparseTensorList ℚ) (w : Nat)
    (hs : tl'.shape = tl.shape) (hk : tl'.keys = tl.keys) (tw : ℚ × ℚ) :
    voxelStep inp tl' w tw = voxelStep inp tl w tw := by
  unfold voxelStep
  rw [normalisedSdf_congr inp tl tl' w hs hk]
  simp only [Observed_congr inp tl tl' w hs hk]

theorem IntegrateKernel_self (inp : IntegrateInput) (tl : SparseTensorList ℚ) (w : Nat) :
    (tsdfOf (IntegrateKernel inp tl w) w, weightOf (IntegrateKernel inp tl w) w) =
      voxelStep inp tl w (tsdfOf tl w, weightOf tl w) := by
  by_cases h : Observed inp tl w
  · rw [IntegrateKernel_observed inp tl w h]
    simp [voxelStep, h, tsdfOf, weightOf, SparseTensorList.store]
  · rw [IntegrateKernel_skip inp tl w h]
    simp [voxelStep, h]

theorem IntegrateKernel_other (inp : IntegrateInput) (tl : SparseTensorList ℚ) (a w : Nat)
    (haw : a ≠ w) :
    tsdfOf (IntegrateKernel inp tl a) w = tsdfOf tl w ∧
      weightOf (IntegrateKernel inp tl a) w = weightOf tl w := by
  by_cases h : Observed inp tl a
  · rw [IntegrateKernel_observed inp tl a h]
    have hne : ¬ ((GetSparseWorkloadIdx tl.shape.NumElements w).1 =
          (GetSparseWorkloadIdx tl.shape.NumElements a).1 ∧
        (GetSparseWorkloadIdx tl.shape.NumElements w).2 =
          (GetSparseWorkloadIdx tl.shape.NumElements a).2) := by
      rintro ⟨h1, h2⟩
      exact haw (workloadIdx_injective _ a w (Prod.ext h1.symm h2.symm))
    constructor
    · simp only [tsdfOf, store_shape]
      rw [store_values_of_ne _ _ _ _ _ _ _ _ hne, store_values_of_ne _ _ _ _ _ _ _ _ hne]
    · simp only [weightOf, store_shape]
      rw [store_values_of_ne _ _ _ _ _ _ _ _ hne, store_values_of_ne _ _ _ _ _ _ _ _ hne]
  · rw [IntegrateKernel_skip inp tl a h]
    exact ⟨rfl, rfl⟩

/-- Running the kernel over duplicate-free workloads touches the voxel of `w`
exactly when `w` is among them, and then applies `voxelStep` once. -/
theorem foldl_IntegrateKernel (inp : IntegrateInput) (l : List Nat) :
    ∀ tl : SparseTensorList ℚ, l.Nodup →
      (l.foldl (IntegrateKernel inp) tl).shape = tl.shape ∧
      (l.foldl (IntegrateKernel inp) tl).keys = tl.keys ∧
      (l.foldl (IntegrateKernel inp) tl).size = tl.size ∧
      ∀ w, (tsdfOf (l.foldl (IntegrateKernel inp) tl) w,
            weightOf (l.foldl (IntegrateKernel inp) tl) w) =
          if w ∈ l then voxelStep inp tl w (tsdfOf tl w, weightOf tl w)
          else (tsdfOf tl w, weightOf tl w) := by
  induction l with
  | nil => intro tl _; simp
  | cons a l ih =>
    intro tl hnd
    rw [List.nodup_cons] at hnd
    obtain ⟨hs, hk, hz, hv⟩ := ih (IntegrateKernel inp tl a) hnd.2
    obtain ⟨fs, fk, fz⟩ := IntegrateKernel_frame inp tl a
    simp only [List.foldl_cons]
    refine ⟨hs.trans fs, hk.trans fk, hz.trans fz, fun w => ?_⟩
    rw [hv w]
    by_cases hwa : w = a
    · subst hwa
      simp only [hnd.1, if_false, List.mem_cons, true_or, if_true]
      exact IntegrateKernel_self inp tl w
    · have hne : a ≠ w := fun h => hwa h.symm
      obtain ⟨o1, o2⟩ := IntegrateKernel_other inp tl a w hne
      simp only [List.mem_cons, hwa, false_or]
      rw [o1, o2, voxelStep_congr inp tl _ w fs fk]

theorem Integrate_frame (inp : IntegrateInput) (tl : SparseTensorList ℚ) :
    (Integrate inp tl).shape = tl.shape ∧ (Integrate inp tl).keys = tl.keys ∧
      (Integrate inp tl).size = tl.size := by
  obtain ⟨h1, h2, h3, _⟩ := foldl_IntegrateKernel inp
    (List.range (NumWorkloads tl tl.shape.NumElements)) tl (List.nodup_range _)
  exact ⟨h1, h2, h3⟩

theorem Integrate_voxel (inp : IntegrateInput) (tl : SparseTensorList ℚ) (w : Nat)
    (hw : w < NumWorkloads tl tl.shape.NumElements) :
    (tsdfOf (Integrate inp tl) w, weightOf (Integrate inp tl) w) =
      voxelStep inp tl w (tsdfOf tl w, weightOf tl w) := by
  obtain ⟨_, _, _, h⟩ := foldl_IntegrateKernel inp
    (List.range (NumWorkloads tl tl.shape.NumElements)) tl (List.nodup_range _)
  have := h w
  rw [if_pos (List.mem_range.mpr hw)] at this
  exact this

theorem Integrate_voxel_any (inp : IntegrateInput) (tl : SparseTensorList ℚ) (w : Nat)
    (h : ¬ Observed inp tl w) :
    tsdfOf (Integrate inp tl) w = tsdfOf tl w ∧ weightOf (Integrate inp tl) w = weightOf tl w := by
  obtain ⟨_, _, _, hv⟩ := foldl_IntegrateKernel inp
    (List.range (NumWorkloads tl tl.shape.NumElements)) tl (List.nodup_range _)
  have hw := hv w
  have hstep : voxelStep inp tl w (tsdfOf tl w, weightOf tl w) = (tsdfOf tl w, weightOf tl w) := by
    simp [voxelStep, h]
  rw [hstep, ite_self] at hw
  exact ⟨congrArg Prod.fst hw, congrArg Prod.snd hw⟩

theorem iterate_eq_IntegrateAll (inp : IntegrateInput) (k : Nat) :
    ∀ tl : SparseTensorList ℚ, (Integrate inp)^[k] tl = IntegrateAll (List.replicate k inp) tl := by
  induction k with
  | zero => intro tl; rfl
  | succ k ih =>
    intro tl
    rw [Function.iterate_succ_apply, ih]
    rfl

/-- Invariant of a sequence of non-skipped integrations of one voxel: the
weight counts the frames and `weight * tsdf` accumulates the observations. -/
theorem IntegrateAll_invariant (w : Nat) (frames : List IntegrateInput) :
    ∀ (tl : SparseTensorList ℚ) (m : Nat) (S : ℚ),
      w < NumWorkloads tl tl.shape.NumElements →
      (∀ inp ∈ frames, Observed inp tl w) →
      weightOf tl w = m → weightOf tl w * tsdfOf tl w = S →
      weightOf (IntegrateAll frames tl) w = ((m + frames.length : Nat) : ℚ) ∧
        weightOf (IntegrateAll frames tl) w * tsdfOf (IntegrateAll frames tl) w =
          S + (frames.map (fun inp => normalisedSdf inp tl w)).sum := by
  induction frames with
  | nil =>
    intro tl m S _ _ hm hS
    refine ⟨by simpa [IntegrateAll] using hm, by simpa [IntegrateAll] using hS⟩
  | cons inp frames ih =>
    intro tl m S hw hobs hm hS
    obtain ⟨fs, fk, fz⟩ := Integrate_frame inp tl
    have hv := Integrate_voxel inp tl w hw
    have ho : Observed inp tl w := hobs inp (List.mem_cons_self _ _)
    simp only [voxelStep, ho, if_true] at hv
    have h1 : tsdfOf (Integrate inp tl) w =
        (weightOf tl w * tsdfOf tl w + normalisedSdf inp tl w) / (weightOf tl w + 1) :=
      congrArg Prod.fst hv
    have h2 : weightOf (Integrate inp tl) w = weightOf tl w + 1 := congrArg Prod.snd hv
    have hpos : (weightOf tl w + 1) ≠ 0 := by
      rw [hm]
      exact_mod_cast Nat.succ_ne_zero m
    have hw' : w < NumWorkloads (Integrate inp tl) (Integrate inp tl).shape.NumElements := by
      unfold NumWorkloads at *
      rw [fs, fz]
      exact hw
    have hobs' : ∀ f ∈ frames, Observed f (Integrate inp tl) w := fun f hf =>
      (Observed_congr f tl _ w fs fk).mpr (hobs f (List.mem_cons_of_mem _ hf))
    have hm' : weightOf (Integrate inp tl) w = ((m + 1 : Nat) : ℚ) := by
      rw [h2, hm]
      push_cast
      rfl
    have hS' : weightOf (Integrate inp tl) w * tsdfOf (Integrate inp tl) w =
        S + normalisedSdf inp tl w := by
      rw [h1, h2, mul_div_cancel₀ _ hpos, hS]
    obtain ⟨r1, r2⟩ := ih (Integrate inp tl) (m + 1) _ hw' hobs' hm' hS'
    have hmap : frames.map (fun f => normalisedSdf f (Integrate inp tl) w) =
        frames.map (fun f => normalisedSdf f tl w) :=
      List.map_congr_left (fun f _ => normalisedSdf_congr f tl _ w fs fk)
    have hfold : IntegrateAll (inp :: frames) tl = IntegrateAll frames (Integrate inp tl) := rfl
    rw [hfold]
    refine ⟨?_, ?_⟩
    · rw [r1]
      congr 1
      simp only [List.length_cons]
      omega
    · rw [r2, hmap]
      simp only [List.map_cons, List.sum_cons]
      ring

/-! ### Evaluation at the one-voxel volume -/

theorem oneVoxel_workloads (t wt : ℚ) :
    0 < NumWorkloads (oneVoxel t wt) (oneVoxel t wt).shape.NumElements := by
  simp [NumWorkloads, oneVoxel, SizeVector.NumElements]

theorem oneVoxel_cameraPoint (d t wt : ℚ) :
    cameraPoint (constFrame d) (oneVoxel t wt) 0 = (0, 0, 1) := by
  simp [cameraPoint, voxelCoord, constFrame, oneVoxel, unitProjector, Projector.Transform,
    GetSparseWorkloadIdx, ConvertOffsetTo3D, SizeVector.NumElements]

theorem oneVoxel_pixel (d t wt : ℚ) : pixel (constFrame d) (oneVoxel t wt) 0 = (0, 0) := by
  unfold pixel
  rw [oneVoxel_cameraPoint]
  simp [Projector.Project, constFrame, unitProjector]

theorem oneVoxel_sampledDepth (d t wt : ℚ) :
    sampledDepth (constFrame d) (oneVoxel t wt) 0 = d := by
  unfold sampledDepth
  rw [oneVoxel_pixel]
  simp [constFrame]

theorem oneVoxel_inBoundary (d t wt : ℚ) :
    InBoundary2D (constFrame d).depth.rows (constFrame d).depth.cols
      (pixel (constFrame d) (oneVoxel t wt) 0).1 (pixel (constFrame d) (oneVoxel t wt) 0).2 =
        true := by
  rw [oneVoxel_pixel]
  simp [InBoundary2D, constFrame]

theorem oneVoxel_tsdfOf (t wt : ℚ) : tsdfOf (oneVoxel t wt) 0 = t := by
  simp [tsdfOf, oneVoxel]

theorem oneVoxel_weightOf (t wt : ℚ) : weightOf (oneVoxel t wt) 0 = wt := by
  simp [weightOf, oneVoxel]

theorem oneVoxel_observed (d t wt : ℚ) (hd : 0 < d) (hs : -1 ≤ d - 1) :
    Observed (constFrame d) (oneVoxel t wt) 0 := by
  refine ⟨oneVoxel_inBoundary d t wt, ?_, ?_, ?_⟩
  · rw [oneVoxel_sampledDepth]; exact hd
  · rw [oneVoxel_cameraPoint]; norm_num
  · rw [oneVoxel_sampledDepth, oneVoxel_cameraPoint]; exact hs

theorem oneVoxel_normalisedSdf (d t wt : ℚ) :
    normalisedSdf (constFrame d) (oneVoxel t wt) 0 = min (d - 1) 1 := by
  unfold normalisedSdf
  rw [oneVoxel_sampledDepth, oneVoxel_cameraPoint]
  simp [constFrame]

/-! ## Lemmas on the ExtractSurface kernel -/

theorem ExtractEdge_eq (inp : ExtractInput) (w : Nat) (st : SurfaceState) (i : Nat) :
    ExtractEdge inp w st i = if edgeTest inp w i then emitVertex inp w i st else st := by
  unfold ExtractEdge edgeTest
  by_cases hv : nbValid inp w i = true
  · by_cases hc : 0 < weightI inp w i ∧ tsdfI inp w i * tsdfO inp w < 0
    · simp [hv, hc]
    · simp only [hv, Bool.not_true, Bool.false_eq_true, if_false, hc, decide_False,
        Bool.and_false]
  · simp [hv]

theorem pushAll_append (inp : ExtractInput) (st : SurfaceState) (es fs : List (Nat × Nat)) :
    pushAll inp st (es ++ fs) = pushAll inp (pushAll inp st es) fs := by
  unfold pushAll
  rw [List.foldl_append]

theorem foldl_ExtractEdge (inp : ExtractInput) (w : Nat) (ds : List Nat) :
    ∀ st : SurfaceState, ds.foldl (ExtractEdge inp w) st =
      pushAll inp st ((ds.filter (edgeTest inp w)).map (fun i => (w, i))) := by
  induction ds with
  | nil => intro st; rfl
  | cons d ds ih =>
    intro st
    rw [List.foldl_cons, ih, ExtractEdge_eq]
    by_cases h : edgeTest inp w d = true
    · simp [h, List.filter_cons, pushAll]
    · simp [h, List.filter_cons]

theorem ExtractSurfaceKernel_eq (inp : ExtractInput) (st : SurfaceState) (w : Nat) :
    ExtractSurfaceKernel inp st w =
      pushAll inp st ((emittedDirs inp w).map (fun i => (w, i))) := by
  unfold ExtractSurfaceKernel emittedDirs
  by_cases h : weightO inp w = 0
  · simp [h, pushAll]
  · simp only [h, if_false]
    exact foldl_ExtractEdge inp w [0, 1, 2] st

theorem foldl_ExtractSurfaceKernel (inp : ExtractInput) (order : List Nat) :
    ∀ st : SurfaceState, order.foldl (ExtractSurfaceKernel inp) st =
      pushAll inp st (emissions inp order) := by
  induction order with
  | nil => intro st; rfl
  | cons w order ih =>
    intro st
    rw [List.foldl_cons, ih, ExtractSurfaceKernel_eq]
    unfold emissions
    rw [List.flatMap_cons, pushAll_append]

theorem mem_emittedDirs (inp : ExtractInput) (w i : Nat) :
    i ∈ emittedDirs inp w ↔ Emitted inp w i := by
  unfold emittedDirs Emitted edgeTest
  by_cases h : weightO inp w = 0
  · simp [h]
  · simp only [h, if_false, List.mem_filter, List.mem_cons, List.mem_singleton,
      List.not_mem_nil, or_false, Bool.and_eq_true, decide_eq_true_eq, ne_eq,
      not_false_eq_true, true_and]
    constructor
    · rintro ⟨hi, hv, hc⟩
      exact ⟨by omega, hv, hc⟩
    · rintro ⟨hi, hv, hc⟩
      exact ⟨by omega, hv, hc⟩

theorem mem_emissions (inp : ExtractInput) (order : List Nat) (w i : Nat) :
    (w, i) ∈ emissions inp order ↔ w ∈ order ∧ Emitted inp w i := by
  unfold emissions
  simp only [List.mem_flatMap, List.mem_map, Prod.mk.injEq]
  constructor
  · rintro ⟨a, ha, b, hb, rfl, rfl⟩
    exact ⟨ha, (mem_emittedDirs inp a b).mp hb⟩
  · rintro ⟨hw, he⟩
    exact ⟨w, hw, i, (mem_emittedDirs inp w i).mpr he, rfl, rfl⟩

theorem nodup_emittedDirs (inp : ExtractInput) (w : Nat) : (emittedDirs inp w).Nodup := by
  unfold emittedDirs
  split_ifs
  · exact List.nodup_nil
  · exact List.Nodup.filter _ (by decide)

theorem nodup_emissions (inp : ExtractInput) (order : List Nat) (h : order.Nodup) :
    (emissions inp order).Nodup := by
  unfold emissions
  rw [List.nodup_flatMap]
  refine ⟨fun w _ => ?_, ?_⟩
  · exact (nodup_emittedDirs inp w).map (fun a b hab => (Prod.mk.inj hab).2)
  · refine h.imp ?_
    intro a b hab
    intro p hpa hpb
    rw [List.mem_map] at hpa hpb
    obtain ⟨x, _, rfl⟩ := hpa
    obtain ⟨y, _, hy⟩ := hpb
    exact hab (Prod.mk.inj hy).1.symm

theorem vertexInd_emitVertex_self (inp : ExtractInput) (st : SurfaceState) (w i : Nat) :
    vertexInd inp (emitVertex inp w i st) w i = (st.count : Int) := by
  simp [vertexInd, emitVertex]

theorem vertexInd_emitVertex_ne (inp : ExtractInput) (st : SurfaceState) (w i w' i' : Nat)
    (h : (w', i') ≠ (w, i)) :
    vertexInd inp (emitVertex inp w i st) w' i' = vertexInd inp st w' i' := by
  simp only [vertexInd, emitVertex]
  rw [if_neg]
  rintro ⟨hk, hi, hv⟩
  apply h
  have : w' = w := workloadIdx_injective inp.grid_shape.NumElements w' w (Prod.ext hk hv)
  rw [this, hi]

theorem pushAll_concat (inp : ExtractInput) (st : SurfaceState) (es : List (Nat × Nat))
    (e : Nat × Nat) :
    pushAll inp st (es ++ [e]) = emitVertex inp e.1 e.2 (pushAll inp st es) := by
  rw [pushAll_append]
  rfl

/-- State reached by creating the vertices of the edges `es` from a counter
at `0`: the counter is the number of edges, the vertex with index `j` is the one
of the `j`-th edge, and the output channel of the `j`-th edge holds `j`. -/
theorem pushAll_spec (inp : ExtractInput) (st0 : SurfaceState) (h0 : st0.count = 0)
    (es : List (Nat × Nat)) :
    (pushAll inp st0 es).count = es.length ∧
      (∀ j (hj : j < es.length),
        ((pushAll inp st0 es).vertices_x j, (pushAll inp st0 es).vertices_y j,
          (pushAll inp st0 es).vertices_z j) = edgeVertex inp es[j].1 es[j].2) ∧
      (es.Nodup → ∀ j (hj : j < es.length),
        vertexInd inp (pushAll inp st0 es) es[j].1 es[j].2 = (j : Int)) := by
  induction es using List.reverseRecOn with
  | nil =>
    refine ⟨by simpa [pushAll] using h0, fun j hj => ?_, fun _ j hj => ?_⟩
    · exact absurd hj (Nat.not_lt_zero j)
    · exact absurd hj (Nat.not_lt_zero j)
  | append_singleton es e ih =>
    obtain ⟨hc, hv, hs⟩ := ih
    rw [pushAll_concat]
    refine ⟨?_, fun j hj => ?_, fun hnd j hj => ?_⟩
    · simp [emitVertex, hc]
    · rw [List.length_append, List.length_singleton] at hj
      by_cases hlt : j < es.length
      · have hne : j ≠ (pushAll inp st0 es).count := by rw [hc]; omega
        rw [List.getElem_append_left hlt]
        rw [← hv j hlt]
        simp [emitVertex, hne]
      · have hje : j = es.length := by omega
        subst hje
        rw [List.getElem_concat_length es e es.length rfl]
        simp [emitVertex, hc]
    · rw [List.length_append, List.length_singleton] at hj
      have hnd' : es.Nodup := (List.nodup_append.mp hnd).1
      by_cases hlt : j < es.length
      · rw [List.getElem_append_left hlt]
        have hmem : es[j] ∈ es := List.getElem_mem hlt
        have hne : (es[j].1, es[j].2) ≠ (e.1, e.2) := by
          intro heq
          have : es[j] = e := heq
          rw [this] at hmem
          exact (List.nodup_append.mp hnd).2.2 hmem (List.mem_singleton_self e)
        rw [vertexInd_emitVertex_ne inp _ e.1 e.2 es[j].1 es[j].2 hne]
        exact hs hnd' j hlt
      · have hje : j = es.length := by omega
        subst hje
        rw [List.getElem_concat_length es e es.length rfl, vertexInd_emitVertex_self, hc]

theorem ExtractSurfaceInOrder_eq (order : List Nat) (inp : ExtractInput) (mem : SurfaceState) :
    ExtractSurfaceInOrder order inp mem =
      pushAll inp { mem with count := 0 } (emissions inp order) := by
  unfold ExtractSurfaceInOrder LaunchInOrder
  exact foldl_ExtractSurfaceKernel inp order _

theorem ExtractSurface_eq_InOrder (inp : ExtractInput) (mem : SurfaceState) :
    ExtractSurface inp mem = ExtractSurfaceInOrder (List.range (extractWorkloads inp)) inp mem :=
  rfl

theorem count_ExtractSurfaceInOrder (order : List Nat) (inp : ExtractInput)
    (mem : SurfaceState) :
    (ExtractSurfaceInOrder order inp mem).count = (emissions inp order).length := by
  rw [ExtractSurfaceInOrder_eq]
  exact (pushAll_spec inp _ rfl _).1

theorem outputColumns_ExtractSurfaceInOrder (order : List Nat) (inp : ExtractInput)
    (mem : SurfaceState) :
    outputColumns (ExtractSurfaceInOrder order inp mem) =
      (emissions inp order).map (fun e => edgeVertex inp e.1 e.2) := by
  have hc := count_ExtractSurfaceInOrder order inp mem
  apply List.ext_getElem
  · simp [outputColumns, actual_count, hc]
  · intro j h1 h2
    have hj : j < (emissions inp order).length := by
      simpa using h2
    simp only [outputColumns, List.getElem_map, List.getElem_range]
    rw [ExtractSurfaceInOrder_eq]
    exact (pushAll_spec inp _ rfl _).2.1 j hj

theorem emissions_perm (inp : ExtractInput) (o1 o2 : List Nat) (h : o1.Perm o2) :
    (emissions inp o1).Perm (emissions inp o2) :=
  List.Perm.flatMap_right _ h

theorem toFinset_emissions_range (inp : ExtractInput) :
    (emissions inp (List.range (extractWorkloads inp))).toFinset = emittedPairs inp := by
  ext ⟨w, i⟩
  simp only [List.mem_toFinset, mem_emissions, List.mem_range, emittedPairs, Finset.mem_filter,
    Finset.mem_product, Finset.mem_range]
  constructor
  · rintro ⟨hw, he⟩
    exact ⟨⟨hw, he.2.1⟩, he⟩
  · rintro ⟨⟨hw, _⟩, he⟩
    exact ⟨hw, he⟩

theorem length_emissions (inp : ExtractInput) (order : List Nat)
    (h : order.Perm (List.range (extractWorkloads inp))) :
    (emissions inp order).length = (emittedPairs inp).card := by
  rw [(emissions_perm inp order _ h).length_eq, ← toFinset_emissions_range,
    List.toFinset_card_of_nodup (nodup_emissions inp _ (List.nodup_range _))]

theorem count_le_ExtractSurfaceKernel (inp : ExtractInput) (st : SurfaceState) (w : Nat) :
    st.count ≤ (ExtractSurfaceKernel inp st w).count := by
  rw [ExtractSurfaceKernel_eq]
  generalize (emittedDirs inp w).map (fun i => (w, i)) = es
  induction es using List.reverseRecOn with
  | nil => exact le_refl _
  | append_singleton es e ih =>
    rw [pushAll_concat]
    exact le_trans ih (Nat.le_succ _)

/-- Vertex indices stored by a run over duplicate-free workloads: the edge
created as `j`-th holds `j`. -/
theorem vertexInd_ExtractSurfaceInOrder (order : List Nat) (inp : ExtractInput)
    (mem : SurfaceState) (hnd : order.Nodup) (j : Nat) (hj : j < (emissions inp order).length) :
    vertexInd inp (ExtractSurfaceInOrder order inp mem) (emissions inp order)[j].1
      (emissions inp order)[j].2 = (j : Int) := by
  rw [ExtractSurfaceInOrder_eq]
  exact (pushAll_spec inp _ rfl _).2.2 (nodup_emissions inp order hnd) j hj

/-! ### Evaluation at the two-block volume -/

theorem edgeVolume_workloads (wo : ℚ) : extractWorkloads (edgeVolume wo) = 2 := by
  simp [extractWorkloads, NumWorkloads, edgeVolume, SizeVector.NumElements]

theorem edgeVolume_weightO (wo : ℚ) (w : Nat) : weightO (edgeVolume wo) w = wo := by
  simp [weightO, edgeVolume]

theorem edgeVolume_emittedDirs_zero (wo : ℚ) (h : wo ≠ 0) :
    emittedDirs (edgeVolume wo) 0 = [0] := by
  unfold emittedDirs
  rw [edgeVolume_weightO, if_neg h]
  simp [edgeTest, nbValid, nbIdx, blockOffset, steppedCoord,
    valueIdx, keyIdx, GetSparseWorkloadIdx, ConvertOffsetTo3D, Convert2DToOffset, weightI, tsdfI,
    tsdfO, nbValueIdx, Convert3DToOffset, edgeVolume, SizeVector.NumElements, List.filter]
  norm_num

theorem edgeVolume_emittedDirs_one (wo : ℚ) (h : wo ≠ 0) :
    emittedDirs (edgeVolume wo) 1 = [1] := by
  unfold emittedDirs
  rw [edgeVolume_weightO, if_neg h]
  simp [edgeTest, nbValid, nbIdx, blockOffset, steppedCoord,
    valueIdx, keyIdx, GetSparseWorkloadIdx, ConvertOffsetTo3D, Convert2DToOffset, weightI, tsdfI,
    tsdfO, nbValueIdx, Convert3DToOffset, edgeVolume, SizeVector.NumElements, List.filter]
  norm_num

theorem edgeVolume_emissions (wo : ℚ) (h : wo ≠ 0) :
    emissions (edgeVolume wo) [0, 1] = [(0, 0), (1, 1)] := by
  simp [emissions, edgeVolume_emittedDirs_zero wo h, edgeVolume_emittedDirs_one wo h]

theorem edgeVolume_emissions_swapped (wo : ℚ) (h : wo ≠ 0) :
    emissions (edgeVolume wo) [1, 0] = [(1, 1), (0, 0)] := by
  simp [emissions, edgeVolume_emittedDirs_zero wo h, edgeVolume_emittedDirs_one wo h]

theorem edgeVolume_tsdfO_zero (wo : ℚ) : tsdfO (edgeVolume wo) 0 = 1 / 4 := by
  simp [tsdfO, keyIdx, valueIdx, GetSparseWorkloadIdx, edgeVolume, SizeVector.NumElements]

theorem edgeVolume_tsdfI_zero (wo : ℚ) : tsdfI (edgeVolume wo) 0 0 = -3 / 4 := by
  simp [tsdfI, nbIdx, blockOffset, steppedCoord, valueIdx, keyIdx, GetSparseWorkloadIdx,
    ConvertOffsetTo3D, edgeVolume, SizeVector.NumElements]

theorem edgeVolume_voxelCoord_zero (wo : ℚ) :
    voxelCoord (edgeVolume wo).grid_shape (edgeVolume wo).tsdf.keys 0 = (0, 0, 0) := by
  simp [voxelCoord, GetSparseWorkloadIdx, ConvertOffsetTo3D, edgeVolume, SizeVector.NumElements]

theorem edgeVolume_edgeVertex_zero (wo : ℚ) :
    edgeVertex (edgeVolume wo) 0 0 = (3 / 2, 0, 0) := by
  unfold edgeVertex
  rw [edgeVolume_tsdfO_zero, edgeVolume_tsdfI_zero, edgeVolume_voxelCoord_zero]
  norm_num [ratio, edgeVolume]

theorem edgeVolume_emitted_zero (wo : ℚ) (h : wo ≠ 0) : Emitted (edgeVolume wo) 0 0 := by
  rw [← mem_emittedDirs, edgeVolume_emittedDirs_zero wo h]
  exact List.mem_singleton_self 0

theorem ratio_sub_ne_zero (tsdf_i tsdf_o : ℚ) (h : tsdf_i * tsdf_o < 0) :
    tsdf_i - tsdf_o ≠ 0 := by
  intro heq
  have hab : tsdf_i = tsdf_o := sub_eq_zero.mp heq
  rw [hab] at h
  exact absurd h (not_lt.mpr (mul_self_nonneg tsdf_o))

/-- The fraction of line 212 is the zero of the linear interpolant measured
from the neighbour voxel (value `tsdf_i` at offset 0, `tsdf_o` at offset 1). -/
theorem ratio_zero_from_neighbour (tsdf_i tsdf_o : ℚ) (h : tsdf_i * tsdf_o < 0) :
    (1 - ratio tsdf_i tsdf_o) * tsdf_i + ratio tsdf_i tsdf_o * tsdf_o = 0 := by
  have hne := ratio_sub_ne_zero tsdf_i tsdf_o h
  unfold ratio
  field_simp
  ring

/-- Measured from the base voxel the interpolant takes the value
`tsdf_i + tsdf_o` at the fraction of line 212. -/
theorem ratio_value_from_base (tsdf_i tsdf_o : ℚ) (h : tsdf_i * tsdf_o < 0) :
    (1 - ratio tsdf_i tsdf_o) * tsdf_o + ratio tsdf_i tsdf_o * tsdf_i = tsdf_i + tsdf_o := by
  have hne := ratio_sub_ne_zero tsdf_i tsdf_o h
  unfold ratio
  field_simp
  ring

/-! ## Integrate: running average, fixed point, mean, skips -/

/-- In exact rational arithmetic, without rounding: from a voxel of weight 0
and any initial tsdf, integrating the same non-skipped observation `k >= 1`
times leaves `weight = k` and `tsdf = s`, the normalised observation. -/
theorem Integrate_repeated_observation (inp : IntegrateInput) (tl : SparseTensorList ℚ)
    (w k : Nat) (hw : w < NumWorkloads tl tl.shape.NumElements)
    (h0 : weightOf tl w = 0)
    (hin : InBoundary2D inp.depth.rows inp.depth.cols (pixel inp tl w).1 (pixel inp tl w).2 = true)
    (hd : 0 < sampledDepth inp tl w) (hz : 0 < (cameraPoint inp tl w).2.2)
    (hs : -inp.sdf_trunc ≤ sampledDepth inp tl w - (cameraPoint inp tl w).2.2)
    (hk : 1 ≤ k) :
    weightOf ((Integrate inp)^[k] tl) w = (k : ℚ) ∧
      tsdfOf ((Integrate inp)^[k] tl) w =
        min (sampledDepth inp tl w - (cameraPoint inp tl w).2.2) inp.sdf_trunc / inp.sdf_trunc := by
  have ho : Observed inp tl w := ⟨hin, hd, hz, hs⟩
  have hall : ∀ f ∈ List.replicate k inp, Observed f tl w := by
    intro f hf
    rw [List.eq_of_mem_replicate hf]
    exact ho
  obtain ⟨r1, r2⟩ := IntegrateAll_invariant w (List.replicate k inp) tl 0 0 hw hall
    (by rw [h0]; simp) (by rw [h0]; simp)
  rw [iterate_eq_IntegrateAll]
  have hk0 : (k : ℚ) ≠ 0 := by
    exact_mod_cast Nat.one_le_iff_ne_zero.mp hk
  simp only [List.length_replicate, Nat.zero_add] at r1
  refine ⟨r1, ?_⟩
  rw [r1] at r2
  simp only [List.map_replicate, List.sum_replicate, zero_add, nsmul_eq_mul] at r2
  exact mul_left_cancel₀ hk0 r2

/-- Instance of the fixed point in exact arithmetic: three integrations of the
observation `s = 1/2` into a voxel with initial `tsdf = 7`, `weight = 0`. -/
theorem Integrate_repeated_observation_witness :
    weightOf ((Integrate (constFrame (3 / 2)))^[3] (oneVoxel 7 0)) 0 = 3 ∧
      tsdfOf ((Integrate (constFrame (3 / 2)))^[3] (oneVoxel 7 0)) 0 = 1 / 2 := by
  have h := Integrate_repeated_observation (constFrame (3 / 2)) (oneVoxel 7 0) 0 3
    (oneVoxel_workloads _ _) (oneVoxel_weightOf _ _) (oneVoxel_inBoundary _ _ _)
    (by rw [oneVoxel_sampledDepth]; norm_num)
    (by rw [oneVoxel_cameraPoint]; norm_num)
    (by rw [oneVoxel_sampledDepth, oneVoxel_cameraPoint]; norm_num [constFrame])
    (by decide)
  rw [oneVoxel_sampledDepth, oneVoxel_cameraPoint] at h
  norm_num [constFrame] at h
  exact h

/-- In exact rational arithmetic, without rounding: from a voxel of weight 0,
after integrating `k >= 1` non-skipped observations with normalised values
`s_1, .., s_k` the stored tsdf is their arithmetic mean and the stored weight is
`k`, whatever the initial tsdf. -/
theorem IntegrateAll_arithmetic_mean (frames : List IntegrateInput) (tl : SparseTensorList ℚ)
    (w : Nat) (hw : w < NumWorkloads tl tl.shape.NumElements)
    (h0 : weightOf tl w = 0)
    (hobs : ∀ inp ∈ frames, Observed inp tl w)
    (hk : 1 ≤ frames.length) :
    tsdfOf (IntegrateAll frames tl) w =
        (frames.map (fun inp => normalisedSdf inp tl w)).sum / (frames.length : ℚ) ∧
      weightOf (IntegrateAll frames tl) w = (frames.length : ℚ) := by
  obtain ⟨r1, r2⟩ := IntegrateAll_invariant w frames tl 0 0 hw hobs
    (by rw [h0]; simp) (by rw [h0]; simp)
  have hk0 : (frames.length : ℚ) ≠ 0 := by
    exact_mod_cast Nat.one_le_iff_ne_zero.mp hk
  simp only [Nat.zero_add] at r1
  refine ⟨?_, r1⟩
  rw [r1, zero_add] at r2
  rw [eq_div_iff hk0, mul_comm]
  exact r2

/-- Instance of the mean in exact arithmetic: the observations `1/2`, `1/4` and
`1` (clamped) average to `7/12`. -/
theorem IntegrateAll_arithmetic_mean_witness :
    tsdfOf (IntegrateAll [constFrame (3 / 2), constFrame (5 / 4), constFrame 3] (oneVoxel 7 0)) 0 =
        7 / 12 ∧
      weightOf (IntegrateAll [constFrame (3 / 2), constFrame (5 / 4), constFrame 3]
        (oneVoxel 7 0)) 0 = 3 := by
  have h := IntegrateAll_arithmetic_mean
    [constFrame (3 / 2), constFrame (5 / 4), constFrame 3] (oneVoxel 7 0) 0
    (oneVoxel_workloads _ _) (oneVoxel_weightOf _ _)
    (by
      intro inp hinp
      simp only [List.mem_cons, List.mem_singleton, List.not_mem_nil, or_false] at hinp
      rcases hinp with rfl | rfl | rfl
      · exact oneVoxel_observed _ _ _ (by norm_num) (by norm_num)
      · exact oneVoxel_observed _ _ _ (by norm_num) (by norm_num)
      · exact oneVoxel_observed _ _ _ (by norm_num) (by norm_num))
    (by decide)
  simp only [List.map_cons, List.map_nil, oneVoxel_normalisedSdf, List.sum_cons, List.sum_nil,
    List.length_cons, List.length_nil] at h
  norm_num at h
  exact h

/-- C4: Integrate leaves the tsdf and the weight of a voxel unchanged whenever
the sampled depth is `<= 0`, or `zc <= 0`, or `depth - zc < -sdf_trunc`. -/
theorem Integrate_skipped_observation (inp : IntegrateInput) (tl : SparseTensorList ℚ)
    (w : Nat)
    (h : sampledDepth inp tl w ≤ 0 ∨ (cameraPoint inp tl w).2.2 ≤ 0 ∨
      sampledDepth inp tl w - (cameraPoint inp tl w).2.2 < -inp.sdf_trunc) :
    tsdfOf (Integrate inp tl) w = tsdfOf tl w ∧
      weightOf (Integrate inp tl) w = weightOf tl w := by
  apply Integrate_voxel_any
  rintro ⟨_, hd, hz, hs⟩
  rcases h with h | h | h
  · exact absurd hd (not_lt.mpr h)
  · exact absurd hz (not_lt.mpr h)
  · exact absurd hs (not_le.mpr h)

/-- Witness of C4: a sampled depth of `0` leaves `tsdf = 1/2`, `weight = 3`
in place. -/
theorem Integrate_skipped_observation_witness :
    tsdfOf (Integrate (constFrame 0) (oneVoxel (1 / 2) 3)) 0 = 1 / 2 ∧
      weightOf (Integrate (constFrame 0) (oneVoxel (1 / 2) 3)) 0 = 3 := by
  have h := Integrate_skipped_observation (constFrame 0) (oneVoxel (1 / 2) 3) 0
    (Or.inl (by rw [oneVoxel_sampledDepth]))
  rw [oneVoxel_tsdfOf, oneVoxel_weightOf] at h
  exact h

/-- C5: Integrate leaves a voxel unchanged (the operation is total, nothing is
raised) whenever its projected pixel is outside the depth image; the pixel
`(0, 0)` of a non-empty image is inside, `u = -1` (any `v`) and `v = height`
(any `u`) are outside. -/
theorem Integrate_out_of_image (inp : IntegrateInput) (tl : SparseTensorList ℚ) (w : Nat)
    (hout : InBoundary2D inp.depth.rows inp.depth.cols (pixel inp tl w).1 (pixel inp tl w).2 =
      false) :
    (tsdfOf (Integrate inp tl) w = tsdfOf tl w ∧
        weightOf (Integrate inp tl) w = weightOf tl w) ∧
      (0 < inp.depth.rows → 0 < inp.depth.cols →
        InBoundary2D inp.depth.rows inp.depth.cols 0 0 = true) ∧
      (∀ v : ℚ, InBoundary2D inp.depth.rows inp.depth.cols (-1) v = false) ∧
      (∀ u : ℚ, InBoundary2D inp.depth.rows inp.depth.cols u inp.depth.rows = false) := by
  refine ⟨?_, ?_, ?_, ?_⟩
  · apply Integrate_voxel_any
    rintro ⟨hin, _⟩
    rw [hout] at hin
    exact Bool.false_ne_true hin
  · intro hr hc
    simp [InBoundary2D, hr, hc]
  · intro v
    simp [InBoundary2D]
  · intro u
    simp [InBoundary2D]

theorem shiftedFrame_pixel (d t wt : ℚ) :
    pixel (shiftedFrame d) (oneVoxel t wt) 0 = (-1, 0) := by
  simp [pixel, cameraPoint, voxelCoord, shiftedFrame, oneVoxel, unitProjector,
    Projector.Transform, Projector.Project, GetSparseWorkloadIdx, ConvertOffsetTo3D,
    SizeVector.NumElements]

/-- Witness of C5: a voxel projected to the pixel `(-1, 0)` of a `1 x 1` image
keeps `tsdf = 1/2`, `weight = 3`, while `(0, 0)` is inside that image. -/
theorem Integrate_out_of_image_witness :
    (tsdfOf (Integrate (shiftedFrame (3 / 2)) (oneVoxel (1 / 2) 3)) 0 = 1 / 2 ∧
        weightOf (Integrate (shiftedFrame (3 / 2)) (oneVoxel (1 / 2) 3)) 0 = 3) ∧
      InBoundary2D 1 1 0 0 = true := by
  have h := Integrate_out_of_image (shiftedFrame (3 / 2)) (oneVoxel (1 / 2) 3) 0
    (by rw [shiftedFrame_pixel]; simp [InBoundary2D, shiftedFrame])
  rw [oneVoxel_tsdfOf, oneVoxel_weightOf] at h
  exact ⟨h.1, h.2.1 (by simp [shiftedFrame]) (by simp [shiftedFrame])⟩

/-! ## ExtractSurface: interpolation, vertex count, indices -/

/-- C6: evaluation of the code on the edge from a base voxel storing
`tsdf_o = 1/4` to its `+x` neighbour storing `tsdf_i = -3/4`: the fraction of
line 212 is `3/4`, the vertex is written at `voxel_size * (base_x + 3/4)`, the
linear interpolant with the base voxel at offset 0 takes the value `-1/2`
there, and it vanishes at offset `1/4`. -/
theorem ExtractSurface_ratio_not_zero_crossing :
    ratio (tsdfI (edgeVolume 1) 0 0) (tsdfO (edgeVolume 1) 0) = 3 / 4 ∧
      (ExtractSurface (edgeVolume 1) blankMemory).vertices_x 0 = 2 * (0 + 3 / 4) ∧
      (1 - 3 / 4) * tsdfO (edgeVolume 1) 0 + 3 / 4 * tsdfI (edgeVolume 1) 0 0 = -1 / 2 ∧
      (1 - 1 / 4) * tsdfO (edgeVolume 1) 0 + 1 / 4 * tsdfI (edgeVolume 1) 0 0 = 0 := by
  have hcol := outputColumns_ExtractSurfaceInOrder [0, 1] (edgeVolume 1) blankMemory
  have hcnt := count_ExtractSurfaceInOrder [0, 1] (edgeVolume 1) blankMemory
  rw [edgeVolume_emissions 1 one_ne_zero] at hcol hcnt
  have hrun : ExtractSurface (edgeVolume 1) blankMemory =
      ExtractSurfaceInOrder [0, 1] (edgeVolume 1) blankMemory := by
    rw [ExtractSurface_eq_InOrder, edgeVolume_workloads]
    rfl
  rw [← hrun] at hcol hcnt
  have hx : (ExtractSurface (edgeVolume 1) blankMemory).vertices_x 0 = 3 / 2 := by
    have h0 := congrArg (fun l => (l.map Prod.fst).head?) hcol
    simp only [outputColumns, actual_count, hcnt, List.length_cons, List.length_nil] at h0
    simpa [List.range_succ, edgeVolume_edgeVertex_zero] using h0
  rw [edgeVolume_tsdfO_zero, edgeVolume_tsdfI_zero, hx]
  norm_num [ratio]

/-- C7 fails as worded: on the two-block volume with voxel weights `-1` the
run creates two vertices although no pair has a voxel weight `> 0`. -/
theorem ExtractSurface_count_negative_weight :
    actual_count (ExtractSurface (edgeVolume (-1)) blankMemory) ≠
      (signChangePairs (edgeVolume (-1))).card := by
  have hcnt := count_ExtractSurfaceInOrder [0, 1] (edgeVolume (-1)) blankMemory
  rw [edgeVolume_emissions (-1) (by norm_num)] at hcnt
  have hrun : ExtractSurface (edgeVolume (-1)) blankMemory =
      ExtractSurfaceInOrder [0, 1] (edgeVolume (-1)) blankMemory := by
    rw [ExtractSurface_eq_InOrder, edgeVolume_workloads]
    rfl
  have hempty : signChangePairs (edgeVolume (-1)) = ∅ := by
    unfold signChangePairs
    rw [Finset.filter_eq_empty_iff]
    rintro p _ ⟨hpos, _⟩
    rw [edgeVolume_weightO] at hpos
    norm_num at hpos
  rw [hrun, hempty]
  simp [actual_count, hcnt]

/-- C7 amended: whatever the order of the workloads, the final vertex count is
the number of (voxel, direction) pairs for which the weight of the voxel is not
`0`, the block of the neighbour is marked valid, the weight of the neighbour is
`> 0` and the two tsdf values have opposite sign. -/
theorem ExtractSurface_vertex_count (order : List Nat) (inp : ExtractInput) (mem : SurfaceState)
    (hperm : order.Perm (List.range (extractWorkloads inp))) :
    actual_count (ExtractSurfaceInOrder order inp mem) = (emittedPairs inp).card := by
  unfold actual_count
  rw [count_ExtractSurfaceInOrder, length_emissions inp order hperm]

/-- Witness of C7 amended: the run over the two-block volume in the order
`1, 0`. -/
theorem ExtractSurface_vertex_count_witness :
    actual_count (ExtractSurfaceInOrder [1, 0] (edgeVolume 1) blankMemory) =
      (emittedPairs (edgeVolume 1)).card :=
  ExtractSurface_vertex_count [1, 0] (edgeVolume 1) blankMemory
    (by rw [edgeVolume_workloads]; exact List.Perm.swap 0 1 [])

/-- C8: after a run over all workloads in any sequential order the vertex
indices stored in the output channels of the edges with a vertex are pairwise
distinct and are exactly `0, .., actual_count - 1`; no kernel invocation
decreases the counter. -/
theorem ExtractSurface_indices_dense (order : List Nat) (inp : ExtractInput)
    (mem : SurfaceState) (hperm : order.Perm (List.range (extractWorkloads inp))) :
    (∀ w i w' i', w < extractWorkloads inp → w' < extractWorkloads inp →
        Emitted inp w i → Emitted inp w' i' →
        vertexInd inp (ExtractSurfaceInOrder order inp mem) w i =
          vertexInd inp (ExtractSurfaceInOrder order inp mem) w' i' →
        w = w' ∧ i = i') ∧
      (∀ w i, w < extractWorkloads inp → Emitted inp w i →
        ∃ j : Nat, j < actual_count (ExtractSurfaceInOrder order inp mem) ∧
          vertexInd inp (ExtractSurfaceInOrder order inp mem) w i = (j : Int)) ∧
      (∀ j : Nat, j < actual_count (ExtractSurfaceInOrder order inp mem) →
        ∃ w i, w < extractWorkloads inp ∧ Emitted inp w i ∧
          vertexInd inp (ExtractSurfaceInOrder order inp mem) w i = (j : Int)) ∧
      (∀ (st : SurfaceState) (w : Nat), st.count ≤ (ExtractSurfaceKernel inp st w).count) := by
  have hnd : order.Nodup := (hperm.nodup_iff).mpr (List.nodup_range _)
  have hcnt := count_ExtractSurfaceInOrder order inp mem
  have hmem : ∀ w, w ∈ order ↔ w < extractWorkloads inp := fun w => by
    rw [hperm.mem_iff, List.mem_range]
  have hpos : ∀ w i, w < extractWorkloads inp → Emitted inp w i →
      ∃ j, ∃ hj : j < (emissions inp order).length, (emissions inp order)[j] = (w, i) ∧
        vertexInd inp (ExtractSurfaceInOrder order inp mem) w i = (j : Int) := by
    intro w i hw he
    have hin : (w, i) ∈ emissions inp order := (mem_emissions inp order w i).mpr
      ⟨(hmem w).mpr hw, he⟩
    obtain ⟨j, hj, hje⟩ := List.getElem_of_mem hin
    refine ⟨j, hj, hje, ?_⟩
    have := vertexInd_ExtractSurfaceInOrder order inp mem hnd j hj
    rw [hje] at this
    exact this
  refine ⟨?_, ?_, ?_, count_le_ExtractSurfaceKernel inp⟩
  · intro w i w' i' hw hw' he he' heq
    obtain ⟨j, hj, hje, hv⟩ := hpos w i hw he
    obtain ⟨j', hj', hje', hv'⟩ := hpos w' i' hw' he'
    rw [hv, hv'] at heq
    have hjj : j = j' := by exact_mod_cast heq
    subst hjj
    rw [hje] at hje'
    exact ⟨(Prod.mk.inj hje').1, (Prod.mk.inj hje').2⟩
  · intro w i hw he
    obtain ⟨j, hj, _, hv⟩ := hpos w i hw he
    exact ⟨j, by unfold actual_count; rw [hcnt]; exact hj, hv⟩
  · intro j hj
    unfold actual_count at hj
    rw [hcnt] at hj
    have hin : (emissions inp order)[j] ∈ emissions inp order := List.getElem_mem hj
    have hme := (mem_emissions inp order (emissions inp order)[j].1
      (emissions inp order)[j].2).mp hin
    exact ⟨(emissions inp order)[j].1, (emissions inp order)[j].2, (hmem _).mp hme.1, hme.2,
      vertexInd_ExtractSurfaceInOrder order inp mem hnd j hj⟩

/-- Witness of C8: the run over the two-block volume in the order `1, 0`. -/
theorem ExtractSurface_indices_dense_witness :
    ∃ j : Nat, j < actual_count (ExtractSurfaceInOrder [1, 0] (edgeVolume 1) blankMemory) ∧
      vertexInd (edgeVolume 1) (ExtractSurfaceInOrder [1, 0] (edgeVolume 1) blankMemory) 0 0 =
        (j : Int) :=
  (ExtractSurface_indices_dense [1, 0] (edgeVolume 1) blankMemory
    (by rw [edgeVolume_workloads]; exact List.Perm.swap 0 1 [])).2.1 0 0
    (by rw [edgeVolume_workloads]; decide) (edgeVolume_emitted_zero 1 one_ne_zero)

/-! ## Further lemmas on the ExtractSurface run -/

theorem vertexInd_pushAll_of_not_mem (inp : ExtractInput) (st : SurfaceState) (w i : Nat)
    (es : List (Nat × Nat)) (h : (w, i) ∉ es) :
    vertexInd inp (pushAll inp st es) w i = vertexInd inp st w i := by
  induction es using List.reverseRecOn with
  | nil => rfl
  | append_singleton es e ih =>
    rw [List.mem_append, not_or] at h
    rw [pushAll_concat, vertexInd_emitVertex_ne inp _ e.1 e.2 w i, ih h.1]
    intro heq
    apply h.2
    rw [List.mem_singleton]
    exact heq

theorem not_emitted_of_weight_zero (inp : ExtractInput) (w i : Nat) (h : weightO inp w = 0) :
    ¬ Emitted inp w i := fun he => he.1 h

theorem emissions_eq_nil (inp : ExtractInput) (order : List Nat)
    (h : ∀ w ∈ order, weightO inp w = 0) : emissions inp order = [] := by
  apply List.eq_nil_iff_forall_not_mem.mpr
  rintro ⟨w, i⟩ hmem
  obtain ⟨hw, he⟩ := (mem_emissions inp order w i).mp hmem
  exact not_emitted_of_weight_zero inp w i (h w hw) he

/-- An edge with a vertex, after a run over all workloads: the index stored for
it is below the counter and the buffers hold the coordinates of its vertex at
that index. -/
theorem vertex_of_emitted (order : List Nat) (inp : ExtractInput) (mem : SurfaceState)
    (hperm : order.Perm (List.range (extractWorkloads inp))) (w i : Nat)
    (hw : w < extractWorkloads inp) (he : Emitted inp w i) :
    ∃ idx : Nat, vertexInd inp (ExtractSurfaceInOrder order inp mem) w i = (idx : Int) ∧
      idx < (ExtractSurfaceInOrder order inp mem).count ∧
      ((ExtractSurfaceInOrder order inp mem).vertices_x idx,
        (ExtractSurfaceInOrder order inp mem).vertices_y idx,
        (ExtractSurfaceInOrder order inp mem).vertices_z idx) = edgeVertex inp w i := by
  have hnd : order.Nodup := (hperm.nodup_iff).mpr (List.nodup_range _)
  have hin : (w, i) ∈ emissions inp order := (mem_emissions inp order w i).mpr
    ⟨by rw [hperm.mem_iff, List.mem_range]; exact hw, he⟩
  obtain ⟨j, hj, hje⟩ := List.getElem_of_mem hin
  have hv := vertexInd_ExtractSurfaceInOrder order inp mem hnd j hj
  rw [hje] at hv
  refine ⟨j, hv, ?_, ?_⟩
  · rw [count_ExtractSurfaceInOrder]
    exact hj
  · rw [ExtractSurfaceInOrder_eq]
    have := (pushAll_spec inp { mem with count := 0 } rfl (emissions inp order)).2.1 j hj
    rw [hje] at this
    exact this

/-! ## ExtractSurface: unobserved voxels -/

/-- C11: for a voxel whose weight is 0 the kernel changes nothing (no vertex,
no stored index, counter not advanced), no run stores a vertex index into its
output channels, and on a volume whose voxel weights are all 0 the run ends
with `actual_count = 0`. -/
theorem ExtractSurface_zero_weight (order : List Nat) (inp : ExtractInput) (mem : SurfaceState)
    (hperm : order.Perm (List.range (extractWorkloads inp))) :
    (∀ w, weightO inp w = 0 →
        (∀ st : SurfaceState, ExtractSurfaceKernel inp st w = st) ∧
        (∀ i, ¬ Emitted inp w i) ∧
        (∀ i, vertexInd inp (ExtractSurfaceInOrder order inp mem) w i = vertexInd inp mem w i)) ∧
      ((∀ w, w < extractWorkloads inp → weightO inp w = 0) →
        actual_count (ExtractSurfaceInOrder order inp mem) = 0) := by
  refine ⟨fun w hw => ⟨fun st => ?_, fun i => not_emitted_of_weight_zero inp w i hw, fun i => ?_⟩,
    fun hall => ?_⟩
  · unfold ExtractSurfaceKernel
    rw [if_pos hw]
  · rw [ExtractSurfaceInOrder_eq, vertexInd_pushAll_of_not_mem]
    · rfl
    · intro hmem
      exact not_emitted_of_weight_zero inp w i hw ((mem_emissions inp order w i).mp hmem).2
  · unfold actual_count
    rw [count_ExtractSurfaceInOrder, emissions_eq_nil]
    · rfl
    · intro w hw
      exact hall w (by rw [hperm.mem_iff, List.mem_range] at hw; exact hw)

/-- Witness of C11: the two-block volume with all weights forced to 0. -/
theorem ExtractSurface_zero_weight_witness :
    actual_count (ExtractSurfaceInOrder [1, 0] (edgeVolume 0) blankMemory) = 0 ∧
      vertexInd (edgeVolume 0) (ExtractSurfaceInOrder [1, 0] (edgeVolume 0) blankMemory) 0 0 =
        vertexInd (edgeVolume 0) blankMemory 0 0 :=
  ⟨(ExtractSurface_zero_weight [1, 0] (edgeVolume 0) blankMemory
      (by rw [edgeVolume_workloads]; exact List.Perm.swap 0 1 [])).2
      (fun w _ => edgeVolume_weightO 0 w),
    ((ExtractSurface_zero_weight [1, 0] (edgeVolume 0) blankMemory
      (by rw [edgeVolume_workloads]; exact List.Perm.swap 0 1 [])).1 0
      (edgeVolume_weightO 0 0)).2.2 0⟩

/-! ### Evaluation at the dense volume -/

theorem denseVolume_workloads (n : Nat) : extractWorkloads (denseVolume n) = n := by
  simp [extractWorkloads, NumWorkloads, denseVolume, SizeVector.NumElements]

theorem denseVolume_emitted (n w i : Nat) (hi : i < 3) : Emitted (denseVolume n) w i := by
  refine ⟨?_, hi, ?_, ?_, ?_⟩
  · simp [weightO, denseVolume]
  · simp [nbValid, denseVolume]
  · simp [weightI, denseVolume]
  · simp only [tsdfI, tsdfO, denseVolume]
    norm_num

theorem denseVolume_emittedPairs (n : Nat) :
    emittedPairs (denseVolume n) = Finset.range n ×ˢ Finset.range 3 := by
  unfold emittedPairs
  rw [denseVolume_workloads]
  apply Finset.filter_true_of_mem
  intro p hp
  rw [Finset.mem_product, Finset.mem_range, Finset.mem_range] at hp
  exact denseVolume_emitted n p.1 p.2 hp.2

theorem denseVolume_count (n : Nat) (mem : SurfaceState) :
    (ExtractSurface (denseVolume n) mem).count = n * 3 := by
  rw [ExtractSurface_eq_InOrder, count_ExtractSurfaceInOrder,
    length_emissions _ _ (List.Perm.refl _), denseVolume_emittedPairs, Finset.card_product,
    Finset.card_range, Finset.card_range]

/-- The edge created as `j`-th by a run over duplicate-free workloads. -/
theorem emitted_at_index (order : List Nat) (inp : ExtractInput) (mem : SurfaceState)
    (hnd : order.Nodup) (j : Nat) (hj : j < (emissions inp order).length) :
    ∃ w i, w ∈ order ∧ Emitted inp w i ∧
      vertexInd inp (ExtractSurfaceInOrder order inp mem) w i = (j : Int) := by
  have hin : (emissions inp order)[j] ∈ emissions inp order := List.getElem_mem hj
  have hme := (mem_emissions inp order (emissions inp order)[j].1
    (emissions inp order)[j].2).mp hin
  exact ⟨_, _, hme.1, hme.2, vertexInd_ExtractSurfaceInOrder order inp mem hnd j hj⟩

theorem denseVolume_overrun (n cap : Nat) (mem : SurfaceState) (h : cap < n * 3) :
    ∃ w i, w < n ∧ Emitted (denseVolume n) w i ∧
      vertexInd (denseVolume n) (ExtractSurface (denseVolume n) mem) w i = (cap : Int) := by
  have hlen : (emissions (denseVolume n)
      (List.range (extractWorkloads (denseVolume n)))).length = n * 3 := by
    rw [← count_ExtractSurfaceInOrder _ _ mem, ← ExtractSurface_eq_InOrder, denseVolume_count]
  obtain ⟨w, i, hw, he, hv⟩ := emitted_at_index _ (denseVolume n) mem (List.nodup_range _) cap
    (by rw [hlen]; exact h)
  rw [List.mem_range, denseVolume_workloads] at hw
  exact ⟨w, i, hw, he, hv⟩

theorem denseVolume_run (n cap : Nat) (mem : SurfaceState) (h : cap < n * 3) :
    actual_count (ExtractSurface (denseVolume n) mem) = n * 3 ∧
      cap < actual_count (ExtractSurface (denseVolume n) mem) ∧
      ∃ w i, w < n ∧ Emitted (denseVolume n) w i ∧
        vertexInd (denseVolume n) (ExtractSurface (denseVolume n) mem) w i = (cap : Int) := by
  have hc : actual_count (ExtractSurface (denseVolume n) mem) = n * 3 :=
    denseVolume_count n mem
  refine ⟨hc, ?_, denseVolume_overrun n cap mem h⟩
  rw [hc]
  exact h

/-! ## Error handling of `SpecialOpEWCPU` -/

/-- C13: evaluation of the code on a volume of 600000 one-voxel blocks whose
1800000 edges all change sign: the call returns normally with
`actual_count = 1800000`, above the allocation size `total_count = 1700000` of
the vertex buffers, and the index stored for one of the edges, at which its
vertex was written, is `total_count`. -/
theorem ExtractSurface_no_capacity_check :
    SpecialOpEWCPU (sampleArgs 0 1 (denseVolume 600000)) SpecialOpCode.ExtractSurface =
        Except.ok (SpecialOpResult.extracted (ExtractSurface (denseVolume 600000) blankMemory)
          (output_tensor (ExtractSurface (denseVolume 600000) blankMemory))) ∧
      actual_count (ExtractSurface (denseVolume 600000) blankMemory) = 1800000 ∧
      total_count < actual_count (ExtractSurface (denseVolume 600000) blankMemory) ∧
      ∃ w i, w < 600000 ∧ Emitted (denseVolume 600000) w i ∧
        vertexInd (denseVolume 600000) (ExtractSurface (denseVolume 600000) blankMemory) w i =
          (total_count : Int) := by
  have h := denseVolume_run 600000 total_count blankMemory (by decide)
  exact ⟨rfl, h.1.trans (by norm_num), h.2.1, h.2.2⟩

theorem truncFrame_cameraPoint (d t a wt : ℚ) :
    cameraPoint (truncFrame d t) (oneVoxel a wt) 0 = (0, 0, 1) := by
  simp [cameraPoint, voxelCoord, truncFrame, oneVoxel, unitProjector, Projector.Transform,
    GetSparseWorkloadIdx, ConvertOffsetTo3D, SizeVector.NumElements]

theorem truncFrame_pixel (d t a wt : ℚ) :
    pixel (truncFrame d t) (oneVoxel a wt) 0 = (0, 0) := by
  unfold pixel
  rw [truncFrame_cameraPoint]
  simp [Projector.Project, truncFrame, unitProjector]

theorem truncFrame_sampledDepth (d t a wt : ℚ) :
    sampledDepth (truncFrame d t) (oneVoxel a wt) 0 = d := by
  unfold sampledDepth
  rw [truncFrame_pixel]
  simp [truncFrame]

theorem truncFrame_observed (d t a wt : ℚ) (hd : 0 < d) (hs : -t ≤ d - 1) :
    Observed (truncFrame d t) (oneVoxel a wt) 0 := by
  refine ⟨?_, ?_, ?_, ?_⟩
  · rw [truncFrame_pixel]
    simp [InBoundary2D, truncFrame]
  · rw [truncFrame_sampledDepth]; exact hd
  · rw [truncFrame_cameraPoint]; norm_num
  · rw [truncFrame_sampledDepth, truncFrame_cameraPoint]; exact hs

theorem truncFrame_normalisedSdf (d t a wt : ℚ) :
    normalisedSdf (truncFrame d t) (oneVoxel a wt) 0 = min (d - 1) t / t := by
  unfold normalisedSdf
  rw [truncFrame_sampledDepth, truncFrame_cameraPoint]
  rfl

/-- C14 fails as worded: with `sdf_trunc = 0` the call on the one-voxel volume
(depth 2, `zc = 1`) returns normally and the voxel has been integrated, its
weight going from 0 to 1. -/
theorem Integrate_zero_trunc_returns :
    (sampleArgs 2 0 (edgeVolume 1)).integrate_input.sdf_trunc = 0 ∧
      SpecialOpEWCPU (sampleArgs 2 0 (edgeVolume 1)) SpecialOpCode.Integrate =
        Except.ok (SpecialOpResult.integrated (Integrate (truncFrame 2 0) (oneVoxel 0 0))) ∧
      weightOf (Integrate (truncFrame 2 0) (oneVoxel 0 0)) 0 = 1 := by
  refine ⟨rfl, rfl, ?_⟩
  have hv := Integrate_voxel (truncFrame 2 0) (oneVoxel 0 0) 0 (oneVoxel_workloads _ _)
  have ho : Observed (truncFrame 2 0) (oneVoxel 0 0) 0 :=
    truncFrame_observed 2 0 0 0 (by norm_num) (by norm_num)
  simp only [voxelStep, ho, if_true] at hv
  have h2 := congrArg Prod.snd hv
  simp only [oneVoxel_weightOf] at h2
  rw [h2]
  norm_num

/-- C14 amended: the Integrate case has no check of `sdf_trunc`; called with
`sdf_trunc = 0` it raises nothing, returns the integrated volume, and a voxel
whose observation is not skipped is still updated, its weight incremented. -/
theorem Integrate_unchecked_trunc (args : SpecialOpArgs) (w : Nat)
    (hz : args.integrate_input.sdf_trunc = 0)
    (hw : w < NumWorkloads args.tsdf_volume args.tsdf_volume.shape.NumElements)
    (hobs : Observed args.integrate_input args.tsdf_volume w) :
    SpecialOpEWCPU args SpecialOpCode.Integrate =
        Except.ok (SpecialOpResult.integrated (Integrate args.integrate_input args.tsdf_volume)) ∧
      weightOf (Integrate args.integrate_input args.tsdf_volume) w =
        weightOf args.tsdf_volume w + 1 ∧
      (0 < sampledDepth args.integrate_input args.tsdf_volume w ∧
        0 ≤ sampledDepth args.integrate_input args.tsdf_volume w -
          (cameraPoint args.integrate_input args.tsdf_volume w).2.2) := by
  refine ⟨rfl, ?_, hobs.2.1, ?_⟩
  · have hv := Integrate_voxel args.integrate_input args.tsdf_volume w hw
    simp only [voxelStep, hobs, if_true] at hv
    exact congrArg Prod.snd hv
  · have := hobs.2.2.2
    rw [hz, neg_zero] at this
    exact this

/-- Witness of C14 amended: the one-voxel volume seen at depth 2 with
`sdf_trunc = 0`. -/
theorem Integrate_unchecked_trunc_witness :
    SpecialOpEWCPU (sampleArgs 2 0 (edgeVolume 1)) SpecialOpCode.Integrate =
        Except.ok (SpecialOpResult.integrated (Integrate (truncFrame 2 0) (oneVoxel 0 0))) ∧
      weightOf (Integrate (truncFrame 2 0) (oneVoxel 0 0)) 0 = weightOf (oneVoxel 0 0) 0 + 1 :=
  ⟨(Integrate_unchecked_trunc (sampleArgs 2 0 (edgeVolume 1)) 0 rfl (oneVoxel_workloads _ _)
      (truncFrame_observed 2 0 0 0 (by norm_num) (by norm_num))).1,
    (Integrate_unchecked_trunc (sampleArgs 2 0 (edgeVolume 1)) 0 rfl (oneVoxel_workloads _ _)
      (truncFrame_observed 2 0 0 0 (by norm_num) (by norm_num))).2.1⟩

/-- C15: `SpecialOpEWCPU` raises the unsupported-operation error if and only
if `op_code` is neither `Integrate` nor `ExtractSurface`, and it raises nothing
else. -/
theorem SpecialOpEWCPU_unsupported_iff (args : SpecialOpArgs) (op_code : SpecialOpCode) :
    (SpecialOpEWCPU args op_code = Except.error "Unsupported special op" ↔
        op_code ≠ SpecialOpCode.Integrate ∧ op_code ≠ SpecialOpCode.ExtractSurface) ∧
      ((∃ e, SpecialOpEWCPU args op_code = Except.error e) ↔
        op_code ≠ SpecialOpCode.Integrate ∧ op_code ≠ SpecialOpCode.ExtractSurface) := by
  cases op_code <;> simp [SpecialOpEWCPU]

/-! ## Integrate: range of the stored values, frame of one step -/

theorem clamp_normalise_bounds (x t : ℚ) (ht : 0 < t) (hx : -t ≤ x) :
    -1 ≤ min x t / t ∧ min x t / t ≤ 1 ∧ (min x t / t = -1 ↔ x = -t) := by
  have hlo : -t ≤ min x t := le_min hx (by linarith)
  have hhi : min x t ≤ t := min_le_right x t
  refine ⟨?_, ?_, ?_⟩
  · rw [le_div_iff₀ ht]
    linarith
  · rw [div_le_iff₀ ht]
    linarith
  · rw [div_eq_iff ht.ne']
    constructor
    · intro h
      rcases min_choice x t with hc | hc
      · rw [hc] at h
        linarith
      · rw [hc] at h
        linarith
    · intro h
      rw [h, min_eq_left (by linarith)]
      ring

/-- C16 fails as worded: the one-voxel volume (`zc = 1`) seen at depth `1/2`
with `sdf_trunc = 1/2` is not skipped (`depth - zc = -sdf_trunc`), and its
normalised value is `-1`, outside of `(-1, 1]`; Integrate stores it. -/
theorem Integrate_normalised_minus_one :
    0 < (truncFrame (1 / 2) (1 / 2)).sdf_trunc ∧
      Observed (truncFrame (1 / 2) (1 / 2)) (oneVoxel 0 0) 0 ∧
      ¬ (-1 < normalisedSdf (truncFrame (1 / 2) (1 / 2)) (oneVoxel 0 0) 0 ∧
          normalisedSdf (truncFrame (1 / 2) (1 / 2)) (oneVoxel 0 0) 0 ≤ 1) ∧
      tsdfOf (Integrate (truncFrame (1 / 2) (1 / 2)) (oneVoxel 0 0)) 0 = -1 := by
  have ho : Observed (truncFrame (1 / 2) (1 / 2)) (oneVoxel 0 0) 0 :=
    truncFrame_observed _ _ 0 0 (by norm_num) (by norm_num)
  have hn : normalisedSdf (truncFrame (1 / 2) (1 / 2)) (oneVoxel 0 0) 0 = -1 := by
    rw [truncFrame_normalisedSdf]
    norm_num
  refine ⟨by norm_num [truncFrame], ho, ?_, ?_⟩
  · rw [hn]
    norm_num
  · have hv := Integrate_voxel (truncFrame (1 / 2) (1 / 2)) (oneVoxel 0 0) 0
      (oneVoxel_workloads _ _)
    simp only [voxelStep, ho, if_true, hn, oneVoxel_tsdfOf, oneVoxel_weightOf] at hv
    have h1 := congrArg Prod.fst hv
    simp only at h1
    rw [h1]
    norm_num

/-- C16 amended: for every observation that Integrate does not skip
(`sdf_trunc > 0`, `depth > 0`, `zc > 0`, `depth - zc >= -sdf_trunc`) the clamped
and normalised value lies in the closed interval `[-1, 1]`, and it is `-1`
exactly when `depth - zc = -sdf_trunc`. -/
theorem Integrate_normalised_range (inp : IntegrateInput) (tl : SparseTensorList ℚ) (w : Nat)
    (ht : 0 < inp.sdf_trunc) (_hd : 0 < sampledDepth inp tl w)
    (_hz : 0 < (cameraPoint inp tl w).2.2)
    (hs : -inp.sdf_trunc ≤ sampledDepth inp tl w - (cameraPoint inp tl w).2.2) :
    -1 ≤ min (sampledDepth inp tl w - (cameraPoint inp tl w).2.2) inp.sdf_trunc / inp.sdf_trunc ∧
      min (sampledDepth inp tl w - (cameraPoint inp tl w).2.2) inp.sdf_trunc / inp.sdf_trunc ≤ 1 ∧
      (min (sampledDepth inp tl w - (cameraPoint inp tl w).2.2) inp.sdf_trunc / inp.sdf_trunc =
          -1 ↔
        sampledDepth inp tl w - (cameraPoint inp tl w).2.2 = -inp.sdf_trunc) :=
  clamp_normalise_bounds _ _ ht hs

/-- Witness of C16 amended: depth `3/2` seen from `zc = 1` with
`sdf_trunc = 1`. -/
theorem Integrate_normalised_range_witness :
    -1 ≤ min (sampledDepth (truncFrame (3 / 2) 1) (oneVoxel 0 0) 0 -
          (cameraPoint (truncFrame (3 / 2) 1) (oneVoxel 0 0) 0).2.2)
        (truncFrame (3 / 2) 1).sdf_trunc / (truncFrame (3 / 2) 1).sdf_trunc :=
  (Integrate_normalised_range (truncFrame (3 / 2) 1) (oneVoxel 0 0) 0
    (by norm_num [truncFrame])
    (by rw [truncFrame_sampledDepth]; norm_num)
    (by rw [truncFrame_cameraPoint]; norm_num)
    (by rw [truncFrame_sampledDepth, truncFrame_cameraPoint]; norm_num [truncFrame])).1

theorem voxelStep_bounds (inp : IntegrateInput) (tl : SparseTensorList ℚ) (w : Nat)
    (tw : ℚ × ℚ) (ht : 0 < inp.sdf_trunc) (hw : 0 ≤ tw.2) (hlo : -1 ≤ tw.1) (hhi : tw.1 ≤ 1) :
    0 ≤ (voxelStep inp tl w tw).2 ∧ -1 ≤ (voxelStep inp tl w tw).1 ∧
      (voxelStep inp tl w tw).1 ≤ 1 := by
  unfold voxelStep
  by_cases ho : Observed inp tl w
  · obtain ⟨s1, s2, _⟩ := clamp_normalise_bounds _ _ ht ho.2.2.2
    have hpos : 0 < tw.2 + 1 := by linarith
    simp only [ho, if_true]
    refine ⟨hpos.le, ?_, ?_⟩
    · rw [le_div_iff₀ hpos]
      unfold normalisedSdf
      nlinarith
    · rw [div_le_iff₀ hpos]
      unfold normalisedSdf
      nlinarith
  · simp only [ho, if_false]
    exact ⟨hw, hlo, hhi⟩

theorem Integrate_voxel_cases (inp : IntegrateInput) (tl : SparseTensorList ℚ) (w : Nat) :
    (tsdfOf (Integrate inp tl) w, weightOf (Integrate inp tl) w) =
        voxelStep inp tl w (tsdfOf tl w, weightOf tl w) ∨
      (tsdfOf (Integrate inp tl) w, weightOf (Integrate inp tl) w) =
        (tsdfOf tl w, weightOf tl w) := by
  obtain ⟨_, _, _, h⟩ := foldl_IntegrateKernel inp
    (List.range (NumWorkloads tl tl.shape.NumElements)) tl (List.nodup_range _)
  have hw := h w
  by_cases hm : w ∈ List.range (NumWorkloads tl tl.shape.NumElements)
  · rw [if_pos hm] at hw
    exact Or.inl hw
  · rw [if_neg hm] at hw
    exact Or.inr hw

/-- C17: if a voxel has `weight >= 0` and `-1 <= tsdf <= 1` and
`sdf_trunc > 0`, then after an Integrate step (one kernel invocation on the
voxel, or the whole launch) `weight >= 0` and `-1 <= tsdf <= 1` still hold, the
divisor `weight + 1` is not zero, and an observation with
`depth - zc > sdf_trunc` has the normalised value exactly 1. -/
theorem Integrate_preserves_range (inp : IntegrateInput) (tl : SparseTensorList ℚ) (w : Nat)
    (ht : 0 < inp.sdf_trunc) (hw : 0 ≤ weightOf tl w) (hlo : -1 ≤ tsdfOf tl w)
    (hhi : tsdfOf tl w ≤ 1) :
    (0 ≤ weightOf (IntegrateKernel inp tl w) w ∧ -1 ≤ tsdfOf (IntegrateKernel inp tl w) w ∧
        tsdfOf (IntegrateKernel inp tl w) w ≤ 1) ∧
      (0 ≤ weightOf (Integrate inp tl) w ∧ -1 ≤ tsdfOf (Integrate inp tl) w ∧
        tsdfOf (Integrate inp tl) w ≤ 1) ∧
      weightOf tl w + 1 ≠ 0 ∧
      (inp.sdf_trunc < sampledDepth inp tl w - (cameraPoint inp tl w).2.2 →
        normalisedSdf inp tl w = 1) := by
  have hb := voxelStep_bounds inp tl w (tsdfOf tl w, weightOf tl w) ht hw hlo hhi
  refine ⟨?_, ?_, by linarith, ?_⟩
  · have hk := IntegrateKernel_self inp tl w
    rw [← hk] at hb
    exact hb
  · rcases Integrate_voxel_cases inp tl w with h | h
    · rw [← h] at hb
      exact hb
    · have h1 := congrArg Prod.fst h
      have h2 := congrArg Prod.snd h
      simp only at h1 h2
      rw [h1, h2]
      exact ⟨hw, hlo, hhi⟩
  · intro hgt
    unfold normalisedSdf
    rw [min_eq_right hgt.le, div_self ht.ne']

/-- Witness of C17: a voxel with `tsdf = 1`, `weight = 3` observed beyond the
truncation distance (depth 3, `zc = 1`, `sdf_trunc = 1`). -/
theorem Integrate_preserves_range_witness :
    tsdfOf (Integrate (truncFrame 3 1) (oneVoxel 1 3)) 0 ≤ 1 ∧
      normalisedSdf (truncFrame 3 1) (oneVoxel 1 3) 0 = 1 :=
  ⟨(Integrate_preserves_range (truncFrame 3 1) (oneVoxel 1 3) 0 (by norm_num [truncFrame])
      (by rw [oneVoxel_weightOf]; norm_num) (by rw [oneVoxel_tsdfOf]; norm_num)
      (by rw [oneVoxel_tsdfOf])).2.1.2.2,
    (Integrate_preserves_range (truncFrame 3 1) (oneVoxel 1 3) 0 (by norm_num [truncFrame])
      (by rw [oneVoxel_weightOf]; norm_num) (by rw [oneVoxel_tsdfOf]; norm_num)
      (by rw [oneVoxel_tsdfOf])).2.2.2
      (by rw [truncFrame_sampledDepth, truncFrame_cameraPoint]; norm_num [truncFrame])⟩

theorem ExtractEdge_of_invalid (inp : ExtractInput) (w : Nat) (st : SurfaceState) (i : Nat)
    (h : nbValid inp w i = false) : ExtractEdge inp w st i = st := by
  unfold ExtractEdge
  simp [h]

theorem foldl_ExtractEdge_skip (inp : ExtractInput) (w i : Nat)
    (h : nbValid inp w i = false) (ds : List Nat) :
    ∀ st : SurfaceState, ds.foldl (ExtractEdge inp w) st =
      (ds.filter (fun d => decide (d ≠ i))).foldl (ExtractEdge inp w) st := by
  induction ds with
  | nil => intro st; rfl
  | cons d ds ih =>
    intro st
    by_cases hd : d = i
    · subst hd
      rw [List.foldl_cons, ExtractEdge_of_invalid inp w st d h, ih]
      simp [List.filter_cons]
    · rw [List.foldl_cons, ih]
      simp [List.filter_cons, hd]

/-! ## ExtractSurface: invalid neighbour blocks -/

/-- C18: for an edge whose neighbour block is not marked valid the loop
iteration changes nothing (no vertex, no stored index, counter unchanged), its
outcome does not depend on the neighbour volume, no run stores a vertex index
for the edge, and the kernel acts as the loop over the other directions. -/
theorem ExtractSurface_invalid_neighbour (inp : ExtractInput) (w i : Nat)
    (hinv : nbValid inp w i = false) :
    (∀ st : SurfaceState, ExtractEdge inp w st i = st) ∧
      ¬ Emitted inp w i ∧
      (∀ (nb : SparseTensorList ℚ) (st : SurfaceState),
        ExtractEdge { inp with tsdf_nb := nb } w st i = ExtractEdge inp w st i) ∧
      (∀ (order : List Nat) (mem : SurfaceState),
        vertexInd inp (ExtractSurfaceInOrder order inp mem) w i = vertexInd inp mem w i) ∧
      (∀ st : SurfaceState, ExtractSurfaceKernel inp st w =
        if weightO inp w = 0 then st
        else ([0, 1, 2].filter (fun d => decide (d ≠ i))).foldl (ExtractEdge inp w) st) := by
  have hne : ¬ Emitted inp w i := by
    intro he
    rw [he.2.2.1] at hinv
    exact Bool.noConfusion hinv
  refine ⟨fun st => ExtractEdge_of_invalid inp w st i hinv, hne, fun nb st => ?_,
    fun order mem => ?_, fun st => ?_⟩
  · have hinv' : nbValid { inp with tsdf_nb := nb } w i = false := hinv
    rw [ExtractEdge_of_invalid inp w st i hinv, ExtractEdge_of_invalid _ w st i hinv']
  · rw [ExtractSurfaceInOrder_eq, vertexInd_pushAll_of_not_mem]
    · rfl
    · intro hmem
      exact hne ((mem_emissions inp order w i).mp hmem).2
  · unfold ExtractSurfaceKernel
    rw [foldl_ExtractEdge_skip inp w i hinv [0, 1, 2] st]

theorem edgeVolume_invalid_zero_one (wo : ℚ) : nbValid (edgeVolume wo) 0 1 = false := by
  simp [nbValid, nbIdx, blockOffset, steppedCoord, valueIdx, keyIdx, GetSparseWorkloadIdx,
    ConvertOffsetTo3D, Convert2DToOffset, edgeVolume, SizeVector.NumElements]

/-- Witness of C18: the `+y` edge of the first voxel of the two-block volume,
whose neighbour block is invalid, while its `+x` edge gets a vertex. -/
theorem ExtractSurface_invalid_neighbour_witness :
    ExtractEdge (edgeVolume 1) 0 blankMemory 1 = blankMemory ∧
      ExtractSurfaceKernel (edgeVolume 1) blankMemory 0 =
        (if weightO (edgeVolume 1) 0 = 0 then blankMemory
        else ([0, 1, 2].filter (fun d => decide (d ≠ 1))).foldl (ExtractEdge (edgeVolume 1) 0)
          blankMemory) ∧
      Emitted (edgeVolume 1) 0 0 :=
  ⟨(ExtractSurface_invalid_neighbour (edgeVolume 1) 0 1 (edgeVolume_invalid_zero_one 1)).1
      blankMemory,
    (ExtractSurface_invalid_neighbour (edgeVolume 1) 0 1 (edgeVolume_invalid_zero_one 1)).2.2.2.2
      blankMemory,
    edgeVolume_emitted_zero 1 one_ne_zero⟩

/-- C19: one Integrate workload step leaves the set of blocks (number, shape,
keys) unchanged and changes no channel value besides the tsdf (channel 0) and
the weight (channel 1) of the voxel `(key_idx, value_idx)` of its workload
index; the tsdf and weight of the voxel of any other workload are unchanged. -/
theorem IntegrateKernel_frame_effect (inp : IntegrateInput) (tl : SparseTensorList ℚ)
    (w : Nat) :
    (IntegrateKernel inp tl w).size = tl.size ∧
      (IntegrateKernel inp tl w).shape = tl.shape ∧
      (IntegrateKernel inp tl w).keys = tl.keys ∧
      (∀ k c v, ¬ (k = (GetSparseWorkloadIdx tl.shape.NumElements w).1 ∧
            v = (GetSparseWorkloadIdx tl.shape.NumElements w).2 ∧ (c = 0 ∨ c = 1)) →
        (IntegrateKernel inp tl w).values k c v = tl.values k c v) ∧
      (∀ w', w' ≠ w → tsdfOf (IntegrateKernel inp tl w) w' = tsdfOf tl w' ∧
        weightOf (IntegrateKernel inp tl w) w' = weightOf tl w') := by
  obtain ⟨fs, fk, fz⟩ := IntegrateKernel_frame inp tl w
  refine ⟨fz, fs, fk, ?_, fun w' hne => IntegrateKernel_other inp tl w w' (Ne.symm hne)⟩
  intro k c v hn
  by_cases h : Observed inp tl w
  · rw [IntegrateKernel_observed inp tl w h]
    simp only [SparseTensorList.store]
    rw [if_neg, if_neg]
    · rintro ⟨h1, h2, h3⟩
      exact hn ⟨h1, h3, Or.inl h2⟩
    · rintro ⟨h1, h2, h3⟩
      exact hn ⟨h1, h3, Or.inr h2⟩
  · rw [IntegrateKernel_skip inp tl w h]

/-- Witness of C19: the step on the one-voxel volume leaves channel 2 of its
voxel and the block key in place. -/
theorem IntegrateKernel_frame_effect_witness :
    (IntegrateKernel (constFrame (3 / 2)) (oneVoxel (1 / 2) 3) 0).values 0 2 0 =
        (oneVoxel (1 / 2) 3).values 0 2 0 ∧
      (IntegrateKernel (constFrame (3 / 2)) (oneVoxel (1 / 2) 3) 0).keys =
        (oneVoxel (1 / 2) 3).keys :=
  ⟨(IntegrateKernel_frame_effect (constFrame (3 / 2)) (oneVoxel (1 / 2) 3) 0).2.2.2.1 0 2 0
      (by rintro ⟨_, _, h | h⟩ <;> exact absurd h (by decide)),
    (IntegrateKernel_frame_effect (constFrame (3 / 2)) (oneVoxel (1 / 2) 3) 0).2.2.1⟩

theorem ratio_bounds (tsdf_i tsdf_o : ℚ) (h : tsdf_i * tsdf_o < 0) :
    tsdf_i - tsdf_o ≠ 0 ∧ 0 < ratio tsdf_i tsdf_o ∧ ratio tsdf_i tsdf_o < 1 := by
  refine ⟨ratio_sub_ne_zero tsdf_i tsdf_o h, ?_, ?_⟩
  · unfold ratio
    rcases lt_trichotomy tsdf_i 0 with hi | hi | hi
    · have ho : 0 < tsdf_o := by
        by_contra hc
        exact absurd h (not_lt.mpr (mul_nonneg_of_nonpos_of_nonpos hi.le (not_lt.mp hc)))
      exact div_pos_of_neg_of_neg hi (by linarith)
    · rw [hi, zero_mul] at h
      exact absurd h (lt_irrefl 0)
    · have ho : tsdf_o < 0 := by
        by_contra hc
        exact absurd h (not_lt.mpr (mul_nonneg hi.le (not_lt.mp hc)))
      exact div_pos hi (by linarith)
  · unfold ratio
    rcases lt_trichotomy tsdf_i 0 with hi | hi | hi
    · have ho : 0 < tsdf_o := by
        by_contra hc
        exact absurd h (not_lt.mpr (mul_nonneg_of_nonpos_of_nonpos hi.le (not_lt.mp hc)))
      rw [div_lt_one_of_neg (by linarith)]
      linarith
    · rw [hi, zero_mul] at h
      exact absurd h (lt_irrefl 0)
    · have ho : tsdf_o < 0 := by
        by_contra hc
        exact absurd h (not_lt.mpr (mul_nonneg hi.le (not_lt.mp hc)))
      rw [div_lt_one (by linarith)]
      linarith

/-! ## Lemmas on the block addressing arithmetic -/

theorem steppedCoord_eq (inp : ExtractInput) (w i : Nat) :
    steppedCoord inp w i = stepLocal (ConvertOffsetTo3D inp.grid_shape (valueIdx inp w)) i := rfl

theorem blockOffset_eq (inp : ExtractInput) (w i : Nat) :
    blockOffset inp w i = blockOffsetOf inp.grid_shape.d0 (steppedCoord inp w i) := rfl

theorem nbIdx_eq (inp : ExtractInput) (w i : Nat) :
    nbIdx inp w i = nbIdxOf (blockOffset inp w i) := rfl

theorem nbValueIdx_eq (inp : ExtractInput) (w i : Nat) :
    nbValueIdx inp w i =
      Convert3DToOffset inp.grid_shape (wrapLocal inp.grid_shape.d0 (steppedCoord inp w i)).1
        (wrapLocal inp.grid_shape.d0 (steppedCoord inp w i)).2.1
        (wrapLocal inp.grid_shape.d0 (steppedCoord inp w i)).2.2 := rfl

theorem voxelCoord_eq (shape : SizeVector) (keys : Nat → Int × Int × Int) (w : Nat) :
    voxelCoord shape keys w =
      globalCoord shape.d0 (keys (GetSparseWorkloadIdx shape.NumElements w).1)
        (ConvertOffsetTo3D shape (GetSparseWorkloadIdx shape.NumElements w).2) := rfl

/-- A coordinate below the resolution stays in its block, the coordinate one
step further either stays or is the first one of the next block. -/
theorem step_div (r x : Nat) (hx : x < r) :
    x / r = 0 ∧ ((x + 1) / r = 0 ∧ x + 1 < r ∨ (x + 1) / r = 1 ∧ x + 1 = r) := by
  refine ⟨Nat.div_eq_of_lt hx, ?_⟩
  by_cases h : x + 1 < r
  · exact Or.inl ⟨Nat.div_eq_of_lt h, h⟩
  · have he : x + 1 = r := by omega
    refine Or.inr ⟨?_, he⟩
    rw [he]
    exact Nat.div_self (by omega)

theorem local_in_block (r v : Nat) (hr : 1 ≤ r) (hv : v < r * r * r) :
    (ConvertOffsetTo3D (cubicShape r) v).1 < r ∧ (ConvertOffsetTo3D (cubicShape r) v).2.1 < r ∧
      (ConvertOffsetTo3D (cubicShape r) v).2.2 < r := by
  have hpos : 0 < r := hr
  refine ⟨Nat.mod_lt _ hpos, Nat.mod_lt _ hpos, ?_⟩
  simp only [ConvertOffsetTo3D, cubicShape]
  rw [Nat.div_lt_iff_lt_mul (Nat.mul_pos hpos hpos)]
  calc v < r * r * r := hv
    _ = r * (r * r) := Nat.mul_assoc r r r

theorem valueIdx_lt (inp : ExtractInput) (r w : Nat) (hr : 1 ≤ r)
    (hs : inp.grid_shape = cubicShape r) : valueIdx inp w < r * r * r := by
  unfold valueIdx GetSparseWorkloadIdx
  rw [hs]
  simp only [SizeVector.NumElements, cubicShape]
  exact Nat.mod_lt _ (Nat.mul_pos (Nat.mul_pos hr hr) hr)

/-- Offsets, neighbour index and wrapped coordinate of one step from a local
coordinate inside the block. -/
theorem step_in_block (r : Nat) (l : Nat × Nat × Nat) (i : Nat)
    (hx : l.1 < r) (hy : l.2.1 < r) (hz : l.2.2 < r) (hi : i < 3) :
    ((blockOffsetOf r (stepLocal l i)).1 = 0 ∨ (blockOffsetOf r (stepLocal l i)).1 = 1) ∧
      ((blockOffsetOf r (stepLocal l i)).2.1 = 0 ∨ (blockOffsetOf r (stepLocal l i)).2.1 = 1) ∧
      ((blockOffsetOf r (stepLocal l i)).2.2 = 0 ∨ (blockOffsetOf r (stepLocal l i)).2.2 = 1) ∧
      (blockOffsetOf r (stepLocal l i)).1 + (blockOffsetOf r (stepLocal l i)).2.1 +
        (blockOffsetOf r (stepLocal l i)).2.2 ≤ 1 ∧
      (nbIdxOf (blockOffsetOf r (stepLocal l i)) = 13 ∨
        nbIdxOf (blockOffsetOf r (stepLocal l i)) = 14 ∨
        nbIdxOf (blockOffsetOf r (stepLocal l i)) = 16 ∨
        nbIdxOf (blockOffsetOf r (stepLocal l i)) = 22) ∧
      ((wrapLocal r (stepLocal l i)).1 < r ∧ (wrapLocal r (stepLocal l i)).2.1 < r ∧
        (wrapLocal r (stepLocal l i)).2.2 < r) ∧
      ((wrapLocal r (stepLocal l i)).1 + (blockOffsetOf r (stepLocal l i)).1 * r =
          (stepLocal l i).1 ∧
        (wrapLocal r (stepLocal l i)).2.1 + (blockOffsetOf r (stepLocal l i)).2.1 * r =
          (stepLocal l i).2.1 ∧
        (wrapLocal r (stepLocal l i)).2.2 + (blockOffsetOf r (stepLocal l i)).2.2 * r =
          (stepLocal l i).2.2) := by
  obtain ⟨x0, x1⟩ := step_div r l.1 hx
  obtain ⟨y0, y1⟩ := step_div r l.2.1 hy
  obtain ⟨z0, z1⟩ := step_div r l.2.2 hz
  interval_cases i
  · rcases x1 with ⟨hd, hlt⟩ | ⟨hd, he⟩
    · simp [stepLocal, blockOffsetOf, nbIdxOf, wrapLocal, hd, y0, z0]
      omega
    · simp [stepLocal, blockOffsetOf, nbIdxOf, wrapLocal, hd, y0, z0]
      omega
  · rcases y1 with ⟨hd, hlt⟩ | ⟨hd, he⟩
    · simp [stepLocal, blockOffsetOf, nbIdxOf, wrapLocal, hd, x0, z0]
      omega
    · simp [stepLocal, blockOffsetOf, nbIdxOf, wrapLocal, hd, x0, z0]
      omega
  · rcases z1 with ⟨hd, hlt⟩ | ⟨hd, he⟩
    · simp [stepLocal, blockOffsetOf, nbIdxOf, wrapLocal, hd, x0, y0]
      omega
    · simp [stepLocal, blockOffsetOf, nbIdxOf, wrapLocal, hd, x0, y0]
      omega

theorem coord_inj (r : Nat) (g g' : Int) (l l' : Nat) (hl : l < r) (hl' : l' < r)
    (h : g * (r : Int) + (l : Int) = g' * (r : Int) + (l' : Int)) : g = g' ∧ l = l' := by
  have hlr : (l : Int) < (r : Int) := by exact_mod_cast hl
  have hlr' : (l' : Int) < (r : Int) := by exact_mod_cast hl'
  have hl0 : (0 : Int) ≤ (l : Int) := Int.ofNat_nonneg l
  have hl0' : (0 : Int) ≤ (l' : Int) := Int.ofNat_nonneg l'
  have hr0 : (0 : Int) ≤ (r : Int) := Int.ofNat_nonneg r
  have hg : g = g' := by
    rcases lt_trichotomy g g' with hlt | heq | hgt
    · have h1 : (g + 1) * (r : Int) ≤ g' * (r : Int) :=
        mul_le_mul_of_nonneg_right (by omega) hr0
      have h2 : (g + 1) * (r : Int) = g * (r : Int) + (r : Int) := by ring
      omega
    · exact heq
    · have h1 : (g' + 1) * (r : Int) ≤ g * (r : Int) :=
        mul_le_mul_of_nonneg_right (by omega) hr0
      have h2 : (g' + 1) * (r : Int) = g' * (r : Int) + (r : Int) := by ring
      omega
  refine ⟨hg, ?_⟩
  rw [hg] at h
  have : (l : Int) = (l' : Int) := by linarith
  exact_mod_cast this

theorem globalCoord_inj (r : Nat) (g g' : Int × Int × Int) (l l' : Nat × Nat × Nat)
    (hx : l.1 < r) (hy : l.2.1 < r) (hz : l.2.2 < r)
    (hx' : l'.1 < r) (hy' : l'.2.1 < r) (hz' : l'.2.2 < r)
    (h : globalCoord r g l = globalCoord r g' l') : g = g' ∧ l = l' := by
  unfold globalCoord at h
  have h1 := coord_inj r g.1 g'.1 l.1 l'.1 hx hx' (congrArg Prod.fst h)
  have h2 := coord_inj r g.2.1 g'.2.1 l.2.1 l'.2.1 hy hy' (congrArg (fun p => p.2.1) h)
  have h3 := coord_inj r g.2.2 g'.2.2 l.2.2 l'.2.2 hz hz' (congrArg (fun p => p.2.2) h)
  exact ⟨Prod.ext h1.1 (Prod.ext h2.1 h3.1), Prod.ext h1.2 (Prod.ext h2.2 h3.2)⟩

theorem ConvertOffsetTo3D_inj (r v v' : Nat)
    (h : ConvertOffsetTo3D (cubicShape r) v = ConvertOffsetTo3D (cubicShape r) v') : v = v' := by
  simp only [ConvertOffsetTo3D, cubicShape] at h
  have h1 : v % r = v' % r := congrArg Prod.fst h
  have h2 : v / r % r = v' / r % r := congrArg (fun p => p.2.1) h
  have h3 : v / (r * r) = v' / (r * r) := congrArg (fun p => p.2.2) h
  rw [← Nat.div_div_eq_div_mul, ← Nat.div_div_eq_div_mul] at h3
  have hq : v / r = v' / r := by
    rw [← Nat.div_add_mod (v / r) r, ← Nat.div_add_mod (v' / r) r, h2, h3]
  rw [← Nat.div_add_mod v r, ← Nat.div_add_mod v' r, h1, hq]

/-! ## Block addressing: neighbour blocks stay in the mask -/

/-- C21: for a resolution `>= 1`, a local coordinate in `[0, resolution)^3` and
a direction `i < 3`, the block offsets of the stepped coordinate are each 0 or
1 with at most one equal to 1, `nb_idx` is one of 13, 14, 16, 22 (below 27), and
the wrapped coordinate lies in `[0, resolution)^3`, the subtraction being exact;
so it is for every workload of the kernel on blocks of that resolution. -/
theorem neighbour_block_in_mask (resolution : Nat) (hres : 1 ≤ resolution) :
    (∀ (l : Nat × Nat × Nat) (i : Nat), l.1 < resolution → l.2.1 < resolution →
        l.2.2 < resolution → i < 3 →
        ((blockOffsetOf resolution (stepLocal l i)).1 = 0 ∨
            (blockOffsetOf resolution (stepLocal l i)).1 = 1) ∧
          ((blockOffsetOf resolution (stepLocal l i)).2.1 = 0 ∨
            (blockOffsetOf resolution (stepLocal l i)).2.1 = 1) ∧
          ((blockOffsetOf resolution (stepLocal l i)).2.2 = 0 ∨
            (blockOffsetOf resolution (stepLocal l i)).2.2 = 1) ∧
          (blockOffsetOf resolution (stepLocal l i)).1 +
              (blockOffsetOf resolution (stepLocal l i)).2.1 +
              (blockOffsetOf resolution (stepLocal l i)).2.2 ≤ 1 ∧
          (nbIdxOf (blockOffsetOf resolution (stepLocal l i)) = 13 ∨
            nbIdxOf (blockOffsetOf resolution (stepLocal l i)) = 14 ∨
            nbIdxOf (blockOffsetOf resolution (stepLocal l i)) = 16 ∨
            nbIdxOf (blockOffsetOf resolution (stepLocal l i)) = 22) ∧
          nbIdxOf (blockOffsetOf resolution (stepLocal l i)) < 27 ∧
          ((wrapLocal resolution (stepLocal l i)).1 < resolution ∧
            (wrapLocal resolution (stepLocal l i)).2.1 < resolution ∧
            (wrapLocal resolution (stepLocal l i)).2.2 < resolution) ∧
          ((wrapLocal resolution (stepLocal l i)).1 +
                (blockOffsetOf resolution (stepLocal l i)).1 * resolution =
              (stepLocal l i).1 ∧
            (wrapLocal resolution (stepLocal l i)).2.1 +
                (blockOffsetOf resolution (stepLocal l i)).2.1 * resolution =
              (stepLocal l i).2.1 ∧
            (wrapLocal resolution (stepLocal l i)).2.2 +
                (blockOffsetOf resolution (stepLocal l i)).2.2 * resolution =
              (stepLocal l i).2.2)) ∧
      (∀ (inp : ExtractInput) (w i : Nat), inp.grid_shape = cubicShape resolution → i < 3 →
        (nbIdx inp w i = 13 ∨ nbIdx inp w i = 14 ∨ nbIdx inp w i = 16 ∨ nbIdx inp w i = 22) ∧
          nbIdx inp w i < 27 ∧
          (wrapLocal inp.grid_shape.d0 (steppedCoord inp w i)).1 < resolution ∧
          (wrapLocal inp.grid_shape.d0 (steppedCoord inp w i)).2.1 < resolution ∧
          (wrapLocal inp.grid_shape.d0 (steppedCoord inp w i)).2.2 < resolution) := by
  have hidx : ∀ n : Nat, (n = 13 ∨ n = 14 ∨ n = 16 ∨ n = 22) → n < 27 := by
    intro n hn
    omega
  refine ⟨fun l i hx hy hz hi => ?_, fun inp w i hs hi => ?_⟩
  · obtain ⟨a, b, c, d, e, f, g⟩ := step_in_block resolution l i hx hy hz hi
    exact ⟨a, b, c, d, e, hidx _ e, f, g⟩
  · obtain ⟨lx, ly, lz⟩ := local_in_block resolution (valueIdx inp w) hres
      (valueIdx_lt inp resolution w hres hs)
    rw [nbIdx_eq, blockOffset_eq, steppedCoord_eq, hs]
    obtain ⟨_, _, _, _, e, f, _⟩ := step_in_block resolution
      (ConvertOffsetTo3D (cubicShape resolution) (valueIdx inp w)) i lx ly lz hi
    exact ⟨e, hidx _ e, f⟩

/-- Witness of C21: the step `+x` from the local coordinate `(1, 0, 1)` of a
block of resolution 2 leaves the block: `nb_idx` is one of the four values and
the wrapped coordinate is inside. -/
theorem neighbour_block_in_mask_witness :
    (nbIdxOf (blockOffsetOf 2 (stepLocal (1, 0, 1) 0)) = 13 ∨
        nbIdxOf (blockOffsetOf 2 (stepLocal (1, 0, 1) 0)) = 14 ∨
        nbIdxOf (blockOffsetOf 2 (stepLocal (1, 0, 1) 0)) = 16 ∨
        nbIdxOf (blockOffsetOf 2 (stepLocal (1, 0, 1) 0)) = 22) ∧
      (wrapLocal 2 (stepLocal (1, 0, 1) 0)).1 < 2 ∧
      nbIdx cubicVolume 5 0 < 27 :=
  ⟨((neighbour_block_in_mask 2 (by decide)).1 (1, 0, 1) 0 (by decide) (by decide) (by decide)
      (by decide)).2.2.2.2.1,
    ((neighbour_block_in_mask 2 (by decide)).1 (1, 0, 1) 0 (by decide) (by decide) (by decide)
      (by decide)).2.2.2.2.2.2.1.1,
    ((neighbour_block_in_mask 2 (by decide)).2 cubicVolume 5 0 rfl (by decide)).2.1⟩

/-! ## Lemmas on the run with buffers of their allocated size -/

theorem ExtractEdgeChecked_eq (inp : ExtractInput) (w : Nat) (st : SurfaceState) (i : Nat) :
    ExtractEdgeChecked inp w st i =
      if edgeTest inp w i then emitVertexChecked inp w i st else some st := by
  unfold ExtractEdgeChecked edgeTest
  by_cases hv : nbValid inp w i = true
  · by_cases hc : 0 < weightI inp w i ∧ tsdfI inp w i * tsdfO inp w < 0
    · simp [hv, hc]
    · simp only [hv, Bool.not_true, Bool.false_eq_true, if_false, hc, decide_False,
        Bool.and_false]
  · simp [hv]

theorem pushAllChecked_nil (inp : ExtractInput) (st : SurfaceState) :
    pushAllChecked inp st [] = some st := rfl

theorem pushAllChecked_cons (inp : ExtractInput) (st : SurfaceState) (e : Nat × Nat)
    (es : List (Nat × Nat)) :
    pushAllChecked inp st (e :: es) =
      (emitVertexChecked inp e.1 e.2 st).bind (fun s => pushAllChecked inp s es) := by
  unfold pushAllChecked
  rw [List.foldlM_cons]
  rfl

theorem pushAllChecked_append (inp : ExtractInput) (es fs : List (Nat × Nat)) :
    ∀ st : SurfaceState, pushAllChecked inp st (es ++ fs) =
      (pushAllChecked inp st es).bind (fun s => pushAllChecked inp s fs) := by
  induction es with
  | nil => intro st; rfl
  | cons e es ih =>
    intro st
    rw [List.cons_append, pushAllChecked_cons, pushAllChecked_cons]
    cases h : emitVertexChecked inp e.1 e.2 st with
    | none => rfl
    | some s => exact ih s

theorem foldlM_ExtractEdgeChecked (inp : ExtractInput) (w : Nat) (ds : List Nat) :
    ∀ st : SurfaceState, ds.foldlM (ExtractEdgeChecked inp w) st =
      pushAllChecked inp st ((ds.filter (edgeTest inp w)).map (fun i => (w, i))) := by
  induction ds with
  | nil => intro st; rfl
  | cons d ds ih =>
    intro st
    rw [List.foldlM_cons, ExtractEdgeChecked_eq]
    by_cases h : edgeTest inp w d = true
    · rw [if_pos h, List.filter_cons_of_pos h, List.map_cons, pushAllChecked_cons]
      cases hs : emitVertexChecked inp w d st with
      | none => rfl
      | some s => exact ih s
    · rw [if_neg h, List.filter_cons_of_neg h]
      exact ih st

theorem ExtractSurfaceKernelChecked_eq (inp : ExtractInput) (st : SurfaceState) (w : Nat) :
    ExtractSurfaceKernelChecked inp st w =
      pushAllChecked inp st ((emittedDirs inp w).map (fun i => (w, i))) := by
  unfold ExtractSurfaceKernelChecked emittedDirs
  by_cases h : weightO inp w = 0
  · simp [h, pushAllChecked]
  · simp only [h, if_false]
    exact foldlM_ExtractEdgeChecked inp w [0, 1, 2] st

theorem foldlM_ExtractSurfaceKernelChecked (inp : ExtractInput) (order : List Nat) :
    ∀ st : SurfaceState, order.foldlM (ExtractSurfaceKernelChecked inp) st =
      pushAllChecked inp st (emissions inp order) := by
  induction order with
  | nil => intro st; rfl
  | cons w order ih =>
    intro st
    rw [List.foldlM_cons, ExtractSurfaceKernelChecked_eq]
    unfold emissions
    rw [List.flatMap_cons, pushAllChecked_append]
    cases hs : pushAllChecked inp st ((emittedDirs inp w).map (fun i => (w, i))) with
    | none => rfl
    | some s => exact ih s

theorem count_pushAll (inp : ExtractInput) (es : List (Nat × Nat)) :
    ∀ st : SurfaceState, (pushAll inp st es).count = st.count + es.length := by
  induction es with
  | nil => intro st; rfl
  | cons e es ih =>
    intro st
    have : pushAll inp st (e :: es) = pushAll inp (emitVertex inp e.1 e.2 st) es := rfl
    rw [this, ih]
    simp only [emitVertex, List.length_cons]
    omega

/-- With buffers of their allocated size the vertices of a list of edges are
all created exactly when the counter stays within `total_count`. -/
theorem pushAllChecked_eq (inp : ExtractInput) (es : List (Nat × Nat)) :
    ∀ st : SurfaceState, st.count ≤ total_count → pushAllChecked inp st es =
      if st.count + es.length ≤ total_count then some (pushAll inp st es) else none := by
  induction es with
  | nil =>
    intro st h
    simp [pushAllChecked_nil, pushAll, h]
  | cons e es ih =>
    intro st _
    rw [pushAllChecked_cons]
    unfold emitVertexChecked
    by_cases h : st.count < total_count
    · have hc : (emitVertex inp e.1 e.2 st).count = st.count + 1 := rfl
      rw [if_pos h, Option.some_bind, ih _ (by rw [hc]; omega)]
      have hp : pushAll inp st (e :: es) = pushAll inp (emitVertex inp e.1 e.2 st) es := rfl
      rw [hc, hp]
      simp only [List.length_cons]
      by_cases h2 : st.count + 1 + es.length ≤ total_count
      · rw [if_pos h2, if_pos (by omega)]
      · rw [if_neg h2, if_neg (by omega)]
    · rw [if_neg h, Option.none_bind, if_neg]
      simp only [List.length_cons]
      omega

/-- The run with buffers of their allocated size ends normally, in the state
of the run on unbounded buffers, exactly when the number of vertices stays
within `total_count`. -/
theorem ExtractSurfaceChecked_eq (order : List Nat) (inp : ExtractInput) (mem : SurfaceState) :
    ExtractSurfaceChecked order inp mem =
      if (emissions inp order).length ≤ total_count then
        some (ExtractSurfaceInOrder order inp mem)
      else none := by
  unfold ExtractSurfaceChecked
  rw [foldlM_ExtractSurfaceKernelChecked, pushAllChecked_eq inp _ _ (Nat.zero_le _),
    ExtractSurfaceInOrder_eq]
  simp only [Nat.zero_add]

theorem ExtractSurfaceChecked_of_le (order : List Nat) (inp : ExtractInput)
    (mem : SurfaceState) (hperm : order.Perm (List.range (extractWorkloads inp)))
    (hcap : (emittedPairs inp).card ≤ total_count) :
    ExtractSurfaceChecked order inp mem = some (ExtractSurfaceInOrder order inp mem) := by
  rw [ExtractSurfaceChecked_eq, if_pos]
  rw [length_emissions inp order hperm]
  exact hcap

theorem ExtractSurfaceChecked_of_lt (order : List Nat) (inp : ExtractInput)
    (mem : SurfaceState) (hperm : order.Perm (List.range (extractWorkloads inp)))
    (hcap : total_count < (emittedPairs inp).card) :
    ExtractSurfaceChecked order inp mem = none := by
  rw [ExtractSurfaceChecked_eq, if_neg]
  rw [length_emissions inp order hperm]
  omega

theorem denseVolume_card (n : Nat) : (emittedPairs (denseVolume n)).card = n * 3 := by
  rw [denseVolume_emittedPairs, Finset.card_product, Finset.card_range, Finset.card_range]

theorem edgeVolume_card_le (wo : ℚ) : (emittedPairs (edgeVolume wo)).card ≤ total_count := by
  have h : (emittedPairs (edgeVolume wo)).card ≤
      (Finset.range (extractWorkloads (edgeVolume wo)) ×ˢ Finset.range 3).card :=
    Finset.card_filter_le _ _
  rw [Finset.card_product, Finset.card_range, Finset.card_range, edgeVolume_workloads] at h
  exact le_trans h (by decide)

theorem denseVolume_checked_none (n : Nat) (order : List Nat) (mem : SurfaceState)
    (hperm : order.Perm (List.range (extractWorkloads (denseVolume n))))
    (h : total_count < n * 3) : ExtractSurfaceChecked order (denseVolume n) mem = none :=
  ExtractSurfaceChecked_of_lt order (denseVolume n) mem hperm (by rw [denseVolume_card]; exact h)

/-! ## ExtractSurface within the capacity of the vertex buffers -/

/-- C9 fails as worded: on the volume of 600000 one-voxel blocks, whose
1800000 edges all change sign, the stores run past the end of the vertex
buffers in the increasing and in the decreasing order of the workloads: neither
run ends with a count and a set of coordinates that could be compared. -/
theorem ExtractSurfaceChecked_overrun_both_orders :
    ¬ ∃ s1 s2 : SurfaceState,
      ExtractSurfaceChecked (List.range (extractWorkloads (denseVolume 600000)))
          (denseVolume 600000) blankMemory = some s1 ∧
        ExtractSurfaceChecked (List.range (extractWorkloads (denseVolume 600000))).reverse
          (denseVolume 600000) blankMemory = some s2 ∧
        actual_count s1 = actual_count s2 ∧
        (↑(outputColumns s1) : Multiset (ℚ × ℚ × ℚ)) = ↑(outputColumns s2) := by
  rintro ⟨s1, s2, h1, _⟩
  rw [denseVolume_checked_none 600000 _ blankMemory (List.Perm.refl _) (by decide)] at h1
  exact Option.noConfusion h1

/-- C9 amended: for every input volume whose number of vertices does not
exceed the size `total_count` of the vertex buffers and every two orders of the
workloads, both runs end normally with the same `actual_count` and the same
multiset of vertex coordinates, whatever the memory contents before the
call. -/
theorem ExtractSurfaceChecked_order_independent (inp : ExtractInput) (mem1 mem2 : SurfaceState)
    (o1 o2 : List Nat) (h1 : o1.Perm (List.range (extractWorkloads inp)))
    (h2 : o2.Perm (List.range (extractWorkloads inp)))
    (hcap : (emittedPairs inp).card ≤ total_count) :
    ∃ s1 s2 : SurfaceState,
      ExtractSurfaceChecked o1 inp mem1 = some s1 ∧
        ExtractSurfaceChecked o2 inp mem2 = some s2 ∧
        actual_count s1 = actual_count s2 ∧
        actual_count s1 ≤ total_count ∧
        (↑(outputColumns s1) : Multiset (ℚ × ℚ × ℚ)) = ↑(outputColumns s2) := by
  have hp : (emissions inp o1).Perm (emissions inp o2) :=
    emissions_perm inp o1 o2 (h1.trans h2.symm)
  refine ⟨_, _, ExtractSurfaceChecked_of_le o1 inp mem1 h1 hcap,
    ExtractSurfaceChecked_of_le o2 inp mem2 h2 hcap, ?_, ?_, ?_⟩
  · unfold actual_count
    rw [count_ExtractSurfaceInOrder, count_ExtractSurfaceInOrder, hp.length_eq]
  · unfold actual_count
    rw [count_ExtractSurfaceInOrder, length_emissions inp o1 h1]
    exact hcap
  · rw [outputColumns_ExtractSurfaceInOrder, outputColumns_ExtractSurfaceInOrder]
    exact Quotient.sound (hp.map _)

/-- Witness of C9 amended: the two orders of the two workloads of the
two-block volume. -/
theorem ExtractSurfaceChecked_order_independent_witness :
    ∃ s1 s2 : SurfaceState,
      ExtractSurfaceChecked [0, 1] (edgeVolume 1) blankMemory = some s1 ∧
        ExtractSurfaceChecked [1, 0] (edgeVolume 1) blankMemory = some s2 ∧
        actual_count s1 = actual_count s2 ∧
        actual_count s1 ≤ total_count ∧
        (↑(outputColumns s1) : Multiset (ℚ × ℚ × ℚ)) = ↑(outputColumns s2) :=
  ExtractSurfaceChecked_order_independent (edgeVolume 1) blankMemory blankMemory [0, 1] [1, 0]
    (by rw [edgeVolume_workloads]; exact List.Perm.refl _)
    (by rw [edgeVolume_workloads]; exact List.Perm.swap 0 1 [])
    (edgeVolume_card_le 1)

/-- C12 fails as worded: on the volume of 600000 one-voxel blocks the run in
increasing order stores past the end of the vertex buffers, so that no final
memory exists from which a `3 x actual_count` array of buffer entries could be
returned. -/
theorem ExtractSurfaceChecked_no_array :
    ¬ ∃ st : SurfaceState,
      ExtractSurfaceChecked (List.range (extractWorkloads (denseVolume 600000)))
          (denseVolume 600000) blankMemory = some st ∧
        (output_tensor st).length = 3 ∧
        ∀ row ∈ output_tensor st, row.length = actual_count st := by
  rintro ⟨st, h, _⟩
  rw [denseVolume_checked_none 600000 _ blankMemory (List.Perm.refl _) (by decide)] at h
  exact Option.noConfusion h

/-- C12 amended: when the number of vertices does not exceed the size
`total_count` of the vertex buffers, the run ends normally and the returned
array has 3 rows of `actual_count <= total_count` entries, row 0, 1, 2 being
the first `actual_count` entries of the x, y, z buffers, so that the column at
the index stored for an edge holds the coordinates of its vertex. -/
theorem ExtractSurfaceChecked_output_tensor (order : List Nat) (inp : ExtractInput)
    (mem : SurfaceState) (hperm : order.Perm (List.range (extractWorkloads inp)))
    (hcap : (emittedPairs inp).card ≤ total_count) :
    ∃ st : SurfaceState, ExtractSurfaceChecked order inp mem = some st ∧
      actual_count st ≤ total_count ∧
      (output_tensor st).length = 3 ∧
      (∀ row ∈ output_tensor st, row.length = actual_count st) ∧
      (∀ j, j < actual_count st →
        (output_tensor st).map (fun row => row[j]?) =
          [some (st.vertices_x j), some (st.vertices_y j), some (st.vertices_z j)]) ∧
      (∀ w i, w < extractWorkloads inp → Emitted inp w i →
        ∃ idx : Nat, vertexInd inp st w i = (idx : Int) ∧ idx < actual_count st ∧
          (output_tensor st).map (fun row => row[idx]?) =
            [some (edgeVertex inp w i).1, some (edgeVertex inp w i).2.1,
             some (edgeVertex inp w i).2.2]) := by
  have hrow : ∀ (st : SurfaceState) (j : Nat), j < actual_count st →
      (output_tensor st).map (fun row => row[j]?) =
        [some (st.vertices_x j), some (st.vertices_y j), some (st.vertices_z j)] := by
    intro st j hj
    simp [output_tensor, hj]
  refine ⟨_, ExtractSurfaceChecked_of_le order inp mem hperm hcap, ?_, rfl, ?_,
    fun j hj => hrow _ j hj, ?_⟩
  · unfold actual_count
    rw [count_ExtractSurfaceInOrder, length_emissions inp order hperm]
    exact hcap
  · intro row hrow'
    simp only [output_tensor, List.mem_cons, List.mem_singleton, List.not_mem_nil,
      or_false] at hrow'
    rcases hrow' with rfl | rfl | rfl <;> simp
  · intro w i hw he
    obtain ⟨idx, hv, hlt, hc⟩ := vertex_of_emitted order inp mem hperm w i hw he
    refine ⟨idx, hv, hlt, ?_⟩
    rw [hrow _ idx hlt, ← hc]

/-- Witness of C12 amended: the array returned for the two-block volume run in
the order `1, 0`. -/
theorem ExtractSurfaceChecked_output_tensor_witness :
    ∃ st : SurfaceState, ExtractSurfaceChecked [1, 0] (edgeVolume 1) blankMemory = some st ∧
      ∃ idx : Nat, vertexInd (edgeVolume 1) st 0 0 = (idx : Int) ∧
        (output_tensor st).map (fun row => row[idx]?) = [some (3 / 2), some 0, some 0] := by
  obtain ⟨st, hst, _, _, _, _, hcol⟩ := ExtractSurfaceChecked_output_tensor [1, 0]
    (edgeVolume 1) blankMemory (by rw [edgeVolume_workloads]; exact List.Perm.swap 0 1 [])
    (edgeVolume_card_le 1)
  obtain ⟨idx, h1, _, h2⟩ := hcol 0 0 (by rw [edgeVolume_workloads]; decide)
    (edgeVolume_emitted_zero 1 one_ne_zero)
  refine ⟨st, hst, idx, h1, ?_⟩
  rw [h2, edgeVolume_edgeVertex_zero]

theorem edgeVolume_tsdfO_one (wo : ℚ) : tsdfO (edgeVolume wo) 1 = -3 / 4 := by
  simp [tsdfO, keyIdx, valueIdx, GetSparseWorkloadIdx, edgeVolume, SizeVector.NumElements]

theorem edgeVolume_tsdfI_one (wo : ℚ) : tsdfI (edgeVolume wo) 1 1 = 1 / 2 := by
  simp [tsdfI, nbIdx, blockOffset, steppedCoord, valueIdx, keyIdx, GetSparseWorkloadIdx,
    ConvertOffsetTo3D, edgeVolume, SizeVector.NumElements]

theorem edgeVolume_emitted_one (wo : ℚ) (h : wo ≠ 0) : Emitted (edgeVolume wo) 1 1 := by
  rw [← mem_emittedDirs, edgeVolume_emittedDirs_one wo h]
  exact List.mem_singleton_self 1

/-- The coordinates computed for an edge, written out: block key times
`resolution` plus the local coordinate of the voxel, plus the fraction of line
212 along the direction of the edge, times `voxel_size`. -/
theorem edgeVertex_explicit (inp : ExtractInput) (w i : Nat) :
    edgeVertex inp w i =
      (inp.voxel_size *
          ((((inp.tsdf.keys (w / inp.grid_shape.NumElements)).1 * (inp.grid_shape.d0 : Int) +
              ((w % inp.grid_shape.NumElements % inp.grid_shape.d2 : Nat) : Int) : Int) : ℚ) +
            tsdfI inp w i / (tsdfI inp w i - tsdfO inp w) * (if i = 0 then 1 else 0)),
        inp.voxel_size *
          ((((inp.tsdf.keys (w / inp.grid_shape.NumElements)).2.1 * (inp.grid_shape.d0 : Int) +
              ((w % inp.grid_shape.NumElements / inp.grid_shape.d2 % inp.grid_shape.d1 : Nat) :
                Int) : Int) : ℚ) +
            tsdfI inp w i / (tsdfI inp w i - tsdfO inp w) * (if i = 1 then 1 else 0)),
        inp.voxel_size *
          ((((inp.tsdf.keys (w / inp.grid_shape.NumElements)).2.2 * (inp.grid_shape.d0 : Int) +
              ((w % inp.grid_shape.NumElements / (inp.grid_shape.d2 * inp.grid_shape.d1) : Nat) :
                Int) : Int) : ℚ) +
            tsdfI inp w i / (tsdfI inp w i - tsdfO inp w) * (if i = 2 then 1 else 0))) := rfl

theorem emittedPairs_card_le (inp : ExtractInput) :
    (emittedPairs inp).card ≤ extractWorkloads inp * 3 := by
  have h : (emittedPairs inp).card ≤
      (Finset.range (extractWorkloads inp) ×ˢ Finset.range 3).card :=
    Finset.card_filter_le _ _
  rw [Finset.card_product, Finset.card_range, Finset.card_range] at h
  exact h

theorem halfVolume_workloads : extractWorkloads halfVolume = 1 := by
  simp [extractWorkloads, NumWorkloads, halfVolume, SizeVector.NumElements]

theorem halfVolume_tsdfO : tsdfO halfVolume 0 = 1 / 2 := by
  simp [tsdfO, keyIdx, valueIdx, GetSparseWorkloadIdx, halfVolume, SizeVector.NumElements]

theorem halfVolume_tsdfI : tsdfI halfVolume 0 0 = -1 / 2 := by
  simp [tsdfI, nbIdx, blockOffset, steppedCoord, valueIdx, keyIdx, GetSparseWorkloadIdx,
    ConvertOffsetTo3D, halfVolume, SizeVector.NumElements]

theorem halfVolume_emitted : Emitted halfVolume 0 0 := by
  refine ⟨?_, by decide, ?_, ?_, ?_⟩
  · simp [weightO, halfVolume]
  · simp [nbValid, nbIdx, blockOffset, steppedCoord, valueIdx, keyIdx, GetSparseWorkloadIdx,
      ConvertOffsetTo3D, Convert2DToOffset, halfVolume, SizeVector.NumElements]
  · simp [weightI, halfVolume]
  · rw [halfVolume_tsdfI, halfVolume_tsdfO]
    norm_num

theorem wrap64_of_in (z : Int) (h : InInt64 z) : wrap64 z = z := by
  unfold wrap64
  unfold InInt64 at h
  rw [Int.emod_eq_of_lt (by omega) (by omega)]
  omega

theorem globalCoord64_eq (resolution : Nat) (g : Int × Int × Int) (l : Nat × Nat × Nat)
    (h : NoOverflow64 resolution g l) : globalCoord64 resolution g l = globalCoord resolution g l := by
  obtain ⟨⟨a1, a2⟩, ⟨b1, b2⟩, c1, c2⟩ := h
  unfold globalCoord64 globalCoord
  rw [wrap64_of_in _ a1, wrap64_of_in _ a2, wrap64_of_in _ b1, wrap64_of_in _ b2,
    wrap64_of_in _ c1, wrap64_of_in _ c2]

/-- C22 fails as worded: in `int64_t` the product `key * resolution` of the
key `2^62` and the resolution 4 wraps around to 0, so that the first voxels of
the blocks with keys `(2^62, 0, 0)` and `(0, 0, 0)` receive the same global
coordinate. -/
theorem globalCoord64_collision :
    ((2 ^ 62, 0, 0) : Int × Int × Int) ≠ (0, 0, 0) ∧
      InInt64 (2 ^ 62) ∧
      globalCoord64 4 (2 ^ 62, 0, 0) (0, 0, 0) = globalCoord64 4 (0, 0, 0) (0, 0, 0) := by
  refine ⟨by decide, by decide, by decide⟩

/-- C22 amended: for a resolution `>= 1` the map from (block key, local
coordinate in `[0, resolution)^3`) to the global voxel coordinate computed in
`int64_t` is injective on the voxels for which `key * resolution` and
`key * resolution + local` do not overflow, negative keys included; two
workloads of such a volume with the same global coordinate lie in blocks of
equal key at the same in-block offset, and are the same workload when the
blocks of the volume have pairwise distinct keys. -/
theorem voxel_coordinate64_injective (resolution : Nat) (hres : 1 ≤ resolution) :
    (∀ (g g' : Int × Int × Int) (l l' : Nat × Nat × Nat),
        l.1 < resolution → l.2.1 < resolution → l.2.2 < resolution →
        l'.1 < resolution → l'.2.1 < resolution → l'.2.2 < resolution →
        NoOverflow64 resolution g l → NoOverflow64 resolution g' l' →
        globalCoord64 resolution g l = globalCoord64 resolution g' l' → g = g' ∧ l = l') ∧
      (∀ (tl : SparseTensorList ℚ) (w w' : Nat), tl.shape = cubicShape resolution →
        NoOverflow64 resolution
          (tl.keys (GetSparseWorkloadIdx (cubicShape resolution).NumElements w).1)
          (ConvertOffsetTo3D (cubicShape resolution)
            (GetSparseWorkloadIdx (cubicShape resolution).NumElements w).2) →
        NoOverflow64 resolution
          (tl.keys (GetSparseWorkloadIdx (cubicShape resolution).NumElements w').1)
          (ConvertOffsetTo3D (cubicShape resolution)
            (GetSparseWorkloadIdx (cubicShape resolution).NumElements w').2) →
        voxelCoord64 tl.shape tl.keys w = voxelCoord64 tl.shape tl.keys w' →
        (tl.keys (GetSparseWorkloadIdx tl.shape.NumElements w).1 =
            tl.keys (GetSparseWorkloadIdx tl.shape.NumElements w').1 ∧
          (GetSparseWorkloadIdx tl.shape.NumElements w).2 =
            (GetSparseWorkloadIdx tl.shape.NumElements w').2) ∧
        ((∀ k k', k < tl.size → k' < tl.size → tl.keys k = tl.keys k' → k = k') →
          w < NumWorkloads tl tl.shape.NumElements →
          w' < NumWorkloads tl tl.shape.NumElements → w = w')) := by
  have hE : 0 < (cubicShape resolution).NumElements := by
    simp only [SizeVector.NumElements, cubicShape]
    exact Nat.mul_pos (Nat.mul_pos hres hres) hres
  have hloc : ∀ w : Nat,
      (ConvertOffsetTo3D (cubicShape resolution)
          (GetSparseWorkloadIdx (cubicShape resolution).NumElements w).2).1 < resolution ∧
        (ConvertOffsetTo3D (cubicShape resolution)
          (GetSparseWorkloadIdx (cubicShape resolution).NumElements w).2).2.1 < resolution ∧
        (ConvertOffsetTo3D (cubicShape resolution)
          (GetSparseWorkloadIdx (cubicShape resolution).NumElements w).2).2.2 < resolution := by
    intro w
    apply local_in_block resolution _ hres
    have := Nat.mod_lt w hE
    simpa [GetSparseWorkloadIdx, SizeVector.NumElements, cubicShape] using this
  have hpure : ∀ (g g' : Int × Int × Int) (l l' : Nat × Nat × Nat),
      l.1 < resolution → l.2.1 < resolution → l.2.2 < resolution →
      l'.1 < resolution → l'.2.1 < resolution → l'.2.2 < resolution →
      NoOverflow64 resolution g l → NoOverflow64 resolution g' l' →
      globalCoord64 resolution g l = globalCoord64 resolution g' l' → g = g' ∧ l = l' := by
    intro g g' l l' hx hy hz hx' hy' hz' hn hn' h
    rw [globalCoord64_eq resolution g l hn, globalCoord64_eq resolution g' l' hn'] at h
    exact globalCoord_inj resolution g g' l l' hx hy hz hx' hy' hz' h
  refine ⟨hpure, ?_⟩
  intro tl w w' hs hno hno' h
  have hd0 : (cubicShape resolution).d0 = resolution := rfl
  rw [hs] at h
  unfold voxelCoord64 at h
  rw [hd0] at h
  obtain ⟨a1, a2, a3⟩ := hloc w
  obtain ⟨b1, b2, b3⟩ := hloc w'
  obtain ⟨hk, hl⟩ := hpure _ _ _ _ a1 a2 a3 b1 b2 b3 hno hno' h
  have hv := ConvertOffsetTo3D_inj resolution _ _ hl
  rw [hs]
  refine ⟨⟨hk, hv⟩, ?_⟩
  intro hkeys hw hw'
  have hlt : ∀ u, u < NumWorkloads tl (cubicShape resolution).NumElements →
      (GetSparseWorkloadIdx (cubicShape resolution).NumElements u).1 < tl.size := by
    intro u hu
    unfold NumWorkloads at hu
    exact Nat.div_lt_of_lt_mul (by rw [Nat.mul_comm]; exact hu)
  have hki := hkeys _ _ (hlt w hw) (hlt w' hw') hk
  exact workloadIdx_injective _ w w' (Prod.ext hki hv)

/-- Witness of C22 amended: at resolution 2 the last voxel along `x` of the
block with key `(-1, 0, 0)` and the first voxel of the block with key
`(0, 0, 0)` have different global coordinates; so have the two voxels of the
two-block volume (resolution 1, keys `(0, 0, 0)` and `(1, 0, 0)`). -/
theorem voxel_coordinate64_injective_witness :
    globalCoord64 2 (-1, 0, 0) (1, 0, 0) ≠ globalCoord64 2 (0, 0, 0) (0, 0, 0) ∧
      voxelCoord64 (edgeVolume 1).tsdf.shape (edgeVolume 1).tsdf.keys 0 ≠
        voxelCoord64 (edgeVolume 1).tsdf.shape (edgeVolume 1).tsdf.keys 1 := by
  constructor
  · intro h
    have hg := ((voxel_coordinate64_injective 2 (by decide)).1 (-1, 0, 0) (0, 0, 0) (1, 0, 0)
      (0, 0, 0) (by decide) (by decide) (by decide) (by decide) (by decide) (by decide)
      (by decide) (by decide) h).1
    exact absurd (congrArg Prod.fst hg) (by decide)
  · intro h
    have hk := ((voxel_coordinate64_injective 1 (by decide)).2 (edgeVolume 1).tsdf 0 1 rfl
      (by decide) (by decide) h).1.1
    exact absurd (congrArg Prod.fst hk) (by decide)

/-! ## Lemmas on binary32 rounding -/

theorem roundHalfEven_intCast (z : Int) : roundHalfEven (z : ℚ) = z := by
  unfold roundHalfEven
  simp

theorem floor_le_roundHalfEven (x : ℚ) : ⌊x⌋ ≤ roundHalfEven x := by
  unfold roundHalfEven
  split_ifs <;> omega

theorem roundHalfEven_le_floor_add_one (x : ℚ) : roundHalfEven x ≤ ⌊x⌋ + 1 := by
  unfold roundHalfEven
  split_ifs <;> omega

theorem roundHalfEven_mono (x y : ℚ) (h : x ≤ y) : roundHalfEven x ≤ roundHalfEven y := by
  have hf : ⌊x⌋ ≤ ⌊y⌋ := Int.floor_le_floor h
  rcases lt_or_eq_of_le hf with hlt | heq
  · calc roundHalfEven x ≤ ⌊x⌋ + 1 := roundHalfEven_le_floor_add_one x
      _ ≤ ⌊y⌋ := hlt
      _ ≤ roundHalfEven y := floor_le_roundHalfEven y
  · unfold roundHalfEven
    rw [heq]
    have hxy : x - (⌊y⌋ : ℚ) ≤ y - (⌊y⌋ : ℚ) := by linarith
    split_ifs <;> first | omega | linarith

theorem roundHalfEven_sub_le (x : ℚ) : |(roundHalfEven x : ℚ) - x| ≤ 1 / 2 := by
  have h1 := Int.floor_le x
  have h2 := Int.lt_floor_add_one x
  unfold roundHalfEven
  rw [abs_le]
  split_ifs <;> push_cast <;> constructor <;> linarith

theorem roundHalfEven_eq_of_near (x : ℚ) (k : Int) (h1 : (k : ℚ) - 1 / 2 < x)
    (h2 : x < (k : ℚ) + 1 / 2) : roundHalfEven x = k := by
  have hf1 := Int.floor_le x
  have hf2 := Int.lt_floor_add_one x
  have hk1 : k - 1 ≤ ⌊x⌋ := by
    rw [Int.le_floor]
    push_cast
    linarith
  have hk2 : ⌊x⌋ ≤ k := by
    have : ⌊x⌋ < k + 1 := by
      rw [Int.floor_lt]
      push_cast
      linarith
    omega
  unfold roundHalfEven
  rcases (by omega : ⌊x⌋ = k - 1 ∨ ⌊x⌋ = k) with hfl | hfl
  · have hc : ((⌊x⌋ : Int) : ℚ) = (k : ℚ) - 1 := by rw [hfl]; push_cast; ring
    rw [if_neg (by rw [hc]; linarith), if_pos (by rw [hc]; linarith), hfl]
    ring
  · have hc : ((⌊x⌋ : Int) : ℚ) = (k : ℚ) := by rw [hfl]
    rw [if_pos (by rw [hc]; linarith), hfl]

theorem roundHalfEven_tie_even (x : ℚ) (k : Int) (hx : x = (k : ℚ) + 1 / 2) (hk : k % 2 = 0) :
    roundHalfEven x = k := by
  have hfl : ⌊x⌋ = k := by
    rw [Int.floor_eq_iff]
    constructor <;> rw [hx] <;> linarith
  unfold roundHalfEven
  rw [hfl, if_neg (by rw [hx]; norm_num), if_neg (by rw [hx]; norm_num), if_pos hk]

theorem roundHalfEven_tie_odd (x : ℚ) (k : Int) (hx : x = (k : ℚ) + 1 / 2) (hk : k % 2 = 1) :
    roundHalfEven x = k + 1 := by
  have hfl : ⌊x⌋ = k := by
    rw [Int.floor_eq_iff]
    constructor <;> rw [hx] <;> linarith
  unfold roundHalfEven
  rw [hfl, if_neg (by rw [hx]; norm_num), if_neg (by rw [hx]; norm_num), if_neg (by omega)]

theorem roundHalfEven_neg (x : ℚ) : roundHalfEven (-x) = -roundHalfEven x := by
  have h1 := Int.floor_le x
  have h2 := Int.lt_floor_add_one x
  by_cases hint : (⌊x⌋ : ℚ) = x
  · rw [← hint, ← Int.cast_neg, roundHalfEven_intCast, roundHalfEven_intCast]
  · have hlt : (⌊x⌋ : ℚ) < x := lt_of_le_of_ne h1 hint
    have hfl : ⌊-x⌋ = -⌊x⌋ - 1 := by
      rw [Int.floor_eq_iff]
      push_cast
      constructor <;> linarith
    have hc : ((⌊-x⌋ : Int) : ℚ) = -(⌊x⌋ : ℚ) - 1 := by rw [hfl]; push_cast; ring
    unfold roundHalfEven
    rw [hc, hfl]
    split_ifs <;> first | omega | linarith

theorem binade_ge (x : ℚ) : -126 ≤ binade x := by
  unfold binade
  split_ifs
  · exact le_refl _
  · exact le_max_right _ _

theorem binade_neg (x : ℚ) : binade (-x) = binade x := by
  simp only [binade, abs_neg, neg_eq_zero]

theorem ulp32_pos (x : ℚ) : 0 < ulp32 x := by
  unfold ulp32
  positivity

theorem ulp32_neg (x : ℚ) : ulp32 (-x) = ulp32 x := by
  unfold ulp32
  rw [binade_neg]

theorem rnd32_neg (x : ℚ) : rnd32 (-x) = -rnd32 x := by
  unfold rnd32
  rw [ulp32_neg, neg_div, roundHalfEven_neg]
  push_cast
  ring

theorem rnd32_zero : rnd32 0 = 0 := by
  unfold rnd32
  rw [zero_div]
  have : roundHalfEven 0 = 0 := by exact_mod_cast roundHalfEven_intCast 0
  rw [this]
  simp

theorem binade_le_of_lt (x : ℚ) (m : Int) (hm : -126 ≤ m) (h : |x| < 2 ^ (m + 1)) :
    binade x ≤ m := by
  unfold binade
  split_ifs with h0
  · exact hm
  · have hpos : 0 < |x| := abs_pos.mpr h0
    have hl : Int.log 2 |x| < m + 1 := by
      rw [← Int.lt_zpow_iff_log_lt (by norm_num) hpos]
      exact_mod_cast h
    exact max_le (by omega) hm

theorem le_binade_of_le (x : ℚ) (m : Int) (h : 2 ^ m ≤ |x|) : m ≤ binade x := by
  have hp : (0 : ℚ) < 2 ^ m := by positivity
  have hpos : 0 < |x| := lt_of_lt_of_le hp h
  have h0 : x ≠ 0 := abs_pos.mp hpos
  unfold binade
  rw [if_neg h0]
  have hl : m ≤ Int.log 2 |x| := by
    rw [← Int.zpow_le_iff_le_log (by norm_num) hpos]
    exact_mod_cast h
  exact le_trans hl (le_max_left _ _)

theorem pow_binade_le (x : ℚ) (h : -126 < binade x) : 2 ^ binade x ≤ |x| := by
  unfold binade at h ⊢
  split_ifs at h ⊢ with h0
  · exact absurd h (lt_irrefl _)
  · have hpos : 0 < |x| := abs_pos.mpr h0
    have hmax : max (Int.log 2 |x|) (-126) = Int.log 2 |x| := by
      rcases le_total (Int.log 2 |x|) (-126) with hc | hc
      · rw [max_eq_right hc] at h
        exact absurd h (lt_irrefl _)
      · exact max_eq_left hc
    rw [hmax]
    have := Int.zpow_log_le_self (by norm_num : 1 < 2) hpos
    exact_mod_cast this

theorem lt_pow_binade (x : ℚ) : |x| < 2 ^ (binade x + 1) := by
  by_cases h0 : x = 0
  · rw [h0, abs_zero]
    positivity
  · have h1 : |x| < 2 ^ (Int.log 2 |x| + 1) := by
      have := Int.lt_zpow_succ_log_self (by norm_num : 1 < 2) |x|
      exact_mod_cast this
    have h2 : Int.log 2 |x| + 1 ≤ binade x + 1 := by
      unfold binade
      rw [if_neg h0]
      have := le_max_left (Int.log 2 |x|) (-126)
      omega
    exact lt_of_lt_of_le h1 (zpow_le_zpow_right₀ (by norm_num) h2)

theorem binade_eq (x : ℚ) (e : Int) (he : -126 ≤ e) (h1 : 2 ^ e ≤ |x|) (h2 : |x| < 2 ^ (e + 1)) :
    binade x = e :=
  le_antisymm (binade_le_of_lt x e he h2) (le_binade_of_le x e h1)

theorem binade_mono (x y : ℚ) (h : |x| ≤ |y|) : binade x ≤ binade y := by
  rcases eq_or_lt_of_le (binade_ge x) with he | hlt
  · rw [← he]
    exact binade_ge y
  · exact le_binade_of_le y _ (le_trans (pow_binade_le x hlt) h)

theorem rnd32_of_dyadic (x : ℚ) (k j : Int) (hx : x = (k : ℚ) * 2 ^ j) (hj : binade x - 23 ≤ j) :
    rnd32 x = x := by
  obtain ⟨n, hn⟩ := Int.eq_ofNat_of_zero_le (by omega : 0 ≤ j - (binade x - 23))
  have hq : x / ulp32 x = ((k * 2 ^ n : Int) : ℚ) := by
    unfold ulp32
    rw [div_eq_iff (by positivity)]
    push_cast
    rw [mul_assoc, ← zpow_natCast, ← zpow_add₀ (by norm_num : (2 : ℚ) ≠ 0), ← hn]
    rw [show j - (binade x - 23) + (binade x - 23) = j by ring]
    exact hx
  unfold rnd32
  rw [hq, roundHalfEven_intCast, ← hq]
  exact div_mul_cancel₀ _ (ulp32_pos x).ne.symm

theorem rnd32_grid_le (x c : ℚ) (k : Int) (hc : c = (k : ℚ) * ulp32 x) (h : x ≤ c) :
    rnd32 x ≤ c := by
  have hq : x / ulp32 x ≤ (k : ℚ) := by
    rw [div_le_iff₀ (ulp32_pos x), ← hc]
    exact h
  have := roundHalfEven_mono _ _ hq
  rw [roundHalfEven_intCast] at this
  unfold rnd32
  rw [hc]
  exact mul_le_mul_of_nonneg_right (by exact_mod_cast this) (ulp32_pos x).le

theorem rnd32_grid_ge (x c : ℚ) (k : Int) (hc : c = (k : ℚ) * ulp32 x) (h : c ≤ x) :
    c ≤ rnd32 x := by
  have hq : (k : ℚ) ≤ x / ulp32 x := by
    rw [le_div_iff₀ (ulp32_pos x), ← hc]
    exact h
  have := roundHalfEven_mono _ _ hq
  rw [roundHalfEven_intCast] at this
  unfold rnd32
  rw [hc]
  exact mul_le_mul_of_nonneg_right (by exact_mod_cast this) (ulp32_pos x).le

theorem pow_on_grid (x : ℚ) (m : Int) (h : binade x - 23 ≤ m) :
    ∃ k : Int, (2 : ℚ) ^ m = (k : ℚ) * ulp32 x := by
  obtain ⟨n, hn⟩ := Int.eq_ofNat_of_zero_le (by omega : 0 ≤ m - (binade x - 23))
  refine ⟨2 ^ n, ?_⟩
  unfold ulp32
  push_cast
  rw [← zpow_natCast, ← zpow_add₀ (by norm_num : (2 : ℚ) ≠ 0), ← hn]
  congr 1
  ring

theorem rnd32_nonneg (x : ℚ) (h : 0 ≤ x) : 0 ≤ rnd32 x :=
  rnd32_grid_ge x 0 0 (by simp) h

theorem rnd32_nonpos (x : ℚ) (h : x ≤ 0) : rnd32 x ≤ 0 :=
  rnd32_grid_le x 0 0 (by simp) h

theorem rnd32_le_pow (x : ℚ) (m : Int) (hm : -149 ≤ m) (h : x ≤ 2 ^ m) : rnd32 x ≤ 2 ^ m := by
  rcases le_or_lt x 0 with hx | hx
  · exact le_trans (rnd32_nonpos x hx) (by positivity)
  · have habs : |x| = x := abs_of_pos hx
    have hb : binade x - 23 ≤ m := by
      rcases le_or_lt (-126) m with hc | hc
      · have : binade x ≤ m := binade_le_of_lt x m hc (by
          rw [habs]
          exact lt_of_le_of_lt h (zpow_lt_zpow_right₀ (by norm_num) (by omega)))
        omega
      · have : binade x ≤ -126 := binade_le_of_lt x (-126) (le_refl _) (by
          rw [habs]
          exact lt_of_le_of_lt h (zpow_lt_zpow_right₀ (by norm_num) (by omega)))
        omega
    obtain ⟨k, hk⟩ := pow_on_grid x m hb
    exact rnd32_grid_le x _ k hk h

theorem pow_le_rnd32 (x : ℚ) (m : Int) (hm : -149 ≤ m) (h : 2 ^ m ≤ x) : 2 ^ m ≤ rnd32 x := by
  have hx : 0 < x := lt_of_lt_of_le (by positivity) h
  have habs : |x| = x := abs_of_pos hx
  rcases le_or_lt (binade x - 23) m with hb | hb
  · obtain ⟨k, hk⟩ := pow_on_grid x m hb
    exact rnd32_grid_ge x _ k hk h
  · have h1 : (2 : ℚ) ^ binade x ≤ x := by
      have := pow_binade_le x (by omega)
      rwa [habs] at this
    obtain ⟨k, hk⟩ := pow_on_grid x (binade x) (by omega)
    have h2 := rnd32_grid_ge x _ k hk h1
    exact le_trans (zpow_le_zpow_right₀ (by norm_num) (by omega)) h2

theorem rnd32_mono_nonneg (x y : ℚ) (hx : 0 ≤ x) (h : x ≤ y) : rnd32 x ≤ rnd32 y := by
  have hy : 0 ≤ y := le_trans hx h
  have hb : binade x ≤ binade y := binade_mono x y (by
    rw [abs_of_nonneg hx, abs_of_nonneg hy]
    exact h)
  rcases eq_or_lt_of_le hb with he | hlt
  · have hu : ulp32 x = ulp32 y := by unfold ulp32; rw [he]
    unfold rnd32
    rw [hu]
    have hq : x / ulp32 y ≤ y / ulp32 y := div_le_div_of_nonneg_right h (ulp32_pos y).le
    exact mul_le_mul_of_nonneg_right (by exact_mod_cast roundHalfEven_mono _ _ hq) (ulp32_pos y).le
  · have hge := binade_ge x
    have h1 : (2 : ℚ) ^ binade y ≤ y := by
      have := pow_binade_le y (by omega)
      rwa [abs_of_nonneg hy] at this
    have h2 : x ≤ 2 ^ binade y := by
      have := lt_pow_binade x
      rw [abs_of_nonneg hx] at this
      exact le_trans this.le (zpow_le_zpow_right₀ (by norm_num) (by omega))
    exact le_trans (rnd32_le_pow x _ (by omega) h2) (pow_le_rnd32 y _ (by omega) h1)

theorem rnd32_mono (x y : ℚ) (h : x ≤ y) : rnd32 x ≤ rnd32 y := by
  rcases le_total 0 x with hx | hx
  · exact rnd32_mono_nonneg x y hx h
  · rcases le_total 0 y with hy | hy
    · exact le_trans (rnd32_nonpos x hx) (rnd32_nonneg y hy)
    · have := rnd32_mono_nonneg (-y) (-x) (by linarith) (by linarith)
      rw [rnd32_neg, rnd32_neg] at this
      linarith

theorem rnd32_idem_nonneg (x : ℚ) (hx : 0 ≤ x) : rnd32 (rnd32 x) = rnd32 x := by
  have hge := binade_ge x
  have hy0 : 0 ≤ rnd32 x := rnd32_nonneg x hx
  have hle : rnd32 x ≤ 2 ^ (binade x + 1) := by
    have := lt_pow_binade x
    rw [abs_of_nonneg hx] at this
    exact rnd32_le_pow x _ (by omega) this.le
  rcases eq_or_lt_of_le hle with he | hlt
  · refine rnd32_of_dyadic _ 1 (binade x + 1) (by rw [he]; simp) ?_
    have : binade (rnd32 x) ≤ binade x + 1 := binade_le_of_lt _ _ (by omega) (by
      rw [abs_of_nonneg hy0, he]
      exact zpow_lt_zpow_right₀ (by norm_num) (by omega))
    omega
  · refine rnd32_of_dyadic _ (roundHalfEven (x / ulp32 x)) (binade x - 23) rfl ?_
    have : binade (rnd32 x) ≤ binade x := binade_le_of_lt _ _ hge (by
      rw [abs_of_nonneg hy0]
      exact hlt)
    omega

theorem rnd32_idem (x : ℚ) : rnd32 (rnd32 x) = rnd32 x := by
  rcases le_total 0 x with hx | hx
  · exact rnd32_idem_nonneg x hx
  · have := rnd32_idem_nonneg (-x) (by linarith)
    rw [rnd32_neg, rnd32_neg] at this
    linarith

theorem rnd32_two_mul (y : ℚ) (hy : rnd32 y = y) : rnd32 (2 * y) = 2 * y := by
  refine rnd32_of_dyadic _ (roundHalfEven (y / ulp32 y)) (binade y - 23 + 1) ?_ ?_
  · rw [zpow_add_one₀ (by norm_num : (2 : ℚ) ≠ 0)]
    have : y = (roundHalfEven (y / ulp32 y) : ℚ) * 2 ^ (binade y - 23) := hy.symm
    linarith
  · have : binade (2 * y) ≤ binade y + 1 := binade_le_of_lt _ _ (by have := binade_ge y; omega) (by
      rw [abs_mul, abs_two, zpow_add_one₀ (by norm_num : (2 : ℚ) ≠ 0)]
      have := lt_pow_binade y
      linarith)
    omega

theorem rnd32_intCast (z : Int) (h : |z| ≤ 2 ^ 24) : rnd32 (z : ℚ) = z := by
  rcases eq_or_lt_of_le h with he | hlt
  · have hz : (z : ℚ) = 2 ^ (24 : Int) ∨ (z : ℚ) = -2 ^ (24 : Int) := by
      rcases abs_cases z with ⟨h1, _⟩ | ⟨h1, _⟩
      · left
        rw [h1] at he
        rw [he]
        norm_num
      · right
        have : z = -2 ^ 24 := by omega
        rw [this]
        norm_num
    rcases hz with hz | hz
    · refine rnd32_of_dyadic _ 1 24 (by rw [hz]; simp) ?_
      have : binade (z : ℚ) ≤ 24 := binade_le_of_lt _ _ (by norm_num) (by
        rw [hz]
        norm_num)
      omega
    · refine rnd32_of_dyadic _ (-1) 24 (by rw [hz]; simp) ?_
      have : binade (z : ℚ) ≤ 24 := binade_le_of_lt _ _ (by norm_num) (by
        rw [hz]
        norm_num)
      omega
  · refine rnd32_of_dyadic _ z 0 (by simp) ?_
    have : binade (z : ℚ) ≤ 23 := binade_le_of_lt _ _ (by norm_num) (by
      have : ((|z| : Int) : ℚ) < ((2 ^ 24 : Int) : ℚ) := by exact_mod_cast hlt
      rw [Int.cast_abs] at this
      refine lt_of_lt_of_le this ?_
      norm_num)
    omega

theorem rnd32_natCast (n : Nat) (h : n ≤ 2 ^ 24) : rnd32 (n : ℚ) = n := by
  have := rnd32_intCast (n : Int) (by
    rw [abs_of_nonneg (Int.natCast_nonneg n)]
    exact_mod_cast h)
  exact_mod_cast this

theorem rnd32_err (x : ℚ) : |rnd32 x - x| ≤ ulp32 x / 2 := by
  have h := roundHalfEven_sub_le (x / ulp32 x)
  have hu := ulp32_pos x
  have : rnd32 x - x = ((roundHalfEven (x / ulp32 x) : ℚ) - x / ulp32 x) * ulp32 x := by
    unfold rnd32
    field_simp
  rw [this, abs_mul, abs_of_pos hu]
  calc |(roundHalfEven (x / ulp32 x) : ℚ) - x / ulp32 x| * ulp32 x ≤ 1 / 2 * ulp32 x :=
        mul_le_mul_of_nonneg_right h hu.le
    _ = ulp32 x / 2 := by ring

theorem rnd32_err_rel (x : ℚ) : |rnd32 x - x| ≤ |x| / 2 ^ 24 + 1 / 2 ^ 150 := by
  have h := rnd32_err x
  have hu : ulp32 x / 2 ≤ |x| / 2 ^ 24 + 1 / 2 ^ 150 := by
    rcases eq_or_lt_of_le (binade_ge x) with he | hlt
    · have : ulp32 x = 1 / 2 ^ 149 := by
        unfold ulp32
        rw [← he]
        norm_num
      rw [this]
      have := abs_nonneg x
      have h2 : (0 : ℚ) ≤ |x| / 2 ^ 24 := by positivity
      have h3 : (1 : ℚ) / 2 ^ 149 / 2 = 1 / 2 ^ 150 := by norm_num
      linarith
    · have hp := pow_binade_le x hlt
      have : ulp32 x = 2 ^ binade x / 2 ^ 23 := by
        unfold ulp32
        rw [zpow_sub₀ (by norm_num : (2 : ℚ) ≠ 0)]
        norm_num
      rw [this]
      have h2 : (2 : ℚ) ^ binade x / 2 ^ 23 / 2 = 2 ^ binade x / 2 ^ 24 := by
        rw [div_div]
        norm_num
      rw [h2]
      have h3 : (2 : ℚ) ^ binade x / 2 ^ 24 ≤ |x| / 2 ^ 24 :=
        div_le_div_of_nonneg_right hp (by positivity)
      have h4 : (0 : ℚ) ≤ 1 / 2 ^ 150 := by positivity
      linarith
  exact le_trans h hu

theorem rnd32_eval_pos (x : ℚ) (e k : Int) (he : -126 ≤ e) (h1 : 2 ^ e ≤ x) (h2 : x < 2 ^ (e + 1))
    (hr : roundHalfEven (x / 2 ^ (e - 23)) = k) : rnd32 x = (k : ℚ) * 2 ^ (e - 23) := by
  have hx : 0 < x := lt_of_lt_of_le (by positivity) h1
  have hb : binade x = e := binade_eq x e he (by rwa [abs_of_pos hx]) (by rwa [abs_of_pos hx])
  unfold rnd32 ulp32
  rw [hb, hr]

theorem rnd32_exact_pos (x : ℚ) (e k : Int) (he : -126 ≤ e) (h2 : x < 2 ^ (e + 1)) (hx : 0 < x)
    (hk : x = (k : ℚ) * 2 ^ (e - 23)) : rnd32 x = x := by
  refine rnd32_of_dyadic x k (e - 23) hk ?_
  have := binade_le_of_lt x e he (by rwa [abs_of_pos hx])
  omega

/-! ## Lemmas on the Integrate kernel in binary32 -/

theorem IntegrateKernel32_skip (fused : Bool) (inp : IntegrateInput) (tl : SparseTensorList ℚ)
    (w : Nat) (h : ¬ Observed32 inp tl w) : IntegrateKernel32 fused inp tl w = tl := by
  unfold IntegrateKernel32
  by_cases hb : InBoundary2D inp.depth.rows inp.depth.cols (pixel inp tl w).1
      (pixel inp tl w).2 = true
  · have hs : sampledDepth inp tl w ≤ 0 ∨ (cameraPoint inp tl w).2.2 ≤ 0 ∨
        rnd32 (sampledDepth inp tl w - (cameraPoint inp tl w).2.2) < -inp.sdf_trunc := by
      by_contra hc
      push_neg at hc
      exact h ⟨hb, hc.1, hc.2.1, hc.2.2⟩
    simp [hb, hs]
  · simp [hb]

theorem IntegrateKernel32_observed (fused : Bool) (inp : IntegrateInput)
    (tl : SparseTensorList ℚ) (w : Nat) (h : Observed32 inp tl w) :
    IntegrateKernel32 fused inp tl w =
      (tl.store (GetSparseWorkloadIdx tl.shape.NumElements w).1 0
          (GetSparseWorkloadIdx tl.shape.NumElements w).2
          (stepPair32 fused (tsdfOf tl w, weightOf tl w) (normalisedSdf32 inp tl w)).1).store
        (GetSparseWorkloadIdx tl.shape.NumElements w).1 1
        (GetSparseWorkloadIdx tl.shape.NumElements w).2
        (stepPair32 fused (tsdfOf tl w, weightOf tl w) (normalisedSdf32 inp tl w)).2 := by
  obtain ⟨hb, hd, hz, hs⟩ := h
  have hn : ¬ (sampledDepth inp tl w ≤ 0 ∨ (cameraPoint inp tl w).2.2 ≤ 0 ∨
      rnd32 (sampledDepth inp tl w - (cameraPoint inp tl w).2.2) < -inp.sdf_trunc) := by
    push_neg
    exact ⟨hd, hz, hs⟩
  have hmin : (if rnd32 (sampledDepth inp tl w - (cameraPoint inp tl w).2.2) < inp.sdf_trunc then
      rnd32 (sampledDepth inp tl w - (cameraPoint inp tl w).2.2) else inp.sdf_trunc) =
      min (rnd32 (sampledDepth inp tl w - (cameraPoint inp tl w).2.2)) inp.sdf_trunc := by
    split_ifs with hlt
    · exact (min_eq_left hlt.le).symm
    · exact (min_eq_right (not_lt.mp hlt)).symm
  unfold IntegrateKernel32
  simp only [hb, Bool.not_true, Bool.false_eq_true, if_false, hn, hmin]
  rfl

theorem IntegrateKernel32_frame (fused : Bool) (inp : IntegrateInput) (tl : SparseTensorList ℚ)
    (a : Nat) :
    (IntegrateKernel32 fused inp tl a).shape = tl.shape ∧
      (IntegrateKernel32 fused inp tl a).keys = tl.keys ∧
      (IntegrateKernel32 fused inp tl a).size = tl.size := by
  by_cases h : Observed32 inp tl a
  · rw [IntegrateKernel32_observed fused inp tl a h]
    exact ⟨rfl, rfl, rfl⟩
  · rw [IntegrateKernel32_skip fused inp tl a h]
    exact ⟨rfl, rfl, rfl⟩

theorem Observed32_congr (inp : IntegrateInput) (tl tl' : SparseTensorList ℚ) (w : Nat)
    (hs : tl'.shape = tl.shape) (hk : tl'.keys = tl.keys) :
    Observed32 inp tl' w ↔ Observed32 inp tl w := by
  unfold Observed32
  rw [pixel_congr inp tl tl' w hs hk, sampledDepth_congr inp tl tl' w hs hk,
    cameraPoint_congr inp tl tl' w hs hk]

theorem normalisedSdf32_congr (inp : IntegrateInput) (tl tl' : SparseTensorList ℚ) (w : Nat)
    (hs : tl'.shape = tl.shape) (hk : tl'.keys = tl.keys) :
    normalisedSdf32 inp tl' w = normalisedSdf32 inp tl w := by
  unfold normalisedSdf32
  rw [sampledDepth_congr inp tl tl' w hs hk, cameraPoint_congr inp tl tl' w hs hk]

theorem voxelStep32_congr (fused : Bool) (inp : IntegrateInput) (tl tl' : SparseTensorList ℚ)
    (w : Nat) (hs : tl'.shape = tl.shape) (hk : tl'.keys = tl.keys) (tw : ℚ × ℚ) :
    voxelStep32 fused inp tl' w tw = voxelStep32 fused inp tl w tw := by
  unfold voxelStep32
  rw [normalisedSdf32_congr inp tl tl' w hs hk]
  simp only [Observed32_congr inp tl tl' w hs hk]

theorem IntegrateKernel32_self (fused : Bool) (inp : IntegrateInput) (tl : SparseTensorList ℚ)
    (w : Nat) :
    (tsdfOf (IntegrateKernel32 fused inp tl w) w, weightOf (IntegrateKernel32 fused inp tl w) w) =
      voxelStep32 fused inp tl w (tsdfOf tl w, weightOf tl w) := by
  by_cases h : Observed32 inp tl w
  · rw [IntegrateKernel32_observed fused inp tl w h]
    simp [voxelStep32, h, tsdfOf, weightOf, SparseTensorList.store]
  · rw [IntegrateKernel32_skip fused inp tl w h]
    simp [voxelStep32, h]

theorem IntegrateKernel32_other (fused : Bool) (inp : IntegrateInput) (tl : SparseTensorList ℚ)
    (a w : Nat) (haw : a ≠ w) :
    tsdfOf (IntegrateKernel32 fused inp tl a) w = tsdfOf tl w ∧
      weightOf (IntegrateKernel32 fused inp tl a) w = weightOf tl w := by
  by_cases h : Observed32 inp tl a
  · rw [IntegrateKernel32_observed fused inp tl a h]
    have hne : ¬ ((GetSparseWorkloadIdx tl.shape.NumElements w).1 =
          (GetSparseWorkloadIdx tl.shape.NumElements a).1 ∧
        (GetSparseWorkloadIdx tl.shape.NumElements w).2 =
          (GetSparseWorkloadIdx tl.shape.NumElements a).2) := by
      rintro ⟨h1, h2⟩
      exact haw (workloadIdx_injective _ a w (Prod.ext h1.symm h2.symm))
    constructor
    · simp only [tsdfOf, store_shape]
      rw [store_values_of_ne _ _ _ _ _ _ _ _ hne, store_values_of_ne _ _ _ _ _ _ _ _ hne]
    · simp only [weightOf, store_shape]
      rw [store_values_of_ne _ _ _ _ _ _ _ _ hne, store_values_of_ne _ _ _ _ _ _ _ _ hne]
  · rw [IntegrateKernel32_skip fused inp tl a h]
    exact ⟨rfl, rfl⟩

/-- Running the binary32 kernel over duplicate-free workloads touches the voxel
of `w` exactly when `w` is among them, and then applies `voxelStep32` once. -/
theorem foldl_IntegrateKernel32 (fused : Bool) (inp : IntegrateInput) (l : List Nat) :
    ∀ tl : SparseTensorList ℚ, l.Nodup →
      (l.foldl (IntegrateKernel32 fused inp) tl).shape = tl.shape ∧
      (l.foldl (IntegrateKernel32 fused inp) tl).keys = tl.keys ∧
      (l.foldl (IntegrateKernel32 fused inp) tl).size = tl.size ∧
      ∀ w, (tsdfOf (l.foldl (IntegrateKernel32 fused inp) tl) w,
            weightOf (l.foldl (IntegrateKernel32 fused inp) tl) w) =
          if w ∈ l then voxelStep32 fused inp tl w (tsdfOf tl w, weightOf tl w)
          else (tsdfOf tl w, weightOf tl w) := by
  induction l with
  | nil => intro tl _; simp
  | cons a l ih =>
    intro tl hnd
    rw [List.nodup_cons] at hnd
    obtain ⟨hs, hk, hz, hv⟩ := ih (IntegrateKernel32 fused inp tl a) hnd.2
    obtain ⟨fs, fk, fz⟩ := IntegrateKernel32_frame fused inp tl a
    simp only [List.foldl_cons]
    refine ⟨hs.trans fs, hk.trans fk, hz.trans fz, fun w => ?_⟩
    rw [hv w]
    by_cases hwa : w = a
    · subst hwa
      simp only [hnd.1, if_false, List.mem_cons, true_or, if_true]
      exact IntegrateKernel32_self fused inp tl w
    · have hne : a ≠ w := fun h => hwa h.symm
      obtain ⟨o1, o2⟩ := IntegrateKernel32_other fused inp tl a w hne
      simp only [List.mem_cons, hwa, false_or]
      rw [o1, o2, voxelStep32_congr fused inp tl _ w fs fk]

theorem Integrate32_frame (fused : Bool) (inp : IntegrateInput) (tl : SparseTensorList ℚ) :
    (Integrate32 fused inp tl).shape = tl.shape ∧ (Integrate32 fused inp tl).keys = tl.keys ∧
      (Integrate32 fused inp tl).size = tl.size := by
  obtain ⟨h1, h2, h3, _⟩ := foldl_IntegrateKernel32 fused inp
    (List.range (NumWorkloads tl tl.shape.NumElements)) tl (List.nodup_range _)
  exact ⟨h1, h2, h3⟩

theorem Integrate32_voxel (fused : Bool) (inp : IntegrateInput) (tl : SparseTensorList ℚ)
    (w : Nat) (hw : w < NumWorkloads tl tl.shape.NumElements) :
    (tsdfOf (Integrate32 fused inp tl) w, weightOf (Integrate32 fused inp tl) w) =
      voxelStep32 fused inp tl w (tsdfOf tl w, weightOf tl w) := by
  obtain ⟨_, _, _, h⟩ := foldl_IntegrateKernel32 fused inp
    (List.range (NumWorkloads tl tl.shape.NumElements)) tl (List.nodup_range _)
  have := h w
  rw [if_pos (List.mem_range.mpr hw)] at this
  exact this

theorem iterate_eq_IntegrateAll32 (fused : Bool) (inp : IntegrateInput) (k : Nat) :
    ∀ tl : SparseTensorList ℚ,
      (Integrate32 fused inp)^[k] tl = IntegrateAll32 fused (List.replicate k inp) tl := by
  induction k with
  | zero => intro tl; rfl
  | succ k ih =>
    intro tl
    rw [Function.iterate_succ_apply, ih]
    rfl

/-- A sequence of non-skipped binary32 integrations acts on the pair
`(tsdf, weight)` of a voxel as the fold of `stepPair32` over the normalised
observations. -/
theorem IntegrateAll32_voxel (fused : Bool) (w : Nat) (frames : List IntegrateInput) :
    ∀ tl : SparseTensorList ℚ, w < NumWorkloads tl tl.shape.NumElements →
      (∀ inp ∈ frames, Observed32 inp tl w) →
      (tsdfOf (IntegrateAll32 fused frames tl) w, weightOf (IntegrateAll32 fused frames tl) w) =
        (frames.map (fun inp => normalisedSdf32 inp tl w)).foldl (stepPair32 fused)
          (tsdfOf tl w, weightOf tl w) := by
  induction frames with
  | nil => intro tl _ _; rfl
  | cons inp frames ih =>
    intro tl hw hobs
    obtain ⟨fs, fk, fz⟩ := Integrate32_frame fused inp tl
    have hv := Integrate32_voxel fused inp tl w hw
    have ho : Observed32 inp tl w := hobs inp (List.mem_cons_self _ _)
    simp only [voxelStep32, ho, if_true] at hv
    have hw' : w < NumWorkloads (Integrate32 fused inp tl)
        (Integrate32 fused inp tl).shape.NumElements := by
      unfold NumWorkloads at *
      rw [fs, fz]
      exact hw
    have hobs' : ∀ f ∈ frames, Observed32 f (Integrate32 fused inp tl) w := fun f hf =>
      (Observed32_congr f tl _ w fs fk).mpr (hobs f (List.mem_cons_of_mem _ hf))
    have hmap : frames.map (fun f => normalisedSdf32 f (Integrate32 fused inp tl) w) =
        frames.map (fun f => normalisedSdf32 f tl w) :=
      List.map_congr_left (fun f _ => normalisedSdf32_congr f tl _ w fs fk)
    have hfold : IntegrateAll32 fused (inp :: frames) tl =
        IntegrateAll32 fused frames (Integrate32 fused inp tl) := rfl
    rw [hfold, ih (Integrate32 fused inp tl) hw' hobs', hmap, hv]
    rfl

/-! ## Lemmas on the binary32 update of one voxel -/

theorem rnd32_abs_le_nat (x : ℚ) (n : Nat) (hn : n ≤ 2 ^ 24) (h : |x| ≤ n) : |rnd32 x| ≤ n := by
  rw [abs_le] at h ⊢
  have h1 := rnd32_mono _ _ h.1
  have h2 := rnd32_mono _ _ h.2
  rw [rnd32_neg, rnd32_natCast n hn] at h1
  rw [rnd32_natCast n hn] at h2
  exact ⟨h1, h2⟩

theorem rnd32_err_le (x B : ℚ) (h : |x| ≤ B) : |rnd32 x - x| ≤ B / 2 ^ 24 + 1 / 2 ^ 150 := by
  have h1 := rnd32_err_rel x
  have h2 : |x| / 2 ^ 24 ≤ B / 2 ^ 24 := div_le_div_of_nonneg_right h (by positivity)
  linarith

theorem rnd32_one : rnd32 1 = 1 := by
  have := rnd32_natCast 1 (by norm_num)
  simpa using this

theorem rnd32_weight_stall : rnd32 (2 ^ 24 + 1) = 2 ^ 24 := by
  rw [rnd32_eval_pos (2 ^ 24 + 1) 24 8388608 (by norm_num) (by norm_num) (by norm_num)
    (roundHalfEven_tie_even _ 8388608 (by norm_num) (by decide))]
  norm_num

theorem mulAdd32_bound (fused : Bool) (a b c : ℚ) (n : Nat) (hn : n + 1 ≤ 2 ^ 24)
    (hab : |a * b| ≤ n) (hc : |c| ≤ 1) :
    |mulAdd32 fused a b c| ≤ (n : ℚ) + 1 ∧
      |mulAdd32 fused a b c - (a * b + c)| ≤ (2 * (n : ℚ) + 1) / 2 ^ 24 + 2 / 2 ^ 150 := by
  have hn0 : (0 : ℚ) ≤ n := Nat.cast_nonneg n
  unfold mulAdd32
  cases fused
  · simp only [Bool.false_eq_true, if_false]
    have ha1 : |rnd32 (a * b)| ≤ n := rnd32_abs_le_nat _ n (by omega) hab
    have he1 := rnd32_err_le (a * b) n hab
    have hsum : |rnd32 (a * b) + c| ≤ ((n + 1 : Nat) : ℚ) := by
      push_cast
      exact le_trans (abs_add _ _) (by linarith)
    have hb1 := rnd32_abs_le_nat _ (n + 1) hn hsum
    have he2 := rnd32_err_le _ _ hsum
    push_cast at hb1 he2
    refine ⟨hb1, ?_⟩
    have : rnd32 (rnd32 (a * b) + c) - (a * b + c) =
        (rnd32 (rnd32 (a * b) + c) - (rnd32 (a * b) + c)) + (rnd32 (a * b) - a * b) := by ring
    rw [this]
    refine le_trans (abs_add _ _) ?_
    have e : (2 * (n : ℚ) + 1) / 2 ^ 24 + 2 / 2 ^ 150 =
        (((n : ℚ) + 1) / 2 ^ 24 + 1 / 2 ^ 150) + ((n : ℚ) / 2 ^ 24 + 1 / 2 ^ 150) := by ring
    rw [e]
    exact add_le_add he2 he1
  · simp only [if_true]
    have hsum : |a * b + c| ≤ ((n + 1 : Nat) : ℚ) := by
      push_cast
      exact le_trans (abs_add _ _) (by linarith)
    have hb1 := rnd32_abs_le_nat _ (n + 1) hn hsum
    have he2 := rnd32_err_le _ _ hsum
    push_cast at hb1 he2
    refine ⟨hb1, le_trans he2 ?_⟩
    have e : (2 * (n : ℚ) + 1) / 2 ^ 24 + 2 / 2 ^ 150 =
        (((n : ℚ) + 1) / 2 ^ 24 + 1 / 2 ^ 150) + ((n : ℚ) / 2 ^ 24 + 1 / 2 ^ 150) := by ring
    rw [e]
    have : (0 : ℚ) ≤ (n : ℚ) / 2 ^ 24 + 1 / 2 ^ 150 := by positivity
    linarith

theorem stepPair32_weight (fused : Bool) (t s : ℚ) (n : Nat) (hn : n + 1 ≤ 2 ^ 24) :
    (stepPair32 fused (t, (n : ℚ)) s).2 = ((n + 1 : Nat) : ℚ) := by
  have := rnd32_natCast (n + 1) hn
  simp only [stepPair32]
  push_cast at this ⊢
  exact this

/-- One binary32 update keeps the stored value in `[-1, 1]` and adds at most
`(3 n + 2) / 2^24 + (n + 3) / 2^150` to the distance between `weight * tsdf` and
the sum of the observations. -/
theorem stepPair32_invariant (fused : Bool) (t s S E : ℚ) (n : Nat) (hn : n + 1 ≤ 2 ^ 24)
    (ht : |(n : ℚ) * t| ≤ n) (hs : |s| ≤ 1) (hE : |(n : ℚ) * t - S| ≤ E) :
    |(stepPair32 fused (t, (n : ℚ)) s).1| ≤ 1 ∧
      |((n : ℚ) + 1) * (stepPair32 fused (t, (n : ℚ)) s).1 - (S + s)| ≤
        E + (3 * (n : ℚ) + 2) / 2 ^ 24 + ((n : ℚ) + 3) / 2 ^ 150 := by
  have hn0 : (0 : ℚ) ≤ n := Nat.cast_nonneg n
  have hpos : (0 : ℚ) < (n : ℚ) + 1 := by linarith
  obtain ⟨hb, he⟩ := mulAdd32_bound fused (n : ℚ) t s n hn ht hs
  have hw : rnd32 ((n : ℚ) + 1) = (n : ℚ) + 1 := by
    have := rnd32_natCast (n + 1) hn
    push_cast at this
    exact this
  have hq : |mulAdd32 fused (n : ℚ) t s / ((n : ℚ) + 1)| ≤ 1 := by
    rw [abs_div, abs_of_pos hpos, div_le_one hpos]
    exact hb
  have hq1 : |mulAdd32 fused (n : ℚ) t s / ((n : ℚ) + 1)| ≤ ((1 : Nat) : ℚ) := by
    simpa using hq
  have hr := rnd32_abs_le_nat _ 1 (by norm_num) hq1
  have her := rnd32_err_le _ 1 hq
  simp only [stepPair32]
  rw [hw]
  refine ⟨by simpa using hr, ?_⟩
  have hsplit : ((n : ℚ) + 1) * rnd32 (mulAdd32 fused (n : ℚ) t s / ((n : ℚ) + 1)) - (S + s) =
      ((n : ℚ) + 1) * (rnd32 (mulAdd32 fused (n : ℚ) t s / ((n : ℚ) + 1)) -
          mulAdd32 fused (n : ℚ) t s / ((n : ℚ) + 1)) +
        (mulAdd32 fused (n : ℚ) t s - ((n : ℚ) * t + s)) + ((n : ℚ) * t - S) := by
    field_simp
    ring
  rw [hsplit]
  have h1 : |((n : ℚ) + 1) * (rnd32 (mulAdd32 fused (n : ℚ) t s / ((n : ℚ) + 1)) -
      mulAdd32 fused (n : ℚ) t s / ((n : ℚ) + 1))| ≤ ((n : ℚ) + 1) * (1 / 2 ^ 24 + 1 / 2 ^ 150) := by
    rw [abs_mul, abs_of_pos hpos]
    exact mul_le_mul_of_nonneg_left her hpos.le
  have h3 := abs_add (((n : ℚ) + 1) * (rnd32 (mulAdd32 fused (n : ℚ) t s / ((n : ℚ) + 1)) -
          mulAdd32 fused (n : ℚ) t s / ((n : ℚ) + 1)) +
        (mulAdd32 fused (n : ℚ) t s - ((n : ℚ) * t + s))) ((n : ℚ) * t - S)
  have h4 := abs_add (((n : ℚ) + 1) * (rnd32 (mulAdd32 fused (n : ℚ) t s / ((n : ℚ) + 1)) -
          mulAdd32 fused (n : ℚ) t s / ((n : ℚ) + 1)))
        (mulAdd32 fused (n : ℚ) t s - ((n : ℚ) * t + s))
  have e : E + (3 * (n : ℚ) + 2) / 2 ^ 24 + ((n : ℚ) + 3) / 2 ^ 150 =
      ((n : ℚ) + 1) * (1 / 2 ^ 24 + 1 / 2 ^ 150) + ((2 * (n : ℚ) + 1) / 2 ^ 24 + 2 / 2 ^ 150) + E := by
    ring
  rw [e]
  linarith

/-- A binary32 update by `s` from a pair that already holds `s` (or has weight
0) stores `s` again when `n * s` and `(n + 1) * s` are binary32 numbers. -/
theorem stepPair32_exact (fused : Bool) (t s : ℚ) (n : Nat) (hn : n + 1 ≤ 2 ^ 24)
    (ht : (n : ℚ) * t = n * s) (h1 : rnd32 s = s) (hn1 : rnd32 ((n : ℚ) * s) = n * s)
    (hn2 : rnd32 (((n : ℚ) + 1) * s) = ((n : ℚ) + 1) * s) :
    stepPair32 fused (t, (n : ℚ)) s = (s, ((n + 1 : Nat) : ℚ)) := by
  have hn0 : (0 : ℚ) ≤ n := Nat.cast_nonneg n
  have hpos : (n : ℚ) + 1 ≠ 0 := by linarith
  have hw : rnd32 ((n : ℚ) + 1) = (n : ℚ) + 1 := by
    have := rnd32_natCast (n + 1) hn
    push_cast at this
    exact this
  have hm : mulAdd32 fused (n : ℚ) t s = ((n : ℚ) + 1) * s := by
    unfold mulAdd32
    cases fused
    · simp only [Bool.false_eq_true, if_false]
      rw [ht, hn1, show (n : ℚ) * s + s = ((n : ℚ) + 1) * s by ring, hn2]
    · simp only [if_true]
      rw [ht, show (n : ℚ) * s + s = ((n : ℚ) + 1) * s by ring, hn2]
  simp only [stepPair32]
  rw [hm, hw, mul_div_cancel_left₀ _ hpos, h1]
  push_cast
  rfl

theorem foldl_stepPair32_weight (fused : Bool) (ss : List ℚ) :
    ∀ (t : ℚ) (m : Nat), m ≤ 2 ^ 24 →
      (ss.foldl (stepPair32 fused) (t, (m : ℚ))).2 = ((min (m + ss.length) (2 ^ 24) : Nat) : ℚ) := by
  induction ss with
  | nil =>
    intro t m hm
    simp only [List.foldl_nil, List.length_nil, Nat.add_zero]
    rw [min_eq_left hm]
  | cons s ss ih =>
    intro t m hm
    simp only [List.foldl_cons, List.length_cons]
    rcases Nat.lt_or_ge m (2 ^ 24) with hlt | hge
    · have h2 : stepPair32 fused (t, (m : ℚ)) s =
          ((stepPair32 fused (t, (m : ℚ)) s).1, ((m + 1 : Nat) : ℚ)) :=
        Prod.ext rfl (stepPair32_weight fused t s m hlt)
      rw [h2, ih _ (m + 1) hlt]
      congr 2
      omega
    · have hm' : m = 2 ^ 24 := le_antisymm hm hge
      have h2 : stepPair32 fused (t, (m : ℚ)) s =
          ((stepPair32 fused (t, (m : ℚ)) s).1, ((m : Nat) : ℚ)) := by
        have : (stepPair32 fused (t, (m : ℚ)) s).2 = (m : ℚ) := by
          simp only [stepPair32]
          rw [hm']
          push_cast
          exact rnd32_weight_stall
        exact Prod.ext rfl this
      rw [h2, ih _ m hm]
      congr 1
      omega

/-- Invariant of a sequence of binary32 updates by observations in `[-1, 1]`:
the weight counts them, the stored value stays in `[-1, 1]`, and
`weight * tsdf` stays within `3 n (n + 1) / 2^25 + n / 2^149` of their sum. -/
theorem foldl_stepPair32_mean (fused : Bool) (ss : List ℚ) :
    ∀ (t S : ℚ) (n : Nat), n + ss.length ≤ 2 ^ 24 → (∀ s ∈ ss, |s| ≤ 1) →
      |(n : ℚ) * t| ≤ n →
      |(n : ℚ) * t - S| ≤ 3 * (n : ℚ) * ((n : ℚ) + 1) / 2 ^ 25 + (n : ℚ) / 2 ^ 149 →
      (ss.foldl (stepPair32 fused) (t, (n : ℚ))).2 = ((n + ss.length : Nat) : ℚ) ∧
      |((n + ss.length : Nat) : ℚ) * (ss.foldl (stepPair32 fused) (t, (n : ℚ))).1| ≤
        ((n + ss.length : Nat) : ℚ) ∧
      |((n + ss.length : Nat) : ℚ) * (ss.foldl (stepPair32 fused) (t, (n : ℚ))).1 - (S + ss.sum)| ≤
        3 * ((n + ss.length : Nat) : ℚ) * (((n + ss.length : Nat) : ℚ) + 1) / 2 ^ 25 +
          ((n + ss.length : Nat) : ℚ) / 2 ^ 149 := by
  induction ss with
  | nil =>
    intro t S n _ _ ht hE
    simp only [List.foldl_nil, List.length_nil, Nat.add_zero, List.sum_nil, add_zero]
    exact ⟨trivial, ht, hE⟩
  | cons s ss ih =>
    intro t S n hn hs ht hE
    simp only [List.length_cons] at hn
    have hn1 : n + 1 ≤ 2 ^ 24 := by omega
    have hs0 : |s| ≤ 1 := hs s (List.mem_cons_self _ _)
    obtain ⟨hr, hinv⟩ := stepPair32_invariant fused t s S _ n hn1 ht hs0 hE
    have hwt := stepPair32_weight fused t s n hn1
    have hst : stepPair32 fused (t, (n : ℚ)) s =
        ((stepPair32 fused (t, (n : ℚ)) s).1, ((n + 1 : Nat) : ℚ)) :=
      Prod.ext rfl hwt
    have hn0 : (0 : ℚ) ≤ n := Nat.cast_nonneg n
    have hle : (n : ℚ) + 1 ≤ 2 ^ 24 := by exact_mod_cast hn1
    have ht' : |((n + 1 : Nat) : ℚ) * (stepPair32 fused (t, (n : ℚ)) s).1| ≤ ((n + 1 : Nat) : ℚ) := by
      rw [abs_mul, abs_of_nonneg (Nat.cast_nonneg _)]
      exact mul_le_of_le_one_right (Nat.cast_nonneg _) hr
    have hE' : |((n + 1 : Nat) : ℚ) * (stepPair32 fused (t, (n : ℚ)) s).1 - (S + s)| ≤
        3 * ((n + 1 : Nat) : ℚ) * (((n + 1 : Nat) : ℚ) + 1) / 2 ^ 25 +
          ((n + 1 : Nat) : ℚ) / 2 ^ 149 := by
      push_cast
      refine le_trans hinv ?_
      have hsmall : ((n : ℚ) + 1) / 2 ^ 150 ≤ 1 / 2 ^ 24 := by
        rw [div_le_div_iff₀ (by positivity) (by positivity)]
        calc ((n : ℚ) + 1) * 2 ^ 24 ≤ 2 ^ 24 * 2 ^ 24 := by
              exact mul_le_mul_of_nonneg_right hle (by positivity)
          _ ≤ 1 * 2 ^ 150 := by norm_num
      have e1 : 3 * ((n : ℚ) + 1) * ((n : ℚ) + 1 + 1) / 2 ^ 25 + ((n : ℚ) + 1) / 2 ^ 149 =
          (3 * (n : ℚ) * ((n : ℚ) + 1) / 2 ^ 25 + (n : ℚ) / 2 ^ 149) +
            (3 * (n : ℚ) + 2) / 2 ^ 24 + ((n : ℚ) + 3) / 2 ^ 150 +
            (1 / 2 ^ 24 - ((n : ℚ) + 1) / 2 ^ 150) := by
        ring
      rw [e1]
      linarith
    obtain ⟨r1, r2, r3⟩ := ih (stepPair32 fused (t, (n : ℚ)) s).1 (S + s) (n + 1) (by omega)
      (fun x hx => hs x (List.mem_cons_of_mem _ hx)) ht' hE'
    have hlen : n + 1 + ss.length = n + (ss.length + 1) := by omega
    simp only [List.foldl_cons, List.length_cons, List.sum_cons]
    rw [hst, ← hlen, ← add_assoc S s]
    exact ⟨r1, r2, r3⟩

/-- Repeating one observation `s` whose multiples up to `k * s` are binary32
numbers stores `s` and the weight `k`. -/
theorem foldl_stepPair32_replicate (fused : Bool) (s : ℚ) (k : Nat) :
    ∀ (t : ℚ) (n : Nat), n + k ≤ 2 ^ 24 → (n : ℚ) * t = n * s →
      (∀ j : Nat, j ≤ n + k → rnd32 ((j : ℚ) * s) = j * s) → 1 ≤ n + k →
      (List.replicate k s).foldl (stepPair32 fused) (t, (n : ℚ)) = (s, ((n + k : Nat) : ℚ)) := by
  induction k with
  | zero =>
    intro t n _ ht _ hk
    simp only [List.replicate_zero, List.foldl_nil, Nat.add_zero]
    have hn0 : (n : ℚ) ≠ 0 := by
      have : 1 ≤ n := by omega
      exact_mod_cast Nat.one_le_iff_ne_zero.mp this
    rw [mul_left_cancel₀ hn0 ht]
  | succ k ih =>
    intro t n hn ht hj hk
    have h1 : rnd32 s = s := by
      have := hj 1 (by omega)
      simpa using this
    have hstep := stepPair32_exact fused t s n (by omega) ht h1 (hj n (by omega)) (by
      have := hj (n + 1) (by omega)
      push_cast at this
      exact this)
    simp only [List.replicate_succ, List.foldl_cons]
    rw [hstep, ih s (n + 1) (by omega) rfl (fun j hjle => hj j (by omega)) (by omega)]
    congr 2
    omega

theorem foldl_stepPair32_mean_bound (fused : Bool) (ss : List ℚ) (t : ℚ)
    (h1 : 1 ≤ ss.length) (hlen : ss.length ≤ 2 ^ 24) (hs : ∀ s ∈ ss, |s| ≤ 1) :
    |(ss.foldl (stepPair32 fused) (t, 0)).1| ≤ 1 ∧
      |(ss.foldl (stepPair32 fused) (t, 0)).1 - ss.sum / (ss.length : ℚ)| ≤
        ((ss.length : ℚ) + 1) / 2 ^ 23 := by
  obtain ⟨_, r2, r3⟩ := foldl_stepPair32_mean fused ss t 0 0 (by omega) hs (by simp) (by simp)
  simp only [Nat.zero_add, Nat.cast_zero, zero_add] at r2 r3
  have hk : (1 : ℚ) ≤ (ss.length : ℚ) := by exact_mod_cast h1
  have hkpos : (0 : ℚ) < (ss.length : ℚ) := by linarith
  have hkle : (ss.length : ℚ) ≤ 2 ^ 24 := by exact_mod_cast hlen
  constructor
  · rw [abs_mul, abs_of_pos hkpos] at r2
    by_contra hc
    push_neg at hc
    have := mul_lt_mul_of_pos_left hc hkpos
    linarith
  · have e : (ss.foldl (stepPair32 fused) (t, 0)).1 - ss.sum / (ss.length : ℚ) =
        ((ss.length : ℚ) * (ss.foldl (stepPair32 fused) (t, 0)).1 - ss.sum) / (ss.length : ℚ) := by
      field_simp
      ring
    rw [e, abs_div, abs_of_pos hkpos, div_le_iff₀ hkpos]
    refine le_trans r3 ?_
    have e2 : ((ss.length : ℚ) + 1) / 2 ^ 23 * (ss.length : ℚ) =
        3 * (ss.length : ℚ) * ((ss.length : ℚ) + 1) / 2 ^ 25 +
          (ss.length : ℚ) * ((ss.length : ℚ) + 1) / 2 ^ 25 := by ring
    rw [e2]
    have h3 : (ss.length : ℚ) / 2 ^ 149 ≤ (ss.length : ℚ) * ((ss.length : ℚ) + 1) / 2 ^ 25 := by
      rw [div_le_div_iff₀ (by positivity) (by positivity)]
      have : (ss.length : ℚ) * 2 ^ 25 ≤ (ss.length : ℚ) * ((ss.length : ℚ) + 1) * 2 ^ 149 := by
        have h4 : (ss.length : ℚ) * 2 ^ 25 ≤ (ss.length : ℚ) * 2 ^ 149 :=
          mul_le_mul_of_nonneg_left (by norm_num) hkpos.le
        have h5 : (ss.length : ℚ) * 2 ^ 149 ≤ (ss.length : ℚ) * ((ss.length : ℚ) + 1) * 2 ^ 149 := by
          refine mul_le_mul_of_nonneg_right ?_ (by positivity)
          nlinarith
        linarith
      exact this
    linarith

theorem normalisedSdf32_abs_le (inp : IntegrateInput) (tl : SparseTensorList ℚ) (w : Nat)
    (ho : Observed32 inp tl w) (ht : 0 < inp.sdf_trunc) : |normalisedSdf32 inp tl w| ≤ 1 := by
  obtain ⟨_, _, _, hs⟩ := ho
  have hq : |min (rnd32 (sampledDepth inp tl w - (cameraPoint inp tl w).2.2)) inp.sdf_trunc /
      inp.sdf_trunc| ≤ ((1 : Nat) : ℚ) := by
    rw [abs_div, abs_of_pos ht, div_le_iff₀ ht, abs_le]
    push_cast
    constructor
    · exact le_min (by linarith) (by linarith)
    · have := min_le_right (rnd32 (sampledDepth inp tl w - (cameraPoint inp tl w).2.2))
        inp.sdf_trunc
      linarith
  have := rnd32_abs_le_nat _ 1 (by norm_num) hq
  unfold normalisedSdf32
  simpa using this

theorem normalisedSdf32_rnd32 (inp : IntegrateInput) (tl : SparseTensorList ℚ) (w : Nat) :
    rnd32 (normalisedSdf32 inp tl w) = normalisedSdf32 inp tl w := by
  unfold normalisedSdf32
  exact rnd32_idem _

/-! ### Evaluation of the binary32 kernel at the one-voxel volume -/

theorem oneVoxel_observed32 (d t wt : ℚ) (hd : 0 < d) (hs : -1 ≤ rnd32 (d - 1)) :
    Observed32 (constFrame d) (oneVoxel t wt) 0 := by
  refine ⟨oneVoxel_inBoundary d t wt, ?_, ?_, ?_⟩
  · rw [oneVoxel_sampledDepth]; exact hd
  · rw [oneVoxel_cameraPoint]; norm_num
  · rw [oneVoxel_sampledDepth, oneVoxel_cameraPoint]; exact hs

theorem oneVoxel_normalisedSdf32 (d t wt : ℚ) :
    normalisedSdf32 (constFrame d) (oneVoxel t wt) 0 = rnd32 (min (rnd32 (d - 1)) 1) := by
  unfold normalisedSdf32
  rw [oneVoxel_sampledDepth, oneVoxel_cameraPoint]
  simp [constFrame]

theorem rnd32_eq_of_exact (x y : ℚ) (e k : Int) (he : -126 ≤ e) (hy : x = y)
    (h2 : y < 2 ^ (e + 1)) (hpos : 0 < y) (hk : y = (k : ℚ) * 2 ^ (e - 23)) : rnd32 x = y := by
  rw [hy]
  exact rnd32_exact_pos y e k he h2 hpos hk

theorem stepPair32_eval (fused : Bool) (t w s p q d r : ℚ) (hp : rnd32 (w * t) = p)
    (hq : rnd32 (p + s) = q) (hqf : rnd32 (w * t + s) = q) (hd : rnd32 (w + 1) = d)
    (hr : rnd32 (q / d) = r) : stepPair32 fused (t, w) s = (r, d) := by
  cases fused
  · simp only [stepPair32, mulAdd32, Bool.false_eq_true, if_false]
    rw [hp, hq, hd, hr]
  · simp only [stepPair32, mulAdd32, if_true]
    rw [hqf, hd, hr]

theorem rnd32_zero_of_eq (x : ℚ) (h : x = 0) : rnd32 x = 0 := by
  rw [h]
  exact rnd32_zero

/-- Three binary32 updates by the observations `1/2`, `1/4`, `1` from weight 0. -/
theorem stepPair32_half_quarter_one (fused : Bool) :
    [1 / 2, 1 / 4, 1].foldl (stepPair32 fused) (7, 0) = (9786709 / 2 ^ 24, 3) := by
  have s1 : stepPair32 fused (7, 0) (1 / 2) = (1 / 2, 1) :=
    stepPair32_eval fused 7 0 (1 / 2) 0 (1 / 2) 1 (1 / 2)
      (rnd32_zero_of_eq _ (by norm_num))
      (rnd32_eq_of_exact _ _ (-1) 8388608 (by norm_num) (by norm_num) (by norm_num) (by norm_num)
        (by norm_num))
      (rnd32_eq_of_exact _ _ (-1) 8388608 (by norm_num) (by norm_num) (by norm_num) (by norm_num)
        (by norm_num))
      (rnd32_eq_of_exact _ _ 0 8388608 (by norm_num) (by norm_num) (by norm_num) (by norm_num)
        (by norm_num))
      (rnd32_eq_of_exact _ _ (-1) 8388608 (by norm_num) (by norm_num) (by norm_num) (by norm_num)
        (by norm_num))
  have s2 : stepPair32 fused (1 / 2, 1) (1 / 4) = (3 / 8, 2) :=
    stepPair32_eval fused (1 / 2) 1 (1 / 4) (1 / 2) (3 / 4) 2 (3 / 8)
      (rnd32_eq_of_exact _ _ (-1) 8388608 (by norm_num) (by norm_num) (by norm_num) (by norm_num)
        (by norm_num))
      (rnd32_eq_of_exact _ _ (-1) 12582912 (by norm_num) (by norm_num) (by norm_num) (by norm_num)
        (by norm_num))
      (rnd32_eq_of_exact _ _ (-1) 12582912 (by norm_num) (by norm_num) (by norm_num) (by norm_num)
        (by norm_num))
      (rnd32_eq_of_exact _ _ 1 8388608 (by norm_num) (by norm_num) (by norm_num) (by norm_num)
        (by norm_num))
      (rnd32_eq_of_exact _ _ (-2) 12582912 (by norm_num) (by norm_num) (by norm_num) (by norm_num)
        (by norm_num))
  have s3 : stepPair32 fused (3 / 8, 2) 1 = (9786709 / 2 ^ 24, 3) :=
    stepPair32_eval fused (3 / 8) 2 1 (3 / 4) (7 / 4) 3 (9786709 / 2 ^ 24)
      (rnd32_eq_of_exact _ _ (-1) 12582912 (by norm_num) (by norm_num) (by norm_num) (by norm_num)
        (by norm_num))
      (rnd32_eq_of_exact _ _ 0 14680064 (by norm_num) (by norm_num) (by norm_num) (by norm_num)
        (by norm_num))
      (rnd32_eq_of_exact _ _ 0 14680064 (by norm_num) (by norm_num) (by norm_num) (by norm_num)
        (by norm_num))
      (rnd32_eq_of_exact _ _ 1 12582912 (by norm_num) (by norm_num) (by norm_num) (by norm_num)
        (by norm_num))
      ((rnd32_eval_pos (7 / 4 / 3) (-1) 9786709 (by norm_num) (by norm_num) (by norm_num)
        (roundHalfEven_eq_of_near _ 9786709 (by norm_num) (by norm_num))).trans (by norm_num))
  simp only [List.foldl_cons, List.foldl_nil]
  rw [s1, s2, s3]

/-- Three binary32 updates by the observation `5592407 / 2^23` from weight 0:
the first two store the observation, the third one does not. -/
theorem stepPair32_two_thirds (fused : Bool) :
    (List.replicate 3 (5592407 / 2 ^ 23 : ℚ)).foldl (stepPair32 fused) (7, 0) =
      (11184813 / 2 ^ 24, 3) := by
  have s1 : stepPair32 fused (7, 0) (5592407 / 2 ^ 23) = (5592407 / 2 ^ 23, 1) :=
    stepPair32_eval fused 7 0 (5592407 / 2 ^ 23) 0 (5592407 / 2 ^ 23) 1 (5592407 / 2 ^ 23)
      (rnd32_zero_of_eq _ (by norm_num))
      (rnd32_eq_of_exact _ _ (-1) 11184814 (by norm_num) (by norm_num) (by norm_num) (by norm_num)
        (by norm_num))
      (rnd32_eq_of_exact _ _ (-1) 11184814 (by norm_num) (by norm_num) (by norm_num) (by norm_num)
        (by norm_num))
      (rnd32_eq_of_exact _ _ 0 8388608 (by norm_num) (by norm_num) (by norm_num) (by norm_num)
        (by norm_num))
      (rnd32_eq_of_exact _ _ (-1) 11184814 (by norm_num) (by norm_num) (by norm_num) (by norm_num)
        (by norm_num))
  have s2 : stepPair32 fused (5592407 / 2 ^ 23, 1) (5592407 / 2 ^ 23) = (5592407 / 2 ^ 23, 2) :=
    stepPair32_eval fused (5592407 / 2 ^ 23) 1 (5592407 / 2 ^ 23) (5592407 / 2 ^ 23)
      (5592407 / 2 ^ 22) 2 (5592407 / 2 ^ 23)
      (rnd32_eq_of_exact _ _ (-1) 11184814 (by norm_num) (by norm_num) (by norm_num) (by norm_num)
        (by norm_num))
      (rnd32_eq_of_exact _ _ 0 11184814 (by norm_num) (by norm_num) (by norm_num) (by norm_num)
        (by norm_num))
      (rnd32_eq_of_exact _ _ 0 11184814 (by norm_num) (by norm_num) (by norm_num) (by norm_num)
        (by norm_num))
      (rnd32_eq_of_exact _ _ 1 8388608 (by norm_num) (by norm_num) (by norm_num) (by norm_num)
        (by norm_num))
      (rnd32_eq_of_exact _ _ (-1) 11184814 (by norm_num) (by norm_num) (by norm_num) (by norm_num)
        (by norm_num))
  have s3 : stepPair32 fused (5592407 / 2 ^ 23, 2) (5592407 / 2 ^ 23) =
      (11184813 / 2 ^ 24, 3) :=
    stepPair32_eval fused (5592407 / 2 ^ 23) 2 (5592407 / 2 ^ 23) (5592407 / 2 ^ 22)
      (4194305 / 2 ^ 21) 3 (11184813 / 2 ^ 24)
      (rnd32_eq_of_exact _ _ 0 11184814 (by norm_num) (by norm_num) (by norm_num) (by norm_num)
        (by norm_num))
      ((rnd32_eval_pos (5592407 / 2 ^ 22 + 5592407 / 2 ^ 23) 1 8388610 (by norm_num) (by norm_num)
        (by norm_num) (roundHalfEven_tie_even _ 8388610 (by norm_num) (by decide))).trans
        (by norm_num))
      ((rnd32_eval_pos (2 * (5592407 / 2 ^ 23) + 5592407 / 2 ^ 23) 1 8388610 (by norm_num)
        (by norm_num) (by norm_num) (roundHalfEven_tie_even _ 8388610 (by norm_num)
          (by decide))).trans (by norm_num))
      (rnd32_eq_of_exact _ _ 1 12582912 (by norm_num) (by norm_num) (by norm_num) (by norm_num)
        (by norm_num))
      ((rnd32_eval_pos (4194305 / 2 ^ 21 / 3) (-1) 11184813 (by norm_num) (by norm_num)
        (by norm_num) (roundHalfEven_eq_of_near _ 11184813 (by norm_num) (by norm_num))).trans
        (by norm_num))
  simp only [List.replicate, List.foldl_cons, List.foldl_nil]
  rw [s1, s2, s3]

/-! ## Integrate in binary32: repeated observations and the mean -/

theorem oneVoxel_two_thirds_observed (t wt : ℚ) :
    Observed32 (constFrame (13981015 / 2 ^ 23)) (oneVoxel t wt) 0 ∧
      normalisedSdf32 (constFrame (13981015 / 2 ^ 23)) (oneVoxel t wt) 0 = 5592407 / 2 ^ 23 := by
  have hr : rnd32 (13981015 / 2 ^ 23 - 1) = 5592407 / 2 ^ 23 :=
    rnd32_eq_of_exact _ _ (-1) 11184814 (by norm_num) (by norm_num) (by norm_num) (by norm_num)
      (by norm_num)
  refine ⟨oneVoxel_observed32 _ _ _ (by norm_num) (by rw [hr]; norm_num), ?_⟩
  rw [oneVoxel_normalisedSdf32, hr, min_eq_left (by norm_num)]
  exact rnd32_eq_of_exact _ _ (-1) 11184814 (by norm_num) rfl (by norm_num) (by norm_num)
    (by norm_num)

theorem oneVoxel_half_observed (t wt : ℚ) :
    Observed32 (constFrame (3 / 2)) (oneVoxel t wt) 0 ∧
      normalisedSdf32 (constFrame (3 / 2)) (oneVoxel t wt) 0 = 1 / 2 := by
  have hr : rnd32 (3 / 2 - 1) = 1 / 2 :=
    rnd32_eq_of_exact _ _ (-1) 8388608 (by norm_num) (by norm_num) (by norm_num) (by norm_num)
      (by norm_num)
  refine ⟨oneVoxel_observed32 _ _ _ (by norm_num) (by rw [hr]; norm_num), ?_⟩
  rw [oneVoxel_normalisedSdf32, hr, min_eq_left (by norm_num)]
  exact rnd32_eq_of_exact _ _ (-1) 8388608 (by norm_num) rfl (by norm_num) (by norm_num)
    (by norm_num)

theorem oneVoxel_quarter_observed (t wt : ℚ) :
    Observed32 (constFrame (5 / 4)) (oneVoxel t wt) 0 ∧
      normalisedSdf32 (constFrame (5 / 4)) (oneVoxel t wt) 0 = 1 / 4 := by
  have hr : rnd32 (5 / 4 - 1) = 1 / 4 :=
    rnd32_eq_of_exact _ _ (-2) 8388608 (by norm_num) (by norm_num) (by norm_num) (by norm_num)
      (by norm_num)
  refine ⟨oneVoxel_observed32 _ _ _ (by norm_num) (by rw [hr]; norm_num), ?_⟩
  rw [oneVoxel_normalisedSdf32, hr, min_eq_left (by norm_num)]
  exact rnd32_eq_of_exact _ _ (-2) 8388608 (by norm_num) rfl (by norm_num) (by norm_num)
    (by norm_num)

theorem oneVoxel_clamped_observed (t wt : ℚ) :
    Observed32 (constFrame 3) (oneVoxel t wt) 0 ∧
      normalisedSdf32 (constFrame 3) (oneVoxel t wt) 0 = 1 := by
  have hr : rnd32 (3 - 1) = 2 :=
    rnd32_eq_of_exact _ _ 1 8388608 (by norm_num) (by norm_num) (by norm_num) (by norm_num)
      (by norm_num)
  refine ⟨oneVoxel_observed32 _ _ _ (by norm_num) (by rw [hr]; norm_num), ?_⟩
  rw [oneVoxel_normalisedSdf32, hr, min_eq_right (by norm_num)]
  exact rnd32_one

/-- Three binary32 integrations of the observation `5592407 / 2^23` into the
one-voxel volume, for either evaluation of `weight_sum * tsdf_sum + sdf`. -/
theorem oneVoxel_two_thirds_run (fused : Bool) :
    tsdfOf ((Integrate32 fused (constFrame (13981015 / 2 ^ 23)))^[3] (oneVoxel 7 0)) 0 =
      11184813 / 2 ^ 24 := by
  obtain ⟨ho, hn⟩ := oneVoxel_two_thirds_observed 7 0
  have hall : ∀ f ∈ List.replicate 3 (constFrame (13981015 / 2 ^ 23)),
      Observed32 f (oneVoxel 7 0) 0 := by
    intro f hf
    rw [List.eq_of_mem_replicate hf]
    exact ho
  have hv := IntegrateAll32_voxel fused 0 (List.replicate 3 (constFrame (13981015 / 2 ^ 23)))
    (oneVoxel 7 0) (oneVoxel_workloads _ _) hall
  rw [List.map_replicate, hn, oneVoxel_tsdfOf, oneVoxel_weightOf, stepPair32_two_thirds] at hv
  rw [iterate_eq_IntegrateAll32]
  exact congrArg Prod.fst hv

/-- C2 fails as worded: in binary32 the observation `s = 5592407 / 2^23` (a
binary32 number, depth `1 + s` seen from distance 1, truncation 1) integrated
three times into a voxel of weight 0 stores `11184813 / 2^24`, one unit in the
last place below `s`: `3 s` falls half-way between two binary32 numbers and is
rounded to the even one. The separately rounded (`false`) and the fused (`true`)
evaluation of `weight_sum * tsdf_sum + sdf` agree. -/
theorem Integrate32_third_integration_moves :
    weightOf (oneVoxel 7 0) 0 = 0 ∧
      Observed32 (constFrame (13981015 / 2 ^ 23)) (oneVoxel 7 0) 0 ∧
      normalisedSdf32 (constFrame (13981015 / 2 ^ 23)) (oneVoxel 7 0) 0 = 5592407 / 2 ^ 23 ∧
      tsdfOf ((Integrate32 false (constFrame (13981015 / 2 ^ 23)))^[3] (oneVoxel 7 0)) 0 =
        11184813 / 2 ^ 24 ∧
      tsdfOf ((Integrate32 true (constFrame (13981015 / 2 ^ 23)))^[3] (oneVoxel 7 0)) 0 =
        11184813 / 2 ^ 24 ∧
      tsdfOf ((Integrate32 false (constFrame (13981015 / 2 ^ 23)))^[3] (oneVoxel 7 0)) 0 ≠
        normalisedSdf32 (constFrame (13981015 / 2 ^ 23)) (oneVoxel 7 0) 0 ∧
      tsdfOf ((Integrate32 true (constFrame (13981015 / 2 ^ 23)))^[3] (oneVoxel 7 0)) 0 ≠
        normalisedSdf32 (constFrame (13981015 / 2 ^ 23)) (oneVoxel 7 0) 0 := by
  obtain ⟨ho, hn⟩ := oneVoxel_two_thirds_observed 7 0
  refine ⟨oneVoxel_weightOf _ _, ho, hn, oneVoxel_two_thirds_run false,
    oneVoxel_two_thirds_run true, ?_, ?_⟩
  · rw [oneVoxel_two_thirds_run false, hn]
    norm_num
  · rw [oneVoxel_two_thirds_run true, hn]
    norm_num

/-- C2 amended: in binary32, from a voxel of weight 0 and any finite initial
tsdf, integrating the same non-skipped observation `k >= 1` times with a
positive truncation distance leaves `weight = min (k, 2^24)` (the weight stops
growing at `2^24`); the stored tsdf is the normalised observation `s` after one
and after two integrations; for `k <= 2^24` it is `s` whenever the multiples
`j * s`, `j <= k`, are binary32 numbers, and in general it stays within
`(k + 1) / 2^23` of `s`. -/
theorem Integrate32_repeated_observation (fused : Bool) (inp : IntegrateInput)
    (tl : SparseTensorList ℚ) (w k : Nat) (hw : w < NumWorkloads tl tl.shape.NumElements)
    (h0 : weightOf tl w = 0) (hobs : Observed32 inp tl w) (htr : 0 < inp.sdf_trunc)
    (hk : 1 ≤ k) :
    weightOf ((Integrate32 fused inp)^[k] tl) w = ((min k (2 ^ 24) : Nat) : ℚ) ∧
      (k ≤ 2 → tsdfOf ((Integrate32 fused inp)^[k] tl) w = normalisedSdf32 inp tl w) ∧
      (k ≤ 2 ^ 24 →
        (∀ j : Nat, j ≤ k →
          rnd32 ((j : ℚ) * normalisedSdf32 inp tl w) = j * normalisedSdf32 inp tl w) →
        tsdfOf ((Integrate32 fused inp)^[k] tl) w = normalisedSdf32 inp tl w) ∧
      (k ≤ 2 ^ 24 →
        |tsdfOf ((Integrate32 fused inp)^[k] tl) w - normalisedSdf32 inp tl w| ≤
          ((k : ℚ) + 1) / 2 ^ 23) := by
  have hall : ∀ f ∈ List.replicate k inp, Observed32 f tl w := by
    intro f hf
    rw [List.eq_of_mem_replicate hf]
    exact hobs
  have hv := IntegrateAll32_voxel fused w (List.replicate k inp) tl hw hall
  rw [← iterate_eq_IntegrateAll32, List.map_replicate, h0] at hv
  have hexact : k ≤ 2 ^ 24 →
      (∀ j : Nat, j ≤ k →
        rnd32 ((j : ℚ) * normalisedSdf32 inp tl w) = j * normalisedSdf32 inp tl w) →
      tsdfOf ((Integrate32 fused inp)^[k] tl) w = normalisedSdf32 inp tl w := by
    intro hcap hrep
    have hf := foldl_stepPair32_replicate fused (normalisedSdf32 inp tl w) k (tsdfOf tl w) 0
      (by omega) (by simp) (by simpa using hrep) (by omega)
    rw [Nat.cast_zero] at hf
    rw [hf] at hv
    exact congrArg Prod.fst hv
  refine ⟨?_, ?_, hexact, ?_⟩
  · have hf := foldl_stepPair32_weight fused (List.replicate k (normalisedSdf32 inp tl w))
      (tsdfOf tl w) 0 (by norm_num)
    rw [Nat.cast_zero, List.length_replicate, Nat.zero_add] at hf
    rw [← hf]
    exact congrArg Prod.snd hv
  · intro hk2
    refine hexact (le_trans hk2 (by norm_num)) ?_
    intro j hj
    have hj2 : j = 0 ∨ j = 1 ∨ j = 2 := by omega
    rcases hj2 with rfl | rfl | rfl
    · simp [rnd32_zero]
    · simpa using normalisedSdf32_rnd32 inp tl w
    · simpa using rnd32_two_mul _ (normalisedSdf32_rnd32 inp tl w)
  · intro hcap
    have hb := (foldl_stepPair32_mean_bound fused (List.replicate k (normalisedSdf32 inp tl w))
      (tsdfOf tl w) (by rw [List.length_replicate]; exact hk)
      (by rw [List.length_replicate]; exact hcap)
      (fun s hs => by
        rw [List.eq_of_mem_replicate hs]
        exact normalisedSdf32_abs_le inp tl w hobs htr)).2
    have hk0 : (k : ℚ) ≠ 0 := by exact_mod_cast Nat.one_le_iff_ne_zero.mp hk
    rw [List.length_replicate, List.sum_replicate, nsmul_eq_mul, mul_div_cancel_left₀ _ hk0,
      ← hv] at hb
    exact hb

/-- Witness of C2 amended: binary32 integrations of the observation `s = 1/2`,
whose multiples `0`, `1/2`, `1`, `3/2` are binary32 numbers, into a voxel with
initial `tsdf = 7`, `weight = 0`: three of them, and two of them with the fused
evaluation. -/
theorem Integrate32_repeated_observation_witness :
    (weightOf ((Integrate32 false (constFrame (3 / 2)))^[3] (oneVoxel 7 0)) 0 =
        ((min 3 (2 ^ 24) : Nat) : ℚ) ∧
      tsdfOf ((Integrate32 false (constFrame (3 / 2)))^[3] (oneVoxel 7 0)) 0 =
        normalisedSdf32 (constFrame (3 / 2)) (oneVoxel 7 0) 0 ∧
      |tsdfOf ((Integrate32 false (constFrame (3 / 2)))^[3] (oneVoxel 7 0)) 0 -
          normalisedSdf32 (constFrame (3 / 2)) (oneVoxel 7 0) 0| ≤
        (((3 : Nat) : ℚ) + 1) / 2 ^ 23) ∧
      (weightOf ((Integrate32 true (constFrame (3 / 2)))^[2] (oneVoxel 7 0)) 0 =
        ((min 2 (2 ^ 24) : Nat) : ℚ) ∧
      tsdfOf ((Integrate32 true (constFrame (3 / 2)))^[2] (oneVoxel 7 0)) 0 =
        normalisedSdf32 (constFrame (3 / 2)) (oneVoxel 7 0) 0) := by
  have h := Integrate32_repeated_observation false (constFrame (3 / 2)) (oneVoxel 7 0) 0 3
    (oneVoxel_workloads _ _) (oneVoxel_weightOf _ _) (oneVoxel_half_observed 7 0).1
    (by norm_num [constFrame]) (by decide)
  have h2 := Integrate32_repeated_observation true (constFrame (3 / 2)) (oneVoxel 7 0) 0 2
    (oneVoxel_workloads _ _) (oneVoxel_weightOf _ _) (oneVoxel_half_observed 7 0).1
    (by norm_num [constFrame]) (by decide)
  refine ⟨⟨h.1, h.2.2.1 (by norm_num) ?_, h.2.2.2 (by norm_num)⟩, h2.1, h2.2.1 (le_refl 2)⟩
  intro j hj
  rw [(oneVoxel_half_observed 7 0).2]
  have hj4 : j = 0 ∨ j = 1 ∨ j = 2 ∨ j = 3 := by omega
  rcases hj4 with rfl | rfl | rfl | rfl
  · exact (rnd32_zero_of_eq _ (by norm_num)).trans (by norm_num)
  · exact rnd32_eq_of_exact _ _ (-1) 8388608 (by norm_num) rfl (by norm_num) (by norm_num)
      (by norm_num)
  · exact rnd32_eq_of_exact _ _ 0 8388608 (by norm_num) rfl (by norm_num) (by norm_num)
      (by norm_num)
  · exact rnd32_eq_of_exact _ _ 0 12582912 (by norm_num) rfl (by norm_num) (by norm_num)
      (by norm_num)

theorem oneVoxel_three_frames_observed :
    ∀ inp ∈ [constFrame (3 / 2), constFrame (5 / 4), constFrame 3],
      Observed32 inp (oneVoxel 7 0) 0 := by
  intro inp hinp
  simp only [List.mem_cons, List.mem_singleton, List.not_mem_nil, or_false] at hinp
  rcases hinp with rfl | rfl | rfl
  · exact (oneVoxel_half_observed 7 0).1
  · exact (oneVoxel_quarter_observed 7 0).1
  · exact (oneVoxel_clamped_observed 7 0).1

/-- Binary32 integration of the observations `1/2`, `1/4`, `1` into the
one-voxel volume, for either evaluation of `weight_sum * tsdf_sum + sdf`. -/
theorem oneVoxel_three_frames_run (fused : Bool) :
    tsdfOf (IntegrateAll32 fused [constFrame (3 / 2), constFrame (5 / 4), constFrame 3]
      (oneVoxel 7 0)) 0 = 9786709 / 2 ^ 24 := by
  have hv := IntegrateAll32_voxel fused 0 [constFrame (3 / 2), constFrame (5 / 4), constFrame 3]
    (oneVoxel 7 0) (oneVoxel_workloads _ _) oneVoxel_three_frames_observed
  simp only [List.map_cons, List.map_nil, (oneVoxel_half_observed 7 0).2,
    (oneVoxel_quarter_observed 7 0).2, (oneVoxel_clamped_observed 7 0).2] at hv
  rw [oneVoxel_tsdfOf, oneVoxel_weightOf, stepPair32_half_quarter_one] at hv
  exact congrArg Prod.fst hv

/-- C3 fails as worded: in binary32 the observations `1/2`, `1/4` and `1`
(depths `3/2`, `5/4` and `3` seen from distance 1, truncation 1) integrated into
a voxel of weight 0 store `9786709 / 2^24`, the binary32 number nearest to their
mean `7/12`, which is not a binary32 number. The separately rounded (`false`)
and the fused (`true`) evaluation of `weight_sum * tsdf_sum + sdf` agree. -/
theorem IntegrateAll32_not_mean :
    weightOf (oneVoxel 7 0) 0 = 0 ∧
      (∀ inp ∈ [constFrame (3 / 2), constFrame (5 / 4), constFrame 3],
        Observed32 inp (oneVoxel 7 0) 0) ∧
      ([constFrame (3 / 2), constFrame (5 / 4), constFrame 3].map
        (fun inp => normalisedSdf32 inp (oneVoxel 7 0) 0)).sum / 3 = 7 / 12 ∧
      tsdfOf (IntegrateAll32 false [constFrame (3 / 2), constFrame (5 / 4), constFrame 3]
        (oneVoxel 7 0)) 0 = 9786709 / 2 ^ 24 ∧
      tsdfOf (IntegrateAll32 true [constFrame (3 / 2), constFrame (5 / 4), constFrame 3]
        (oneVoxel 7 0)) 0 = 9786709 / 2 ^ 24 ∧
      tsdfOf (IntegrateAll32 false [constFrame (3 / 2), constFrame (5 / 4), constFrame 3]
        (oneVoxel 7 0)) 0 ≠ 7 / 12 ∧
      tsdfOf (IntegrateAll32 true [constFrame (3 / 2), constFrame (5 / 4), constFrame 3]
        (oneVoxel 7 0)) 0 ≠ 7 / 12 := by
  refine ⟨oneVoxel_weightOf _ _, oneVoxel_three_frames_observed, ?_,
    oneVoxel_three_frames_run false, oneVoxel_three_frames_run true, ?_, ?_⟩
  · simp only [List.map_cons, List.map_nil, (oneVoxel_half_observed 7 0).2,
      (oneVoxel_quarter_observed 7 0).2, (oneVoxel_clamped_observed 7 0).2]
    norm_num
  · rw [oneVoxel_three_frames_run false]
    norm_num
  · rw [oneVoxel_three_frames_run true]
    norm_num

/-- C3 amended: in binary32, from a voxel of weight 0 and any finite initial
tsdf, after integrating `k` non-skipped observations, `1 <= k <= 2^24`, with
positive truncation distances and normalised values `s_1, .., s_k`, the stored
weight is `k`, the stored tsdf lies in `[-1, 1]` and differs from the arithmetic
mean `(s_1 + .. + s_k) / k` by at most `(k + 1) / 2^23`. -/
theorem IntegrateAll32_arithmetic_mean (fused : Bool) (frames : List IntegrateInput)
    (tl : SparseTensorList ℚ) (w : Nat) (hw : w < NumWorkloads tl tl.shape.NumElements)
    (h0 : weightOf tl w = 0)
    (hobs : ∀ inp ∈ frames, Observed32 inp tl w)
    (htr : ∀ inp ∈ frames, 0 < inp.sdf_trunc)
    (hk : 1 ≤ frames.length) (hcap : frames.length ≤ 2 ^ 24) :
    weightOf (IntegrateAll32 fused frames tl) w = (frames.length : ℚ) ∧
      |tsdfOf (IntegrateAll32 fused frames tl) w| ≤ 1 ∧
      |tsdfOf (IntegrateAll32 fused frames tl) w -
          (frames.map (fun inp => normalisedSdf32 inp tl w)).sum / (frames.length : ℚ)| ≤
        ((frames.length : ℚ) + 1) / 2 ^ 23 := by
  have hv := IntegrateAll32_voxel fused w frames tl hw hobs
  rw [h0] at hv
  have hs : ∀ s ∈ frames.map (fun inp => normalisedSdf32 inp tl w), |s| ≤ 1 := by
    intro s hs
    obtain ⟨inp, hinp, rfl⟩ := List.mem_map.mp hs
    exact normalisedSdf32_abs_le inp tl w (hobs inp hinp) (htr inp hinp)
  have hwt := foldl_stepPair32_weight fused (frames.map (fun inp => normalisedSdf32 inp tl w))
    (tsdfOf tl w) 0 (by norm_num)
  obtain ⟨b1, b2⟩ := foldl_stepPair32_mean_bound fused
    (frames.map (fun inp => normalisedSdf32 inp tl w)) (tsdfOf tl w)
    (by rw [List.length_map]; exact hk) (by rw [List.length_map]; exact hcap) hs
  rw [List.length_map] at b2 hwt
  rw [Nat.cast_zero, Nat.zero_add, min_eq_left hcap] at hwt
  rw [← hv] at b1 b2 hwt
  exact ⟨hwt, b1, b2⟩

/-- Witness of C3 amended: the observations `1/2`, `1/4` and `1` (clamped)
integrated in binary32 into a voxel with initial `tsdf = 7`, `weight = 0`. -/
theorem IntegrateAll32_arithmetic_mean_witness :
    weightOf (IntegrateAll32 true [constFrame (3 / 2), constFrame (5 / 4), constFrame 3]
        (oneVoxel 7 0)) 0 =
        (([constFrame (3 / 2), constFrame (5 / 4), constFrame 3].length : Nat) : ℚ) ∧
      |tsdfOf (IntegrateAll32 true [constFrame (3 / 2), constFrame (5 / 4), constFrame 3]
        (oneVoxel 7 0)) 0| ≤ 1 ∧
      |tsdfOf (IntegrateAll32 true [constFrame (3 / 2), constFrame (5 / 4), constFrame 3]
          (oneVoxel 7 0)) 0 -
          ([constFrame (3 / 2), constFrame (5 / 4), constFrame 3].map
            (fun inp => normalisedSdf32 inp (oneVoxel 7 0) 0)).sum /
            (([constFrame (3 / 2), constFrame (5 / 4), constFrame 3].length : Nat) : ℚ)| ≤
        ((([constFrame (3 / 2), constFrame (5 / 4), constFrame 3].length : Nat) : ℚ) + 1) /
          2 ^ 23 :=
  IntegrateAll32_arithmetic_mean true [constFrame (3 / 2), constFrame (5 / 4), constFrame 3]
    (oneVoxel 7 0) 0 (oneVoxel_workloads _ _) (oneVoxel_weightOf _ _)
    oneVoxel_three_frames_observed
    (by
      intro inp hinp
      simp only [List.mem_cons, List.mem_singleton, List.not_mem_nil, or_false] at hinp
      rcases hinp with rfl | rfl | rfl <;> norm_num [constFrame])
    (by decide) (by norm_num)

/-! ## Lemmas on the ExtractSurface kernel in binary32 -/

theorem pushAll32_append (inp : ExtractInput) (st : SurfaceState) (es fs : List (Nat × Nat)) :
    pushAll32 inp st (es ++ fs) = pushAll32 inp (pushAll32 inp st es) fs := by
  unfold pushAll32
  rw [List.foldl_append]

theorem mem_emittedDirs32 (inp : ExtractInput) (w i : Nat) :
    i ∈ emittedDirs32 inp w ↔ Emitted32 inp w i := by
  unfold emittedDirs32 Emitted32 edgeTest32
  by_cases h : weightO inp w = 0
  · simp [h]
  · simp only [h, if_false, List.mem_filter, List.mem_cons, List.mem_singleton,
      List.not_mem_nil, or_false, Bool.and_eq_true, decide_eq_true_eq, ne_eq,
      not_false_eq_true, true_and]
    constructor
    · rintro ⟨hi, hv, hc⟩
      exact ⟨by omega, hv, hc⟩
    · rintro ⟨hi, hv, hc⟩
      exact ⟨by omega, hv, hc⟩

theorem mem_emissions32 (inp : ExtractInput) (order : List Nat) (w i : Nat) :
    (w, i) ∈ emissions32 inp order ↔ w ∈ order ∧ Emitted32 inp w i := by
  unfold emissions32
  simp only [List.mem_flatMap, List.mem_map, Prod.mk.injEq]
  constructor
  · rintro ⟨a, ha, b, hb, rfl, rfl⟩
    exact ⟨ha, (mem_emittedDirs32 inp a b).mp hb⟩
  · rintro ⟨hw, he⟩
    exact ⟨w, hw, i, (mem_emittedDirs32 inp w i).mpr he, rfl, rfl⟩

theorem nodup_emittedDirs32 (inp : ExtractInput) (w : Nat) : (emittedDirs32 inp w).Nodup := by
  unfold emittedDirs32
  split_ifs
  · exact List.nodup_nil
  · exact List.Nodup.filter _ (by decide)

theorem nodup_emissions32 (inp : ExtractInput) (order : List Nat) (h : order.Nodup) :
    (emissions32 inp order).Nodup := by
  unfold emissions32
  rw [List.nodup_flatMap]
  refine ⟨fun w _ => ?_, ?_⟩
  · exact (nodup_emittedDirs32 inp w).map (fun a b hab => (Prod.mk.inj hab).2)
  · refine h.imp ?_
    intro a b hab
    intro p hpa hpb
    rw [List.mem_map] at hpa hpb
    obtain ⟨x, _, rfl⟩ := hpa
    obtain ⟨y, _, hy⟩ := hpb
    exact hab (Prod.mk.inj hy).1.symm

theorem vertexInd_emitVertex32_self (inp : ExtractInput) (st : SurfaceState) (w i : Nat) :
    vertexInd inp (emitVertex32 inp w i st) w i = (st.count : Int) := by
  simp [vertexInd, emitVertex32]

theorem vertexInd_emitVertex32_ne (inp : ExtractInput) (st : SurfaceState) (w i w' i' : Nat)
    (h : (w', i') ≠ (w, i)) :
    vertexInd inp (emitVertex32 inp w i st) w' i' = vertexInd inp st w' i' := by
  simp only [vertexInd, emitVertex32]
  rw [if_neg]
  rintro ⟨hk, hi, hv⟩
  apply h
  have : w' = w := workloadIdx_injective inp.grid_shape.NumElements w' w (Prod.ext hk hv)
  rw [this, hi]

theorem pushAll32_concat (inp : ExtractInput) (st : SurfaceState) (es : List (Nat × Nat))
    (e : Nat × Nat) :
    pushAll32 inp st (es ++ [e]) = emitVertex32 inp e.1 e.2 (pushAll32 inp st es) := by
  rw [pushAll32_append]
  rfl

/-- State reached by creating the vertices of the edges `es` from a counter
at `0`: the counter is the number of edges, the vertex with index `j` is the one
of the `j`-th edge, and the output channel of the `j`-th edge holds `j`. -/
theorem pushAll32_spec (inp : ExtractInput) (st0 : SurfaceState) (h0 : st0.count = 0)
    (es : List (Nat × Nat)) :
    (pushAll32 inp st0 es).count = es.length ∧
      (∀ j (hj : j < es.length),
        ((pushAll32 inp st0 es).vertices_x j, (pushAll32 inp st0 es).vertices_y j,
          (pushAll32 inp st0 es).vertices_z j) = edgeVertex32 inp es[j].1 es[j].2) ∧
      (es.Nodup → ∀ j (hj : j < es.length),
        vertexInd inp (pushAll32 inp st0 es) es[j].1 es[j].2 = (j : Int)) := by
  induction es using List.reverseRecOn with
  | nil =>
    refine ⟨by simpa [pushAll32] using h0, fun j hj => ?_, fun _ j hj => ?_⟩
    · exact absurd hj (Nat.not_lt_zero j)
    · exact absurd hj (Nat.not_lt_zero j)
  | append_singleton es e ih =>
    obtain ⟨hc, hv, hs⟩ := ih
    rw [pushAll32_concat]
    refine ⟨?_, fun j hj => ?_, fun hnd j hj => ?_⟩
    · simp [emitVertex32, hc]
    · rw [List.length_append, List.length_singleton] at hj
      by_cases hlt : j < es.length
      · have hne : j ≠ (pushAll32 inp st0 es).count := by rw [hc]; omega
        rw [List.getElem_append_left hlt]
        rw [← hv j hlt]
        simp [emitVertex32, hne]
      · have hje : j = es.length := by omega
        subst hje
        rw [List.getElem_concat_length es e es.length rfl]
        simp [emitVertex32, hc]
    · rw [List.length_append, List.length_singleton] at hj
      have hnd' : es.Nodup := (List.nodup_append.mp hnd).1
      by_cases hlt : j < es.length
      · rw [List.getElem_append_left hlt]
        have hmem : es[j] ∈ es := List.getElem_mem hlt
        have hne : (es[j].1, es[j].2) ≠ (e.1, e.2) := by
          intro heq
          have : es[j] = e := heq
          rw [this] at hmem
          exact (List.nodup_append.mp hnd).2.2 hmem (List.mem_singleton_self e)
        rw [vertexInd_emitVertex32_ne inp _ e.1 e.2 es[j].1 es[j].2 hne]
        exact hs hnd' j hlt
      · have hje : j = es.length := by omega
        subst hje
        rw [List.getElem_concat_length es e es.length rfl, vertexInd_emitVertex32_self, hc]

theorem emissions32_perm (inp : ExtractInput) (o1 o2 : List Nat) (h : o1.Perm o2) :
    (emissions32 inp o1).Perm (emissions32 inp o2) :=
  List.Perm.flatMap_right _ h

theorem toFinset_emissions32_range (inp : ExtractInput) :
    (emissions32 inp (List.range (extractWorkloads inp))).toFinset = emittedPairs32 inp := by
  ext ⟨w, i⟩
  simp only [List.mem_toFinset, mem_emissions32, List.mem_range, emittedPairs32, Finset.mem_filter,
    Finset.mem_product, Finset.mem_range]
  constructor
  · rintro ⟨hw, he⟩
    exact ⟨⟨hw, he.2.1⟩, he⟩
  · rintro ⟨⟨hw, _⟩, he⟩
    exact ⟨hw, he⟩

theorem length_emissions32 (inp : ExtractInput) (order : List Nat)
    (h : order.Perm (List.range (extractWorkloads inp))) :
    (emissions32 inp order).length = (emittedPairs32 inp).card := by
  rw [(emissions32_perm inp order _ h).length_eq, ← toFinset_emissions32_range,
    List.toFinset_card_of_nodup (nodup_emissions32 inp _ (List.nodup_range _))]

theorem ExtractEdge32_eq (inp : ExtractInput) (w : Nat) (st : SurfaceState) (i : Nat) :
    ExtractEdge32 inp w st i =
      if edgeTest32 inp w i then emitVertexChecked32 inp w i st else some st := by
  unfold ExtractEdge32 edgeTest32
  by_cases hv : nbValid inp w i = true
  · by_cases hc : 0 < weightI inp w i ∧ rnd32 (tsdfI inp w i * tsdfO inp w) < 0
    · simp [hv, hc]
    · simp only [hv, Bool.not_true, Bool.false_eq_true, if_false, hc, decide_False,
        Bool.and_false]
  · simp [hv]

theorem pushAllChecked32_nil (inp : ExtractInput) (st : SurfaceState) :
    pushAllChecked32 inp st [] = some st := rfl

theorem pushAllChecked32_cons (inp : ExtractInput) (st : SurfaceState) (e : Nat × Nat)
    (es : List (Nat × Nat)) :
    pushAllChecked32 inp st (e :: es) =
      (emitVertexChecked32 inp e.1 e.2 st).bind (fun s => pushAllChecked32 inp s es) := by
  unfold pushAllChecked32
  rw [List.foldlM_cons]
  rfl

theorem pushAllChecked32_append (inp : ExtractInput) (es fs : List (Nat × Nat)) :
    ∀ st : SurfaceState, pushAllChecked32 inp st (es ++ fs) =
      (pushAllChecked32 inp st es).bind (fun s => pushAllChecked32 inp s fs) := by
  induction es with
  | nil => intro st; rfl
  | cons e es ih =>
    intro st
    rw [List.cons_append, pushAllChecked32_cons, pushAllChecked32_cons]
    cases h : emitVertexChecked32 inp e.1 e.2 st with
    | none => rfl
    | some s => exact ih s

theorem foldlM_ExtractEdge32 (inp : ExtractInput) (w : Nat) (ds : List Nat) :
    ∀ st : SurfaceState, ds.foldlM (ExtractEdge32 inp w) st =
      pushAllChecked32 inp st ((ds.filter (edgeTest32 inp w)).map (fun i => (w, i))) := by
  induction ds with
  | nil => intro st; rfl
  | cons d ds ih =>
    intro st
    rw [List.foldlM_cons, ExtractEdge32_eq]
    by_cases h : edgeTest32 inp w d = true
    · rw [if_pos h, List.filter_cons_of_pos h, List.map_cons, pushAllChecked32_cons]
      cases hs : emitVertexChecked32 inp w d st with
      | none => rfl
      | some s => exact ih s
    · rw [if_neg h, List.filter_cons_of_neg h]
      exact ih st

theorem ExtractSurfaceKernel32_eq (inp : ExtractInput) (st : SurfaceState) (w : Nat) :
    ExtractSurfaceKernel32 inp st w =
      pushAllChecked32 inp st ((emittedDirs32 inp w).map (fun i => (w, i))) := by
  unfold ExtractSurfaceKernel32 emittedDirs32
  by_cases h : weightO inp w = 0
  · simp [h, pushAllChecked32]
  · simp only [h, if_false]
    exact foldlM_ExtractEdge32 inp w [0, 1, 2] st

theorem foldlM_ExtractSurfaceKernel32 (inp : ExtractInput) (order : List Nat) :
    ∀ st : SurfaceState, order.foldlM (ExtractSurfaceKernel32 inp) st =
      pushAllChecked32 inp st (emissions32 inp order) := by
  induction order with
  | nil => intro st; rfl
  | cons w order ih =>
    intro st
    rw [List.foldlM_cons, ExtractSurfaceKernel32_eq]
    unfold emissions32
    rw [List.flatMap_cons, pushAllChecked32_append]
    cases hs : pushAllChecked32 inp st ((emittedDirs32 inp w).map (fun i => (w, i))) with
    | none => rfl
    | some s => exact ih s

theorem count_pushAll32 (inp : ExtractInput) (es : List (Nat × Nat)) :
    ∀ st : SurfaceState, (pushAll32 inp st es).count = st.count + es.length := by
  induction es with
  | nil => intro st; rfl
  | cons e es ih =>
    intro st
    have : pushAll32 inp st (e :: es) = pushAll32 inp (emitVertex32 inp e.1 e.2 st) es := rfl
    rw [this, ih]
    simp only [emitVertex32, List.length_cons]
    omega

/-- With buffers of their allocated size the vertices of a list of edges are
all created exactly when the counter stays within `total_count`. -/
theorem pushAllChecked32_eq (inp : ExtractInput) (es : List (Nat × Nat)) :
    ∀ st : SurfaceState, st.count ≤ total_count → pushAllChecked32 inp st es =
      if st.count + es.length ≤ total_count then some (pushAll32 inp st es) else none := by
  induction es with
  | nil =>
    intro st h
    simp [pushAllChecked32_nil, pushAll32, h]
  | cons e es ih =>
    intro st _
    rw [pushAllChecked32_cons]
    unfold emitVertexChecked32
    by_cases h : st.count < total_count
    · have hc : (emitVertex32 inp e.1 e.2 st).count = st.count + 1 := rfl
      rw [if_pos h, Option.some_bind, ih _ (by rw [hc]; omega)]
      have hp : pushAll32 inp st (e :: es) = pushAll32 inp (emitVertex32 inp e.1 e.2 st) es := rfl
      rw [hc, hp]
      simp only [List.length_cons]
      by_cases h2 : st.count + 1 + es.length ≤ total_count
      · rw [if_pos h2, if_pos (by omega)]
      · rw [if_neg h2, if_neg (by omega)]
    · rw [if_neg h, Option.none_bind, if_neg]
      simp only [List.length_cons]
      omega

/-- The binary32 run ends normally, in the memory holding the vertices of the
edges in order of creation, exactly when their number stays within
`total_count`. -/
theorem ExtractSurface32_eq (order : List Nat) (inp : ExtractInput) (mem : SurfaceState) :
    ExtractSurface32 order inp mem =
      if (emissions32 inp order).length ≤ total_count then
        some (pushAll32 inp { mem with count := 0 } (emissions32 inp order))
      else none := by
  unfold ExtractSurface32
  rw [foldlM_ExtractSurfaceKernel32, pushAllChecked32_eq inp _ _ (Nat.zero_le _)]
  simp only [Nat.zero_add]

/-- An edge with a vertex, after a binary32 run over all workloads that stays
within the buffers: the run ends normally, the index stored for the edge is
below the counter and the buffers hold the coordinates of its vertex at that
index. -/
theorem vertex_of_emitted32 (order : List Nat) (inp : ExtractInput) (mem : SurfaceState)
    (hperm : order.Perm (List.range (extractWorkloads inp)))
    (hcap : (emittedPairs32 inp).card ≤ total_count) (w i : Nat)
    (hw : w < extractWorkloads inp) (he : Emitted32 inp w i) :
    ∃ st : SurfaceState, ExtractSurface32 order inp mem = some st ∧
      st.count = (emittedPairs32 inp).card ∧
      ∃ idx : Nat, vertexInd inp st w i = (idx : Int) ∧ idx < st.count ∧
        (st.vertices_x idx, st.vertices_y idx, st.vertices_z idx) = edgeVertex32 inp w i := by
  have hnd : order.Nodup := (hperm.nodup_iff).mpr (List.nodup_range _)
  have hin : (w, i) ∈ emissions32 inp order := (mem_emissions32 inp order w i).mpr
    ⟨by rw [hperm.mem_iff, List.mem_range]; exact hw, he⟩
  obtain ⟨j, hj, hje⟩ := List.getElem_of_mem hin
  obtain ⟨hc, hv, hs⟩ := pushAll32_spec inp { mem with count := 0 } rfl (emissions32 inp order)
  have hlen := length_emissions32 inp order hperm
  refine ⟨pushAll32 inp { mem with count := 0 } (emissions32 inp order), ?_, ?_, j, ?_, ?_, ?_⟩
  · rw [ExtractSurface32_eq, if_pos (by rw [hlen]; exact hcap)]
  · rw [hc, hlen]
  · have := hs (nodup_emissions32 inp order hnd) j hj
    rw [hje] at this
    exact this
  · rw [hc]
    exact hj
  · have := hv j hj
    rw [hje] at this
    exact this

/-! ### The interpolation fraction and the stored coordinates in binary32 -/

theorem mul_neg_of_rnd32_neg (a b : ℚ) (h : rnd32 (a * b) < 0) : a * b < 0 := by
  by_contra hc
  exact absurd h (not_lt.mpr (rnd32_nonneg _ (not_lt.mp hc)))

/-- The divisor of line 212 is at least as far from 0 as `tsdf_i`, on the same
side. -/
theorem rnd32_sub_bounds (a b : ℚ) (ha : rnd32 a = a) (h : a * b < 0) :
    (0 < a ∧ a ≤ rnd32 (a - b)) ∨ (a < 0 ∧ rnd32 (a - b) ≤ a) := by
  rcases lt_trichotomy a 0 with hn | h0 | hp
  · right
    have hb : 0 < b := by
      by_contra hc
      exact absurd h (not_lt.mpr (mul_nonneg_of_nonpos_of_nonpos hn.le (not_lt.mp hc)))
    have := rnd32_mono (a - b) a (by linarith)
    rw [ha] at this
    exact ⟨hn, this⟩
  · rw [h0, zero_mul] at h
    exact absurd h (lt_irrefl 0)
  · left
    have hb : b < 0 := by
      by_contra hc
      exact absurd h (not_lt.mpr (mul_nonneg hp.le (not_lt.mp hc)))
    have := rnd32_mono a (a - b) (by linarith)
    rw [ha] at this
    exact ⟨hp, this⟩

theorem quotient_bounds (a b : ℚ) (ha : rnd32 a = a) (h : a * b < 0) :
    rnd32 (a - b) ≠ 0 ∧ 0 < a / rnd32 (a - b) ∧ a / rnd32 (a - b) ≤ 1 := by
  rcases rnd32_sub_bounds a b ha h with ⟨hp, hd⟩ | ⟨hn, hd⟩
  · have hD : 0 < rnd32 (a - b) := lt_of_lt_of_le hp hd
    exact ⟨hD.ne.symm, div_pos hp hD, (div_le_one hD).mpr hd⟩
  · have hD : rnd32 (a - b) < 0 := lt_of_le_of_lt hd hn
    exact ⟨hD.ne, div_pos_of_neg_of_neg hn hD, (div_le_one_of_neg hD).mpr hd⟩

/-- In binary32 the fraction of line 212 lies in the closed interval `[0, 1]`
whenever the test of line 211 succeeds on a binary32 value `tsdf_i`. -/
theorem ratio32_bounds (a b : ℚ) (ha : rnd32 a = a) (h : rnd32 (a * b) < 0) :
    rnd32 (a - b) ≠ 0 ∧ 0 ≤ ratio32 a b ∧ ratio32 a b ≤ 1 := by
  obtain ⟨h1, h2, h3⟩ := quotient_bounds a b ha (mul_neg_of_rnd32_neg a b h)
  refine ⟨h1, rnd32_nonneg _ h2.le, ?_⟩
  have := rnd32_le_pow (a / rnd32 (a - b)) 0 (by norm_num) (by simpa using h3)
  simpa using this

theorem rnd32_abs_ge (a : ℚ) (ha : rnd32 a = a) (h0 : a ≠ 0) : 1 / 2 ^ 149 ≤ |a| := by
  have hu : (1 : ℚ) / 2 ^ 149 ≤ ulp32 a := by
    unfold ulp32
    have h1 : (2 : ℚ) ^ (-149 : Int) ≤ 2 ^ (binade a - 23) :=
      zpow_le_zpow_right₀ (by norm_num) (by have := binade_ge a; omega)
    have h2 : (2 : ℚ) ^ (-149 : Int) = 1 / 2 ^ 149 := by norm_num
    rw [← h2]
    exact h1
  have hk : roundHalfEven (a / ulp32 a) ≠ 0 := by
    intro hk
    apply h0
    rw [← ha]
    unfold rnd32
    rw [hk]
    simp
  have hk1 : (1 : ℚ) ≤ |(roundHalfEven (a / ulp32 a) : ℚ)| := by
    have : (1 : Int) ≤ |roundHalfEven (a / ulp32 a)| := Int.one_le_abs hk
    exact_mod_cast this
  have habs : |a| = |(roundHalfEven (a / ulp32 a) : ℚ)| * ulp32 a := by
    conv_lhs => rw [← ha]
    unfold rnd32
    rw [abs_mul, abs_of_pos (ulp32_pos a)]
  rw [habs]
  calc (1 : ℚ) / 2 ^ 149 ≤ ulp32 a := hu
    _ = 1 * ulp32 a := (one_mul _).symm
    _ ≤ |(roundHalfEven (a / ulp32 a) : ℚ)| * ulp32 a :=
        mul_le_mul_of_nonneg_right hk1 (ulp32_pos a).le

theorem rnd32_near_one : rnd32 (1 + 1 / 2 ^ 148) = 1 := by
  rw [rnd32_eval_pos (1 + 1 / 2 ^ 148) 0 8388608 (by norm_num) (by norm_num) (by norm_num)
    (roundHalfEven_eq_of_near _ 8388608 (by norm_num) (by norm_num))]
  norm_num

/-- On values in `[-1, 1]`, the range that Integrate maintains, the binary32
fraction of line 212 is not rounded to 0. -/
theorem ratio32_pos (a b : ℚ) (ha : rnd32 a = a) (h : rnd32 (a * b) < 0) (ha1 : |a| ≤ 1)
    (hb1 : |b| ≤ 1) : 0 < ratio32 a b := by
  have hab := mul_neg_of_rnd32_neg a b h
  obtain ⟨hD0, hq0, _⟩ := quotient_bounds a b ha hab
  have ha0 : a ≠ 0 := by
    rintro rfl
    rw [zero_mul] at hab
    exact absurd hab (lt_irrefl 0)
  have hage := rnd32_abs_ge a ha ha0
  have hDpos : 0 < |rnd32 (a - b)| := abs_pos.mpr hD0
  have hq : a / rnd32 (a - b) = |a| / |rnd32 (a - b)| := by
    rw [← abs_div, abs_of_pos hq0]
  have hge : (2 : ℚ) ^ (-149 : Int) ≤ a / rnd32 (a - b) := by
    have h2 : (2 : ℚ) ^ (-149 : Int) = 1 / 2 ^ 149 := by norm_num
    rw [h2, hq, le_div_iff₀ hDpos]
    rcases le_or_lt (1 / 2 ^ 148 : ℚ) |a| with hbig | hsmall
    · have hD2 : |rnd32 (a - b)| ≤ ((2 : Nat) : ℚ) := by
        refine rnd32_abs_le_nat _ 2 (by norm_num) ?_
        have := abs_sub a b
        push_cast
        linarith
      push_cast at hD2
      calc (1 : ℚ) / 2 ^ 149 * |rnd32 (a - b)| ≤ 1 / 2 ^ 149 * 2 :=
            mul_le_mul_of_nonneg_left hD2 (by positivity)
        _ = 1 / 2 ^ 148 := by norm_num
        _ ≤ |a| := hbig
    · have hD1 : |rnd32 (a - b)| ≤ 1 := by
        have hsub : |a - b| ≤ 1 + 1 / 2 ^ 148 := by
          have := abs_sub a b
          linarith
        rw [abs_le] at hsub ⊢
        have h1 := rnd32_mono _ _ hsub.1
        have h2' := rnd32_mono _ _ hsub.2
        rw [rnd32_neg, rnd32_near_one] at h1
        rw [rnd32_near_one] at h2'
        exact ⟨h1, h2'⟩
      calc (1 : ℚ) / 2 ^ 149 * |rnd32 (a - b)| ≤ 1 / 2 ^ 149 * 1 :=
            mul_le_mul_of_nonneg_left hD1 (by positivity)
        _ = 1 / 2 ^ 149 := by ring
        _ ≤ |a| := hage
  have := pow_le_rnd32 _ (-149) (by norm_num) hge
  exact lt_of_lt_of_le (by positivity) this

theorem coord32_mono (vs : ℚ) (g : Int) (r1 r2 e : ℚ) (hvs : 0 ≤ vs) (he : 0 ≤ e)
    (h : r1 ≤ r2) : coord32 vs g r1 e ≤ coord32 vs g r2 e := by
  unfold coord32
  refine rnd32_mono _ _ (mul_le_mul_of_nonneg_left (rnd32_mono _ _ ?_) hvs)
  have := rnd32_mono _ _ (mul_le_mul_of_nonneg_right h he)
  linarith

theorem coord32_zero (vs : ℚ) (g : Int) (e : ℚ) :
    coord32 vs g 0 e = rnd32 (vs * rnd32 (g : ℚ)) := by
  unfold coord32
  rw [zero_mul, rnd32_zero, add_zero, rnd32_idem]

theorem coord32_off (vs : ℚ) (g : Int) (r : ℚ) :
    coord32 vs g r 0 = rnd32 (vs * rnd32 (g : ℚ)) := by
  unfold coord32
  rw [mul_zero, rnd32_zero, add_zero, rnd32_idem]

theorem coord32_one (vs : ℚ) (g : Int) : coord32 vs g 1 1 = rnd32 (vs * rnd32 (rnd32 (g : ℚ) + 1)) := by
  unfold coord32
  rw [mul_one, rnd32_one]

/-- A stored coordinate lies between the one computed for the base voxel
(fraction 0) and the one computed for the neighbour (fraction 1), and is the
coordinate of the base voxel off the direction of the edge. -/
theorem coord32_between (vs : ℚ) (g : Int) (r : ℚ) (c i : Nat) (hvs : 0 ≤ vs) (h0 : 0 ≤ r)
    (h1 : r ≤ 1) :
    rnd32 (vs * rnd32 (g : ℚ)) ≤ coord32 vs g r (if i = c then 1 else 0) ∧
      coord32 vs g r (if i = c then 1 else 0) ≤
        rnd32 (vs * rnd32 (rnd32 (g : ℚ) + (if i = c then 1 else 0))) := by
  by_cases hic : i = c
  · simp only [hic, if_true]
    rw [← coord32_zero vs g 1, ← coord32_one]
    exact ⟨coord32_mono vs g 0 r 1 hvs zero_le_one h0, coord32_mono vs g r 1 1 hvs zero_le_one h1⟩
  · simp only [hic, if_false]
    rw [coord32_off, add_zero, rnd32_idem]
    exact ⟨le_refl _, le_refl _⟩

/-- The binary32 coordinates computed for an edge, written out: the block key
times `resolution` plus the local coordinate of the voxel in `int64_t`, converted
to binary32, plus the fraction of line 212 along the direction of the edge,
times `voxel_size`. -/
theorem edgeVertex32_explicit (inp : ExtractInput) (w i : Nat) :
    edgeVertex32 inp w i =
      (rnd32 (inp.voxel_size * rnd32 (rnd32
          ((wrap64 (wrap64 ((inp.tsdf.keys (w / inp.grid_shape.NumElements)).1 *
              (inp.grid_shape.d0 : Int)) +
            ((w % inp.grid_shape.NumElements % inp.grid_shape.d2 : Nat) : Int)) : Int) : ℚ) +
          rnd32 (ratio32 (tsdfI inp w i) (tsdfO inp w) * (if i = 0 then 1 else 0)))),
        rnd32 (inp.voxel_size * rnd32 (rnd32
          ((wrap64 (wrap64 ((inp.tsdf.keys (w / inp.grid_shape.NumElements)).2.1 *
              (inp.grid_shape.d0 : Int)) +
            ((w % inp.grid_shape.NumElements / inp.grid_shape.d2 % inp.grid_shape.d1 : Nat) :
              Int)) : Int) : ℚ) +
          rnd32 (ratio32 (tsdfI inp w i) (tsdfO inp w) * (if i = 1 then 1 else 0)))),
        rnd32 (inp.voxel_size * rnd32 (rnd32
          ((wrap64 (wrap64 ((inp.tsdf.keys (w / inp.grid_shape.NumElements)).2.2 *
              (inp.grid_shape.d0 : Int)) +
            ((w % inp.grid_shape.NumElements / (inp.grid_shape.d2 * inp.grid_shape.d1) : Nat) :
              Int)) : Int) : ℚ) +
          rnd32 (ratio32 (tsdfI inp w i) (tsdfO inp w) * (if i = 2 then 1 else 0))))) := rfl

theorem rnd32_eval_sub (x : ℚ) (k : Int) (h : |x| < 2 ^ (-126 + 1 : Int))
    (hr : roundHalfEven (x / 2 ^ (-126 - 23 : Int)) = k) :
    rnd32 x = (k : ℚ) * 2 ^ (-126 - 23 : Int) := by
  have hb : binade x = -126 :=
    le_antisymm (binade_le_of_lt x (-126) (le_refl _) h) (binade_ge x)
  unfold rnd32 ulp32
  rw [hb, hr]

theorem Emitted32_of_Emitted (inp : ExtractInput) (w i : Nat) (h : Emitted inp w i)
    (hr : rnd32 (tsdfI inp w i * tsdfO inp w) < 0) : Emitted32 inp w i :=
  ⟨h.1, h.2.1, h.2.2.1, h.2.2.2.1, hr⟩

theorem emittedPairs32_card_le (inp : ExtractInput) :
    (emittedPairs32 inp).card ≤ extractWorkloads inp * 3 := by
  have h : (emittedPairs32 inp).card ≤
      (Finset.range (extractWorkloads inp) ×ˢ Finset.range 3).card :=
    Finset.card_filter_le _ _
  rw [Finset.card_product, Finset.card_range, Finset.card_range] at h
  exact h

/-! ### Evaluation at the grazing volume -/

theorem grazingVolume_workloads : extractWorkloads grazingVolume = 1 := by
  simp [extractWorkloads, NumWorkloads, grazingVolume, SizeVector.NumElements]

theorem grazingVolume_tsdfO : tsdfO grazingVolume 0 = 1 / 2 ^ 30 := by
  simp [tsdfO, keyIdx, valueIdx, GetSparseWorkloadIdx, grazingVolume, SizeVector.NumElements]

theorem grazingVolume_tsdfI : tsdfI grazingVolume 0 0 = -1 := by
  simp [tsdfI, nbIdx, blockOffset, steppedCoord, valueIdx, keyIdx, GetSparseWorkloadIdx,
    ConvertOffsetTo3D, grazingVolume, SizeVector.NumElements]

theorem grazingVolume_product : rnd32 (-1 * (1 / 2 ^ 30)) = -(1 / 2 ^ 30) := by
  rw [show (-1 : ℚ) * (1 / 2 ^ 30) = -(1 / 2 ^ 30) by ring, rnd32_neg]
  congr 1
  exact rnd32_eq_of_exact _ _ (-30) 8388608 (by norm_num) rfl (by norm_num) (by norm_num)
    (by norm_num)

theorem grazingVolume_emitted : Emitted32 grazingVolume 0 0 := by
  refine ⟨?_, by decide, ?_, ?_, ?_⟩
  · simp [weightO, grazingVolume]
  · simp [nbValid, nbIdx, blockOffset, steppedCoord, valueIdx, keyIdx, GetSparseWorkloadIdx,
      ConvertOffsetTo3D, Convert2DToOffset, grazingVolume, SizeVector.NumElements]
  · simp [weightI, grazingVolume]
  · rw [grazingVolume_tsdfI, grazingVolume_tsdfO, grazingVolume_product]
    norm_num

theorem grazingVolume_ratio32 : ratio32 (-1) (1 / 2 ^ 30) = 1 := by
  have hd : rnd32 (-1 - 1 / 2 ^ 30) = -1 := by
    rw [show (-1 : ℚ) - 1 / 2 ^ 30 = -(1 + 1 / 2 ^ 30) by ring, rnd32_neg]
    congr 1
    rw [rnd32_eval_pos (1 + 1 / 2 ^ 30) 0 8388608 (by norm_num) (by norm_num) (by norm_num)
      (roundHalfEven_eq_of_near _ 8388608 (by norm_num) (by norm_num))]
    norm_num
  unfold ratio32
  rw [hd, show (-1 : ℚ) / -1 = 1 by norm_num]
  exact rnd32_one

theorem grazingVolume_voxelCoord64 :
    voxelCoord64 grazingVolume.grid_shape grazingVolume.tsdf.keys 0 = (0, 0, 0) := by
  decide

theorem grazingVolume_vertex_x : (edgeVertex32 grazingVolume 0 0).1 = 2 := by
  unfold edgeVertex32
  rw [grazingVolume_tsdfI, grazingVolume_tsdfO, grazingVolume_ratio32, grazingVolume_voxelCoord64]
  simp only [if_true, coord32_one]
  have h2 : rnd32 2 = 2 := by
    have := rnd32_natCast 2 (by norm_num)
    simpa using this
  rw [Int.cast_zero, rnd32_zero, zero_add, rnd32_one, show grazingVolume.voxel_size = 2 from rfl,
    mul_one, h2]

theorem tiny_ratio32 :
    rnd32 (1 / 2 ^ 149 * -4) < 0 ∧ rnd32 (1 / 2 ^ 149) = 1 / 2 ^ 149 ∧
      ratio32 (1 / 2 ^ 149) (-4) = 0 := by
  have hp : rnd32 (1 / 2 ^ 149 * -4) = -(1 / 2 ^ 147) := by
    rw [show (1 : ℚ) / 2 ^ 149 * -4 = -(1 / 2 ^ 147) by norm_num, rnd32_neg]
    congr 1
    exact rnd32_eq_of_exact _ _ (-126) 4 (by norm_num) rfl (by norm_num) (by norm_num)
      (by norm_num)
  have hs : rnd32 (1 / 2 ^ 149) = 1 / 2 ^ 149 :=
    rnd32_eq_of_exact _ _ (-126) 1 (by norm_num) rfl (by norm_num) (by norm_num) (by norm_num)
  have hd : rnd32 (1 / 2 ^ 149 - -4) = 4 := by
    rw [rnd32_eval_pos (1 / 2 ^ 149 - -4) 2 8388608 (by norm_num) (by norm_num) (by norm_num)
      (roundHalfEven_eq_of_near _ 8388608 (by norm_num) (by norm_num))]
    norm_num
  refine ⟨by rw [hp]; norm_num, hs, ?_⟩
  unfold ratio32
  rw [hd, rnd32_eval_sub (1 / 2 ^ 149 / 4) 0 (by rw [abs_of_pos (by norm_num)]; norm_num)
    (roundHalfEven_eq_of_near _ 0 (by norm_num) (by norm_num))]
  norm_num

theorem rnd32_abs_le_pow (x : ℚ) (m : Int) (hm : -149 ≤ m) (h : |x| ≤ 2 ^ m) :
    |rnd32 x| ≤ 2 ^ m := by
  rw [abs_le] at h ⊢
  have h1 := rnd32_le_pow (-x) m hm (by linarith)
  rw [rnd32_neg] at h1
  exact ⟨by linarith, rnd32_le_pow x m hm h.2⟩

theorem wrap64_abs_le (z : Int) : |((wrap64 z : Int) : ℚ)| ≤ 2 ^ (63 : Int) := by
  have h1 : -2 ^ 63 ≤ wrap64 z := by
    unfold wrap64
    have := Int.emod_nonneg (z + 2 ^ 63) (by norm_num : (2 : Int) ^ 64 ≠ 0)
    omega
  have h2 : wrap64 z < 2 ^ 63 := by
    unfold wrap64
    have := Int.emod_lt_of_pos (z + 2 ^ 63) (by norm_num : (0 : Int) < 2 ^ 64)
    omega
  rw [abs_le]
  constructor
  · have : ((-2 ^ 63 : Int) : ℚ) ≤ ((wrap64 z : Int) : ℚ) := by exact_mod_cast h1
    refine le_trans ?_ this
    norm_num
  · have : ((wrap64 z : Int) : ℚ) ≤ ((2 ^ 63 : Int) : ℚ) := by exact_mod_cast h2.le
    refine le_trans this ?_
    norm_num

theorem voxelCoord64_abs_le (shape : SizeVector) (keys : Nat → Int × Int × Int) (w : Nat) :
    |((voxelCoord64 shape keys w).1 : ℚ)| ≤ 2 ^ (63 : Int) ∧
      |((voxelCoord64 shape keys w).2.1 : ℚ)| ≤ 2 ^ (63 : Int) ∧
      |((voxelCoord64 shape keys w).2.2 : ℚ)| ≤ 2 ^ (63 : Int) :=
  ⟨wrap64_abs_le _, wrap64_abs_le _, wrap64_abs_le _⟩

theorem ratio_mul_abs_le (r : ℚ) (c i : Nat) (h0 : 0 ≤ r) (h1 : r ≤ 1) :
    |r * (if i = c then 1 else 0)| ≤ 1 := by
  split_ifs
  · rw [mul_one, abs_of_nonneg h0]
    exact h1
  · simp

/-- No operation of a stored coordinate leaves the range of binary32 when
`0 <= voxel_size <= 2^63`: the result is at most `2^127` in magnitude. -/
theorem coord32_abs_le (vs : ℚ) (g : Int) (r e : ℚ) (hvs : 0 ≤ vs) (hvs1 : vs ≤ 2 ^ 63)
    (hg : |(g : ℚ)| ≤ 2 ^ (63 : Int)) (hr : |r * e| ≤ 1) : |coord32 vs g r e| ≤ 2 ^ 127 := by
  have h1 : |rnd32 (g : ℚ)| ≤ 2 ^ (63 : Int) := rnd32_abs_le_pow _ 63 (by norm_num) hg
  have h2 : |rnd32 (r * e)| ≤ 2 ^ (0 : Int) := rnd32_abs_le_pow _ 0 (by norm_num) (by simpa using hr)
  have h3 : |rnd32 (g : ℚ) + rnd32 (r * e)| ≤ 2 ^ (64 : Int) := by
    refine le_trans (abs_add _ _) ?_
    have e1 : (2 : ℚ) ^ (63 : Int) = 2 ^ 63 := by norm_num
    have e2 : (2 : ℚ) ^ (0 : Int) = 1 := by norm_num
    have e3 : (2 : ℚ) ^ (64 : Int) = 2 ^ 64 := by norm_num
    rw [e1] at h1
    rw [e2] at h2
    rw [e3]
    have : (2 : ℚ) ^ 63 + 1 ≤ 2 ^ 64 := by norm_num
    linarith
  have h4 := rnd32_abs_le_pow _ 64 (by norm_num) h3
  have h5 : |vs * rnd32 (rnd32 (g : ℚ) + rnd32 (r * e))| ≤ 2 ^ (127 : Int) := by
    rw [abs_mul, abs_of_nonneg hvs]
    have e3 : (2 : ℚ) ^ (64 : Int) = 2 ^ 64 := by norm_num
    rw [e3] at h4
    calc vs * |rnd32 (rnd32 (g : ℚ) + rnd32 (r * e))| ≤ 2 ^ 63 * 2 ^ 64 :=
          mul_le_mul hvs1 h4 (abs_nonneg _) (by positivity)
      _ = 2 ^ (127 : Int) := by norm_num
  have h6 := rnd32_abs_le_pow _ 127 (by norm_num) h5
  unfold coord32
  refine le_trans h6 ?_
  norm_num

/-! ## ExtractSurface in binary32: position of the vertices on their edges -/

end open3d.core.kernel
